import Mathlib

/-!
# The dgo type printer and the any type

A shallow embedding of `internal/typestring.go` and `internal/any.go`, followed by
models of the error values, of the record validator and of `Map.Copy`, whose
implementations are not among the sources and are modelled from the spec.

* A type graph is a `Heap`: a finite table of type objects addressed by index.  A reference
  is a natural number; a reference that addresses no object is the nil interface.  Cyclic
  graphs are ordinary heaps (an object may hold its own index).
* The `strings.Builder` is write-only, so every writer returns the text it appends; a
  sequence of writes is the concatenation of the texts (`Res.andThen`).  A run-time panic
  (method call on nil, failed type assertion) is the result `Res.panic`.
* `buildTypeString` recurses on a fuel argument; `Res.exhausted` is the only result that is
  an artefact of the embedding; it is never produced once the fuel exceeds the number of
  objects in the heap.
* Go's `int` is taken to be 64 bits wide, so `int64(x)` is the identity on bounds.
-/

namespace Dgo

/-! ## Kind tags -/

/-- The constants of `dgo.TypeIdentifier` that the sources name, and `TiOther` for every
other constant of the enumeration (the enumeration itself is declared outside the sources
at hand). -/
inductive TypeIdentifier where
  | TiAny
  | TiMeta
  | TiAnyOf
  | TiOneOf
  | TiAllOf
  | TiAllOfValue
  | TiArrayExact
  | TiArray
  | TiBinary
  | TiTuple
  | TiMap
  | TiMapExact
  | TiStruct
  | TiMapEntryExact
  | TiFloatExact
  | TiFloatRange
  | TiIntegerExact
  | TiIntegerRange
  | TiRegexpExact
  | TiStringExact
  | TiStringPattern
  | TiStringSized
  | TiNot
  | TiNative
  | TiOther (code : Nat)
  deriving DecidableEq, Repr

/-- The value `math.MaxInt64`. -/
def MaxInt64 : Int := 9223372036854775807

/-- The value `math.MinInt64`. -/
def MinInt64 : Int := -9223372036854775808

/-- The bit pattern of the float64 `math.MaxFloat64`. -/
def MaxFloat64Bits : Nat := 0x7FEFFFFFFFFFFFFF

/-- The bit pattern of the float64 `-math.MaxFloat64`. -/
def NegMaxFloat64Bits : Nat := 0xFFEFFFFFFFFFFFFF

/-! ## Type objects -/

/-- One `dgo.StructEntry` of a record type: `Key()`, `Value()` (references) and
`Required()`. -/
structure StructEntry where
  key : Nat
  value : Nat
  required : Bool
  deriving DecidableEq, Repr

/-- A type object, one constructor per implementation the printer can meet.  Operands are
references into the heap.  Payloads of exact types are what the printer reads from the
wrapped value: `elements`, `entries`, `key`, `value` and the operands of `allOfValue` are
references of values (turned into types by `Heap.typeOf`), `str` is `Value().String()`,
`bits` is the IEEE-754 pattern of a float64 (neither bound the printer compares against is
a NaN or a zero, so `!=` on floats is `≠` on patterns there). -/
inductive DgoType where
  | any
  | simple (code : Nat)
  | anyOf (operands : List Nat)
  | oneOf (operands : List Nat)
  | allOf (operands : List Nat)
  | allOfValue (operands : List Nat)
  | arrayExact (elements : List Nat)
  | array (min max : Int) (elementType : Nat)
  | binary (min max : Int)
  | tuple (elementTypes : List Nat)
  | map (keyType : Nat) (min max : Int) (valueType : Nat)
  | mapExact (entries : List Nat)
  | struct (entries : List StructEntry) (additional : Bool)
  | mapEntryExact (key value : Nat)
  | floatExact (bits : Nat)
  | floatRange (min max : Nat) (inclusive : Bool)
  | integerExact (str : String)
  | integerRange (min max : Int) (inclusive : Bool)
  | regexpExact (str : String)
  | stringExact (str : String)
  | stringPattern (str : String)
  | stringSized (min max : Int)
  | not (operand : Nat)
  | native (goType : String)
  | meta (operand : Nat)
  deriving DecidableEq, Repr

/-- The method `TypeIdentifier()`: the fixed kind tag of each implementation
(`anyType.TypeIdentifier` returns `dgo.TiAny`). -/
def DgoType.TypeIdentifier : DgoType → TypeIdentifier
  | .any => .TiAny
  | .simple code => .TiOther code
  | .anyOf _ => .TiAnyOf
  | .oneOf _ => .TiOneOf
  | .allOf _ => .TiAllOf
  | .allOfValue _ => .TiAllOfValue
  | .arrayExact _ => .TiArrayExact
  | .array _ _ _ => .TiArray
  | .binary _ _ => .TiBinary
  | .tuple _ => .TiTuple
  | .map _ _ _ _ => .TiMap
  | .mapExact _ => .TiMapExact
  | .struct _ _ => .TiStruct
  | .mapEntryExact _ _ => .TiMapEntryExact
  | .floatExact _ => .TiFloatExact
  | .floatRange _ _ _ => .TiFloatRange
  | .integerExact _ => .TiIntegerExact
  | .integerRange _ _ _ => .TiIntegerRange
  | .regexpExact _ => .TiRegexpExact
  | .stringExact _ => .TiStringExact
  | .stringPattern _ => .TiStringPattern
  | .stringSized _ _ => .TiStringSized
  | .not _ => .TiNot
  | .native _ => .TiNative
  | .meta _ => .TiMeta

/-- The object graph the printer walks.  `types` is the table of type objects;
`typeOf v` is the reference that the method `Type()` of the value `v` returns (the `Type`
methods of values are outside the sources at hand; the type of a value is taken to be one
fixed object of the graph). -/
structure Heap where
  types : List DgoType
  typeOf : Nat → Nat

/-- Dereference: `none` is the nil interface. -/
def Heap.deref (h : Heap) (ref : Nat) : Option DgoType := h.types[ref]?

/-- The functions of other packages that the printer calls: `dgo.TypeIdentifier.String`,
`strconv.Quote`, `RegexpSlashQuote` (as the text it writes) and `util.Ftoa` (on bit
patterns). -/
structure Lib where
  tiString : TypeIdentifier → String
  quote : String → String
  regexpSlashQuote : String → String
  ftoa : Nat → String

/-! ## Results of a writer -/

/-- What a call of a writer does: it returns after appending `text` to the builder, it
panics, or (embedding only) the fuel ran out. -/
inductive Res where
  | wrote (text : String)
  | panic
  | exhausted
  deriving DecidableEq, Repr

/-- Sequencing of two writers: the second runs only when the first has returned. -/
def Res.andThen : Res → Res → Res
  | .wrote a, .wrote b => .wrote (a ++ b)
  | .wrote _, r => r
  | r, _ => r

instance : Append Res := ⟨Res.andThen⟩

/-! ## strconv.FormatInt -/

/-- The decimal digit `d` as a character. -/
def digitChar (d : Nat) : Char := Char.ofNat (48 + d)

/-- Digits of `n`, most significant first, pushed in front of `acc`; `fuel` bounds the
number of digits. -/
def formatNatAux : Nat → Nat → List Char → List Char
  | 0, _, acc => acc
  | fuel + 1, n, acc =>
    if n < 10 then digitChar n :: acc
    else formatNatAux fuel (n / 10) (digitChar (n % 10) :: acc)

/-- Decimal text of a natural number. -/
def formatNat (n : Nat) : String := ⟨formatNatAux (n + 1) n []⟩

/-- The function `strconv.FormatInt(i, 10)`: decimal text with a leading `-` for negative
numbers. -/
def FormatInt (i : Int) : String :=
  match i with
  | .ofNat n => formatNat n
  | .negSucc n => "-" ++ formatNat (n + 1)

/-! ## The printer -/

def commaPrio : Nat := 0
def orPrio : Nat := 1
def xorPrio : Nat := 2
def andPrio : Nat := 3
def typePrio : Nat := 4

/-- The conversion `typeAsType`: the value is itself a type. -/
def typeAsType (v : Nat) : Nat := v

/-- The conversion `valueAsType`: the type of the value. -/
def valueAsType (h : Heap) (v : Nat) : Nat := h.typeOf v

/-- Modelled from the spec: `recursionHit` is not among the sources; the spec has the
printer check "whether the node already appears in `seen` (by identity/equality)".
Identity of an object is its reference. -/
def recursionHit (seen : List Nat) (typ : Nat) : Bool := seen.contains typ

/-- Modelled from the spec: the `Unbounded()` methods are not among the sources; the spec
has `Unbounded()` "true iff `Min()==0 && Max()==maxInt`". -/
def Unbounded (min max : Int) : Bool := min == 0 && max == MaxInt64

/-- The loop of an `Each` callback that writes the separator `s` before every element but
the first (the captured variable `first`). -/
def eachJoin {α : Type} (body : α → Res) (s : String) : Bool → List α → Res
  | _, [] => .wrote ""
  | first, x :: xs =>
    (if first then .wrote "" else .wrote s) ++ body x ++ eachJoin body s false xs

/-- The recursive call a table entry makes: `buildTypeString(seen, typ, prio, sb)`. -/
abbrev Build := List Nat → Nat → Nat → Res

def joinX (build : Build) (seen : List Nat) (v : List Nat) (tc : Nat → Nat) (s : String)
    (prio : Nat) : Res :=
  eachJoin (fun x => build seen (tc x) prio) s true v

def joinTypes (build : Build) (seen : List Nat) (v : List Nat) (s : String) (prio : Nat) :
    Res :=
  joinX build seen v typeAsType s prio

def joinValueTypes (h : Heap) (build : Build) (seen : List Nat) (v : List Nat) (s : String)
    (prio : Nat) : Res :=
  joinX build seen v (valueAsType h) s prio

def joinStructEntries (build : Build) (seen : List Nat) (v : List StructEntry) : Res :=
  eachJoin (fun e =>
    build seen e.key commaPrio
      ++ (if !e.required then .wrote "?" else .wrote "")
      ++ .wrote ":"
      ++ build seen e.value commaPrio) "," true v

def writeSizeBoundaries (min max : Int) : Res :=
  .wrote (FormatInt min)
    ++ (if max ≠ MaxInt64 then .wrote "," ++ .wrote (FormatInt max) else .wrote "")

def writeIntRange (min max : Int) (inclusive : Bool) : Res :=
  (if min ≠ MinInt64 then .wrote (FormatInt min) else .wrote "")
    ++ .wrote (if inclusive then ".." else "...")
    ++ (if max ≠ MaxInt64 then .wrote (FormatInt max) else .wrote "")

def writeFloatRange (lib : Lib) (min max : Nat) (inclusive : Bool) : Res :=
  (if min ≠ NegMaxFloat64Bits then .wrote (lib.ftoa min) else .wrote "")
    ++ .wrote (if inclusive then ".." else "...")
    ++ (if max ≠ MaxFloat64Bits then .wrote (lib.ftoa max) else .wrote "")

/-- The assertion `typ.(dgo.TernaryType).Operands()`. -/
def DgoType.ternaryOperands : DgoType → Option (List Nat)
  | .anyOf ops => some ops
  | .oneOf ops => some ops
  | .allOf ops => some ops
  | .allOfValue ops => some ops
  | _ => none

def writeTernary (build : Build) (seen : List Nat) (typ : DgoType) (tc : Nat → Nat)
    (prio : Nat) (op : String) (opPrio : Nat) : Res :=
  (if prio ≥ orPrio then .wrote "(" else .wrote "")
    ++ (match typ.ternaryOperands with
        | some operands => joinX build seen operands tc op opPrio
        | none => .panic)
    ++ (if prio ≥ orPrio then .wrote ")" else .wrote "")

/-- The signature `typeToString` of a table entry (the builder is the result). -/
abbrev typeToString := List Nat → DgoType → Nat → Res

/-- The dispatch table `complexTypes`; `none` is a key that is absent.  An entry reaches
the heap and `buildTypeString` through `h` and `build`.  A failed type assertion on `typ`
is a panic. -/
def complexTypes (lib : Lib) (h : Heap) (build : Build) : TypeIdentifier → Option typeToString
  | .TiAnyOf => some fun seen typ prio =>
      writeTernary build seen typ typeAsType prio "|" orPrio
  | .TiOneOf => some fun seen typ prio =>
      writeTernary build seen typ typeAsType prio "^" xorPrio
  | .TiAllOf => some fun seen typ prio =>
      writeTernary build seen typ typeAsType prio "&" andPrio
  | .TiAllOfValue => some fun seen typ prio =>
      writeTernary build seen typ (valueAsType h) prio "&" andPrio
  | .TiArrayExact => some fun seen typ _ =>
      match typ with
      | .arrayExact elements =>
        .wrote "\x7b" ++ joinValueTypes h build seen elements "," commaPrio ++ .wrote "\x7d"
      | _ => .panic
  | .TiArray => some fun seen typ _ =>
      match typ with
      | .array min max elementType =>
        (if Unbounded min max then .wrote "[]"
          else .wrote "[" ++ writeSizeBoundaries min max ++ .wrote "]")
          ++ build seen elementType typePrio
      | _ => .panic
  | .TiBinary => some fun _ typ _ =>
      match typ with
      | .binary min max =>
        .wrote "binary"
          ++ (if !Unbounded min max then
                .wrote "[" ++ writeSizeBoundaries min max ++ .wrote "]"
              else .wrote "")
      | _ => .panic
  | .TiTuple => some fun seen typ _ =>
      match typ with
      | .tuple elementTypes =>
        .wrote "\x7b" ++ joinTypes build seen elementTypes "," commaPrio ++ .wrote "\x7d"
      | _ => .panic
  | .TiMap => some fun seen typ _ =>
      match typ with
      | .map keyType min max valueType =>
        .wrote "map[" ++ build seen keyType commaPrio
          ++ (if !Unbounded min max then .wrote "," ++ writeSizeBoundaries min max
              else .wrote "")
          ++ .wrote "]" ++ build seen valueType typePrio
      | _ => .panic
  | .TiMapExact => some fun seen typ _ =>
      match typ with
      | .mapExact entries =>
        .wrote "\x7b" ++ joinValueTypes h build seen entries "," commaPrio ++ .wrote "\x7d"
      | _ => .panic
  | .TiStruct => some fun seen typ _ =>
      match typ with
      | .struct entries additional =>
        .wrote "\x7b" ++ joinStructEntries build seen entries
          ++ (if additional then
                (if entries.length > 0 then .wrote "," else .wrote "") ++ .wrote "..."
              else .wrote "")
          ++ .wrote "\x7d"
      | _ => .panic
  | .TiMapEntryExact => some fun seen typ _ =>
      match typ with
      | .mapEntryExact key value =>
        build seen (h.typeOf key) commaPrio ++ .wrote ":"
          ++ build seen (h.typeOf value) commaPrio
      | _ => .panic
  | .TiFloatExact => some fun _ typ _ =>
      match typ with
      | .floatExact bits => .wrote (lib.ftoa bits)
      | _ => .panic
  | .TiFloatRange => some fun _ typ _ =>
      match typ with
      | .floatRange min max inclusive => writeFloatRange lib min max inclusive
      | _ => .panic
  | .TiIntegerExact => some fun _ typ _ =>
      match typ with
      | .integerExact str => .wrote str
      | _ => .panic
  | .TiIntegerRange => some fun _ typ _ =>
      match typ with
      | .integerRange min max inclusive => writeIntRange min max inclusive
      | _ => .panic
  | .TiRegexpExact => some fun _ typ _ =>
      match typ with
      | .regexpExact str => .wrote "regexp[" ++ .wrote (lib.quote str) ++ .wrote "]"
      | _ => .panic
  | .TiStringExact => some fun _ typ _ =>
      match typ with
      | .stringExact str => .wrote (lib.quote str)
      | _ => .panic
  | .TiStringPattern => some fun _ typ _ =>
      match typ with
      | .stringPattern str => .wrote (lib.regexpSlashQuote str)
      | _ => .panic
  | .TiStringSized => some fun _ typ _ =>
      match typ with
      | .stringSized min max =>
        .wrote "string"
          ++ (if !Unbounded min max then
                .wrote "[" ++ writeSizeBoundaries min max ++ .wrote "]"
              else .wrote "")
      | _ => .panic
  | .TiNot => some fun seen typ _ =>
      match typ with
      | .not operand => .wrote "!" ++ build seen operand typePrio
      | _ => .panic
  | .TiNative => some fun _ typ _ =>
      match typ with
      | .native goType => .wrote goType
      | _ => .panic
  | .TiMeta => some fun seen typ prio =>
      match typ with
      | .meta op =>
        .wrote "type"
          ++ (if h.deref op ≠ some .any then
                (if h.deref op = none then .wrote "[type]"
                  else .wrote "[" ++ build seen op prio ++ .wrote "]")
              else .wrote "")
      | _ => .panic
  | _ => none

/-- The function `buildTypeString`.  The call `typ.TypeIdentifier()` panics on nil. -/
def buildTypeString (lib : Lib) (h : Heap) : Nat → Build
  | 0, _, _, _ => .exhausted
  | fuel + 1, seen, typ, prio =>
    match h.deref typ with
    | none => .panic
    | some t =>
      let ti := t.TypeIdentifier
      match complexTypes lib h (buildTypeString lib h fuel) ti with
      | some f =>
        if recursionHit seen typ then
          .wrote "<recursive self reference to " ++ .wrote (lib.tiString ti)
            ++ .wrote " type>"
        else f (seen ++ [typ]) t prio
      | none => .wrote (lib.tiString ti)

/-- The function `TypeString`: the builder starts empty, `seen` is nil and the priority
is 0.  The fuel is one more than the number of objects, which is enough for every heap. -/
def TypeString (lib : Lib) (h : Heap) (typ : Nat) : Res :=
  buildTypeString lib h (h.types.length + 1) [] typ 0

/-! ## The any type (any.go) -/

/-- The type `anyType` of any.go, declared as `type anyType int`. -/
structure anyType where
  val : Int
  deriving DecidableEq, Repr

/-- The constant `DefaultAnyType = anyType(0)`. -/
def DefaultAnyType : anyType := ⟨0⟩

/-- A Go interface value as `==` sees it: nil, a value of dynamic type `anyType`, or a value
of another dynamic type (named, with an identity). -/
inductive Iface where
  | nil
  | ofAnyType (t : anyType)
  | other (dynType : String) (id : Nat)
  deriving DecidableEq, Repr

/-- The method `anyType.Assignable`. -/
def anyType.Assignable (_t : anyType) (_other : Iface) : Bool := true

/-- The method `anyType.Equals`: `t == other`, true when `other` holds an `anyType` of the
same value. -/
def anyType.Equals (t : anyType) (other : Iface) : Bool := decide (Iface.ofAnyType t = other)

/-- The method `anyType.HashCode`: `int(dgo.TiAny)`; `tiInt` gives the numeric value of a
kind tag (the enumeration is declared outside the sources at hand). -/
def anyType.HashCode (tiInt : TypeIdentifier → Int) (_t : anyType) : Int := tiInt .TiAny

/-- The method `anyType.Instance`. -/
def anyType.Instance (_t : anyType) (_value : Iface) : Bool := true

/-- The method `anyType.String`: `TypeString(t)`, the printer run on the any type. -/
def anyType.String (lib : Lib) : Res := TypeString lib ⟨[.any], id⟩ 0

/-- The method `anyType.TypeIdentifier`. -/
def anyType.TypeIdentifier (_t : anyType) : Dgo.TypeIdentifier := .TiAny

/-! ## Predicates and texts used to state the claims -/

/-- Whether a kind tag is a key of the dispatch table. -/
def isComplex (ti : TypeIdentifier) : Bool :=
  match ti with
  | .TiAny => false
  | .TiOther _ => false
  | _ => true

/-- The text written for the entry found under `ti` (a panic for an absent key, which
`buildTypeString` never asks for). -/
def applyTable (lib : Lib) (h : Heap) (build : Build) (ti : TypeIdentifier)
    (seen : List Nat) (typ : DgoType) (prio : Nat) : Res :=
  match complexTypes lib h build ti with
  | some f => f seen typ prio
  | none => .panic

/-- The text `buildTypeString` writes on a recursion hit. -/
def placeholder (lib : Lib) (ti : TypeIdentifier) : String :=
  "<recursive self reference to " ++ lib.tiString ti ++ " type>"

/-- Whether a writer returned normally. -/
def Res.isWrote : Res → Bool
  | .wrote _ => true
  | _ => false

/-- The references a table entry passes to `buildTypeString` without a nil check. -/
def DgoType.refs (h : Heap) : DgoType → List Nat
  | .anyOf operands => operands
  | .oneOf operands => operands
  | .allOf operands => operands
  | .allOfValue operands => operands.map h.typeOf
  | .arrayExact elements => elements.map h.typeOf
  | .array _ _ elementType => [elementType]
  | .tuple elementTypes => elementTypes
  | .map keyType _ _ valueType => [keyType, valueType]
  | .mapExact entries => entries.map h.typeOf
  | .struct entries _ => entries.map (fun e => e.key) ++ entries.map (fun e => e.value)
  | .mapEntryExact key value => [h.typeOf key, h.typeOf value]
  | .not operand => [operand]
  | _ => []

/-- A heap without dangling references: every reference that an object hands to
`buildTypeString` unchecked addresses an object (the operand of a meta type may be nil). -/
def Heap.wellFormed (h : Heap) : Bool :=
  h.types.all (fun t => (t.refs h).all (fun r => decide (r < h.types.length)))

/-- The number a list of decimal digits denotes, most significant digit first. -/
def decimalValue (ds : List Nat) : Nat := ds.foldl (fun a d => 10 * a + d) 0

/-- Whether a character can occur in the text of `FormatInt`. -/
def isIntChar (c : Char) : Bool := c.isDigit || c == '-'

/-- The text `s` is the decimal numeral of `i`: an optional `-` followed by a nonempty run
of decimal digits that denote the absolute value of `i`. -/
def IsDecimalOf (s : String) (i : Int) : Prop :=
  ∃ ds : List Nat, s.data = (if i < 0 then ['-'] else []) ++ ds.map digitChar ∧
    (∀ d ∈ ds, d < 10) ∧ ds ≠ [] ∧ decimalValue ds = i.natAbs

/-- The characters a sized type writes after its keyword. -/
def boundsChars (min max : Int) : List Char :=
  if min = 0 ∧ max = MaxInt64 then []
  else if max = MaxInt64 then '[' :: ((FormatInt min).data ++ [']'])
  else '[' :: ((FormatInt min).data ++ ',' :: ((FormatInt max).data ++ [']']))

/-- The texts of `l` with `s` between neighbours. -/
def sepBy (s : String) : List String → String
  | [] => ""
  | [a] => a
  | a :: b :: rest => a ++ s ++ sepBy s (b :: rest)

/-- The text of one record entry as the spec words it: the rendered key, `?` exactly when
the entry is not required, `:`, the rendered value type. -/
def entryText (key : String) (required : Bool) (value : String) : String :=
  key ++ (if required then "" else "?") ++ ":" ++ value

/-- The text of a record type as the spec words it: `{`, the entries in declaration order
separated by `,`, then, when additional entries are permitted, `...` preceded by `,`
exactly when there is at least one entry, then `}`. -/
def structText (entries : List String) (additional : Bool) : String :=
  "\x7b" ++ sepBy "," entries
    ++ (if additional then (if entries.length > 0 then "," else "") ++ "..." else "")
    ++ "\x7d"

/-! ## Sample inputs -/

/-- Sample names of the kinds, used to evaluate the printer on concrete heaps. -/
def sampleTiString : TypeIdentifier → String
  | .TiAny => "any"
  | .TiMeta => "type"
  | .TiAnyOf => "anyOf"
  | .TiOneOf => "oneOf"
  | .TiAllOf => "allOf"
  | .TiStruct => "struct"
  | .TiTuple => "tuple"
  | .TiNot => "not"
  | .TiOther 0 => "string"
  | .TiOther 1 => "int"
  | _ => "other"

/-- A concrete instance of the library functions, used to evaluate the printer on concrete
heaps: sample kind names, quoting as it is for texts without special characters, a fixed
float text. -/
def sampleLib : Lib where
  tiString := sampleTiString
  quote := fun s => "\"" ++ s ++ "\""
  regexpSlashQuote := fun s => "/" ++ s ++ "/"
  ftoa := fun _ => "1.5"

/-- A union that is its own first operand: object 0 is `0|1`, object 1 is the any type. -/
def selfUnion : Heap := ⟨[.anyOf [0, 1], .any], id⟩

/-- A union whose first operand is an intersection: object 0 is `1|2`, object 1 is `2&2`,
object 2 is the any type. -/
def unionOfIntersection : Heap := ⟨[.anyOf [1, 2], .allOf [2, 2], .any], id⟩

/-- A heap that holds the sized string type with bounds `[1,10]` and the one with bounds
`[0, max]`. -/
def sizedStrings : Heap := ⟨[.stringSized 1 10, .stringSized 0 MaxInt64], id⟩

/-- The record type with the single required entry `"a"` of type string: object 0 is the
record, object 1 its key (the exact string `a`), object 2 the string type. -/
def recordA : Heap :=
  ⟨[.struct [⟨1, 2, true⟩] false, .stringExact "a", .stringSized 0 MaxInt64], id⟩

/-- A heap of integer range types: `1..10`, `...5` and `0..`. -/
def intRanges : Heap :=
  ⟨[.integerRange 1 10 true, .integerRange MinInt64 5 false, .integerRange 0 MaxInt64 true],
    id⟩

/-- An unbounded array of unbounded binaries, an unbounded binary and an unbounded sized
string. -/
def unboundedSized : Heap :=
  ⟨[.array 0 MaxInt64 1, .binary 0 MaxInt64, .stringSized 0 MaxInt64], id⟩

/-- A heap with the any type, a kind outside the table and a negation that is its own
operand. -/
def atoms : Heap := ⟨[.any, .simple 0, .not 2], id⟩

/-! ## Texts and predicates for the later claims -/

/-- The characters `writeIntRange` writes for a bound: none for the sentinel, the decimal
numeral otherwise. -/
def boundChars (sentinel i : Int) : List Char :=
  if i = sentinel then [] else (FormatInt i).data

/-- The method `anyType.Type`: `&metaType{t}`, a new meta type whose operand is the
receiver.  The receiver is the object `t` of the heap; the result is the heap with the new
object and the reference of the new object. -/
def anyType.Type (h : Heap) (t : Nat) : Heap × Nat :=
  (⟨h.types ++ [.meta t], h.typeOf⟩, h.types.length)

/-- Meta types: object 0 is the type of the any type (object 1), object 2 is the meta type
without an operand (reference 9 addresses nothing), object 3 is the meta type of the sized
string type with bounds `[1,10]` (object 4). -/
def metas : Heap := ⟨[.meta 1, .any, .meta 9, .meta 4, .stringSized 1 10], id⟩

/-- The operands, the operand conversion, the operator text and the operator priority of a
union, exclusive union or intersection, as the table hands them to `writeTernary`. -/
def ternaryParts (h : Heap) : DgoType → Option (List Nat × (Nat → Nat) × String × Nat)
  | .anyOf operands => some (operands, typeAsType, "|", orPrio)
  | .oneOf operands => some (operands, typeAsType, "^", xorPrio)
  | .allOf operands => some (operands, typeAsType, "&", andPrio)
  | .allOfValue operands => some (operands, valueAsType h, "&", andPrio)
  | _ => none

/-- Unions in the contexts of C17: object 0 is `!1`, object 1 is the union `2|2`, object 2
is the any type, object 3 is the intersection `1&2`, object 4 an unbounded array of the
union, object 5 a map from the union to the union, object 6 the tuple of the union,
object 7 the record with the union as key and as value type. -/
def contexts : Heap :=
  ⟨[.not 1, .anyOf [2, 2], .any, .allOf [1, 2], .array 0 MaxInt64 1,
    .map 1 0 MaxInt64 1, .tuple [1], .struct [⟨1, 1, true⟩] false], id⟩

/-- The references a table entry passes to `buildTypeString`: those of `DgoType.refs` and
the operand of a meta type. -/
def DgoType.children (h : Heap) : DgoType → List Nat
  | .meta operand => [operand]
  | t => t.refs h

/-- A heap is acyclic when a rank decreases from every object to each of its children: no
object is its own ancestor. -/
def Heap.acyclic (h : Heap) (rank : Nat → Nat) : Bool :=
  (List.range h.types.length).all (fun typ =>
    match h.deref typ with
    | some t => (t.children h).all (fun c => decide (rank c < rank typ))
    | none => true)

/-- The calls of `buildTypeString` that a call `TypeString(root)` leads to, as pairs of the
list `seen` and the type: the first call has an empty list, and a call on a
table-dispatched type that is not a recursion hit calls each child with the type appended
to its own list. -/
inductive RenderPath (h : Heap) (root : Nat) : List Nat → Nat → Prop where
  | start : RenderPath h root [] root
  | step (seen : List Nat) (typ : Nat) (t : DgoType) (c : Nat) :
      RenderPath h root seen typ → h.deref typ = some t →
      isComplex t.TypeIdentifier = true → recursionHit seen typ = false →
      c ∈ t.children h → RenderPath h root (seen ++ [typ]) c

/-- The relation between a table-dispatched type and each of its children. -/
def Heap.childOf (h : Heap) (parent c : Nat) : Prop :=
  ∃ t, h.deref parent = some t ∧ isComplex t.TypeIdentifier = true ∧ c ∈ t.children h

/-- The printer without the list `seen` and without the recursion check: the text
`buildTypeString` would write if it never took the placeholder branch. -/
def buildTypeStringNoCheck (lib : Lib) (h : Heap) : Nat → Nat → Nat → Res
  | 0, _, _ => .exhausted
  | fuel + 1, typ, prio =>
    match h.deref typ with
    | none => .panic
    | some t =>
      match complexTypes lib h (fun _ c p => buildTypeStringNoCheck lib h fuel c p)
          t.TypeIdentifier with
      | some f => f [] t prio
      | none => .wrote (lib.tiString t.TypeIdentifier)

/-- A union with the same operand twice: object 0 is `1|1`, object 1 is `!2`, object 2 is
the any type. -/
def sharedOperand : Heap := ⟨[.anyOf [1, 1], .not 2, .any], id⟩

/-! ## Error values (modelled from the spec) -/

/-- Modelled from the spec: the values that error values and candidate maps hold (the value
implementations are not among the sources): integers, strings, and `other` for a value of
another kind, given by the text it is quoted with. -/
inductive Value where
  | integer (i : Int)
  | string (s : String)
  | other (text : String)
  deriving DecidableEq, Repr

/-- Modelled from the spec: the text of a value as the error messages quote it, `3` for the
integer 3 (scenario C) and `"b"` for the string key b. -/
def Value.text (lib : Lib) : Value → String
  | .integer i => FormatInt i
  | .string s => lib.quote s
  | .other text => text

/-- Modelled from the spec: the error values of section 4.4 (their implementation is not
among the sources, only their tests are).  Three shapes: assignment failure (target type,
offending value), size-constraint failure (sized type, attempted size) and unrecognized-key
failure (record type, offending key).  A type is a reference into the heap. -/
inductive ErrorValue where
  | IllegalAssignment (t : Nat) (v : Value)
  | IllegalSize (t : Nat) (size : Int)
  | IllegalMapKey (t : Nat) (key : Value)
  deriving DecidableEq, Repr

/-- Modelled from the spec: the method `String()` of an error value renders the fixed
template of its shape: `the value <v> cannot be assigned to a variable of type <t>`,
`size constraint violation on type <t> when attempting resize to <n>`,
`key <k> cannot added to type <t>`, where `<t>` is what the printer writes for the type. -/
def ErrorValue.String (lib : Lib) (h : Heap) : ErrorValue → Res
  | .IllegalAssignment t v =>
    .wrote ("the value " ++ v.text lib ++ " cannot be assigned to a variable of type ")
      ++ TypeString lib h t
  | .IllegalSize t size =>
    .wrote "size constraint violation on type " ++ TypeString lib h t
      ++ .wrote (" when attempting resize to " ++ FormatInt size)
  | .IllegalMapKey t key =>
    .wrote ("key " ++ key.text lib ++ " cannot added to type ") ++ TypeString lib h t

/-- Modelled from the spec: a member of the value universe as `Equals` sees it: a plain
value, a type (by reference) or an error value. -/
inductive AnyValue where
  | value (v : Value)
  | type (t : Nat)
  | error (e : ErrorValue)
  deriving DecidableEq, Repr

/-- Modelled from the spec: the methods `Equals` and `HashCode` of types (their
implementations are outside the sources at hand, those of the any type apart).  Spec
section 3: two types are equal iff they have the same kind and structurally equal operands
and bounds (deep, not reference, equality), and equal types hash identically.  `Equals a b`
is the structural equality of the types at the references `a` and `b`; a type equals
itself (`equals_refl`) and equal types have the same hash code (`hash_eq`). -/
structure TypeMethods where
  Equals : Nat → Nat → Bool
  HashCode : Nat → Int
  equals_refl : ∀ a, Equals a a = true
  hash_eq : ∀ a b, Equals a b = true → HashCode a = HashCode b

/-- Modelled from the spec: two errors built from equal inputs compare equal.  `Equals` is
true for an error of the same shape whose type equals the type of the receiver (by the
`Equals` of types, which is structural) and whose value, size or key is equal; nothing but
an error equals an error. -/
def ErrorValue.Equals (tm : TypeMethods) (e : ErrorValue) (other : AnyValue) : Bool :=
  match e, other with
  | .IllegalAssignment t v, .error (.IllegalAssignment t2 v2) =>
    tm.Equals t t2 && decide (v = v2)
  | .IllegalSize t size, .error (.IllegalSize t2 size2) =>
    tm.Equals t t2 && decide (size = size2)
  | .IllegalMapKey t key, .error (.IllegalMapKey t2 key2) =>
    tm.Equals t t2 && decide (key = key2)
  | _, _ => false

/-- Modelled from the spec: the hash code of an error is computed from its shape and the
hash codes of its inputs; the spec fixes no formula, so the hash codes of values and the
way three numbers are mixed are parameters.  The hash code of the type is that of
`TypeMethods`, which is the same for structurally equal types. -/
def ErrorValue.HashCode (tm : TypeMethods) (hashValue : Value → Int)
    (mix : Int → Int → Int → Int) : ErrorValue → Int
  | .IllegalAssignment t v => mix 1 (tm.HashCode t) (hashValue v)
  | .IllegalSize t size => mix 2 (tm.HashCode t) size
  | .IllegalMapKey t key => mix 3 (tm.HashCode t) (hashValue key)

/-- Modelled from the spec: the type references that a type object holds, in order. -/
def DgoType.operands : DgoType → List Nat
  | .anyOf operands => operands
  | .oneOf operands => operands
  | .allOf operands => operands
  | .array _ _ elementType => [elementType]
  | .tuple elementTypes => elementTypes
  | .map keyType _ _ valueType => [keyType, valueType]
  | .struct entries _ => entries.map (fun e => e.key) ++ entries.map (fun e => e.value)
  | .not operand => [operand]
  | .meta operand => [operand]
  | _ => []

/-- Modelled from the spec: a type object without its operands: the kind, the bounds and
the other payload, with every type reference replaced by 0. -/
def DgoType.skeleton : DgoType → DgoType
  | .anyOf operands => .anyOf (operands.map fun _ => 0)
  | .oneOf operands => .oneOf (operands.map fun _ => 0)
  | .allOf operands => .allOf (operands.map fun _ => 0)
  | .array min max _ => .array min max 0
  | .tuple elementTypes => .tuple (elementTypes.map fun _ => 0)
  | .map _ min max _ => .map 0 min max 0
  | .struct entries additional =>
    .struct (entries.map fun e => ⟨0, 0, e.required⟩) additional
  | .not _ => .not 0
  | .meta _ => .meta 0
  | t => t

/-- Modelled from the spec (section 3): two types are equal iff they have the same kind
and structurally equal operands and bounds; the comparison is deep, not by reference.
The types at `a` and `b` are compared down to the given depth: the objects agree in
everything but their operands, and the operands are pairwise equal. -/
def deepEquals (h : Heap) : Nat → Nat → Nat → Bool
  | 0, _, _ => true
  | depth + 1, a, b =>
    match h.deref a, h.deref b with
    | some x, some y =>
      decide (x.skeleton = y.skeleton)
        && (x.operands.zip y.operands).all (fun p => deepEquals h depth p.1 p.2)
    | none, none => true
    | _, _ => false

/-- Modelled from the spec: the structural equality of two types of a heap.  Two types
that differ show a difference within as many steps as there are pairs of objects, so this
depth decides the comparison also for types that reach themselves. -/
def Heap.Equals (h : Heap) (a b : Nat) : Bool :=
  deepEquals h (h.types.length * h.types.length + 1) a b

/-- A number computed from a type object without its operands, used as a sample hash
code. -/
def skeletonHash : Option DgoType → Int
  | some (.stringSized min max) => 1 + min + max
  | some (.array min max _) => 2 + min + max
  | some (.struct entries _) => 3 + entries.length
  | some _ => 4
  | none => 0

/-- The methods of the types of a heap: `Equals` is the structural equality `Heap.Equals`,
and the hash code is computed from the object without its operands, so that structurally
equal types have the same hash code. -/
def structuralMethods (h : Heap) : TypeMethods where
  Equals := h.Equals
  HashCode := fun a => skeletonHash ((h.deref a).map DgoType.skeleton)
  equals_refl := by
    have hz : ∀ l : List Nat, ∀ p ∈ l.zip l, p.1 = p.2 := by
      intro l
      induction l with
      | nil => intro p hp; cases hp
      | cons x xs ih =>
        intro p hp
        rcases List.mem_cons.1 hp with hp | hp
        · rw [hp]
        · exact ih p hp
    have hr : ∀ depth a, deepEquals h depth a a = true := by
      intro depth
      induction depth with
      | zero => intro a; rfl
      | succ depth ih =>
        intro a
        simp only [deepEquals]
        cases h.deref a with
        | none => rfl
        | some x =>
          simp only [decide_True, Bool.true_and, List.all_eq_true]
          intro p hp
          rw [hz _ p hp]
          exact ih p.2
    exact fun a => hr _ a
  hash_eq := by
    intro a b hab
    have hab2 : deepEquals h (h.types.length * h.types.length + 1) a b = true := hab
    simp only [deepEquals] at hab2
    show skeletonHash ((h.deref a).map DgoType.skeleton)
      = skeletonHash ((h.deref b).map DgoType.skeleton)
    cases ha : h.deref a with
    | none =>
      cases hb : h.deref b with
      | none => rfl
      | some y => rw [ha, hb] at hab2; cases hab2
    | some x =>
      cases hb : h.deref b with
      | none => rw [ha, hb] at hab2; cases hab2
      | some y =>
        rw [ha, hb] at hab2
        simp only [Bool.and_eq_true, decide_eq_true_eq] at hab2
        simp only [Option.map_some', hab2.1]

/-- Types built twice: the objects 0 and 1 are two sized string types with the bounds
`[1,10]`, the objects 2 and 3 are two array types with the bounds `[0,5]`, one over each of
the two string types.  The two string types are structurally equal, and so are the two
array types, although no two of them are the same object. -/
def twinTypes : Heap :=
  ⟨[.stringSized 1 10, .stringSized 1 10, .array 0 5 0, .array 0 5 1], id⟩

/-! ## The record validator (modelled from the spec) -/

/-- Modelled from the spec: an entry of a record type as the validator reads it (the
implementation of `StructType.Validate` is not among the sources): the key, the value type
(a reference into the heap) and the required flag. -/
structure RecordEntry where
  key : Value
  valueType : Nat
  required : Bool
  deriving DecidableEq, Repr

/-- Modelled from the spec: a value-level map, an ordered association of unique keys to
values. -/
abbrev MapValue := List (Value × Value)

/-- Modelled from the spec: what `Validate` returns for one failed check: the
"assignment-style error identifying the missing key" of step 1, or one of the error values
of section 4.4 (steps 2 and 3). -/
inductive ValidationError where
  | missingRequired (key : Value)
  | failure (e : ErrorValue)
  deriving DecidableEq, Repr

/-- Whether the record type declares the key. -/
def declares (entries : List RecordEntry) (k : Value) : Bool :=
  entries.any (fun e => e.key == k)

/-- Modelled from the spec: the record validator `Validate` of section 4.3.  Step 1: for
each declared entry that is required and whose key the candidate lacks, an error that
identifies the missing key.  Step 2: for each key of the candidate that is not declared and
not covered by `additional`, an unrecognized-key error.  Step 3: for each declared key
present in the candidate whose value fails `Instance` against the value type of the entry,
an assignment error (offending value, expected type).  `inst` is the method `Instance` of
the types; `t` is the record type itself. -/
def Validate (inst : Nat → Value → Bool) (t : Nat) (entries : List RecordEntry)
    (additional : Bool) (candidate : MapValue) : List ValidationError :=
  entries.filterMap (fun e =>
      if e.required && (candidate.lookup e.key).isNone then
        some (.missingRequired e.key)
      else none)
    ++ candidate.filterMap (fun kv =>
      if !declares entries kv.1 && !additional then
        some (.failure (.IllegalMapKey t kv.1))
      else none)
    ++ entries.filterMap (fun e =>
      match candidate.lookup e.key with
      | some v =>
        if !inst e.valueType v then some (.failure (.IllegalAssignment e.valueType v))
        else none
      | none => none)

/-- Modelled from the spec: the candidate fully conforms to the record type: every required
key is present, every key of the candidate is declared unless additional entries are
permitted, and every value bound to a declared key is an instance of the value type of the
entry. -/
def Conforms (inst : Nat → Value → Bool) (entries : List RecordEntry) (additional : Bool)
    (candidate : MapValue) : Prop :=
  (∀ e ∈ entries, e.required = true → (candidate.lookup e.key).isSome = true) ∧
  (∀ kv ∈ candidate, declares entries kv.1 = true ∨ additional = true) ∧
  (∀ e ∈ entries, ∀ v, candidate.lookup e.key = some v → inst e.valueType v = true)

/-! ## Frozen copies of maps (modelled from the spec) -/

/-- Modelled from the spec: what a map holds in a key or value position, as far as a frozen
copy is concerned (the implementation of `Map.Copy` is not among the sources): a value that
is immutable by nature (`atom`) or a map (by address). -/
inductive Cell where
  | atom (id : Nat)
  | map (addr : Nat)
  deriving DecidableEq, Repr

/-- Modelled from the spec: a map instance, its associations in insertion order and its
frozen flag. -/
structure MapObject where
  entries : List (Cell × Cell)
  frozen : Bool
  deriving DecidableEq, Repr

/-- Modelled from the spec: the map instances that exist, addressed by index; the identity
of an instance is its address. -/
abbrev Store := List MapObject

/-- The outcome of a copy: it returns a result in a store that may hold new instances, it
panics (the receiver is nil), or the recursion does not come back within the given depth
(`overflow`; for a map that reaches itself this is so at every depth: the stack overflow
of the documentation). -/
inductive Out (α : Type) where
  | done (store : Store) (result : α)
  | panic
  | overflow
  deriving DecidableEq, Repr

/-- Frozen copy of one key or value: an atom stays, a map is replaced by its frozen copy
(`copy` is the recursive call `Copy(true)`). -/
def freezeCell (copy : Store → Nat → Out Nat) (s : Store) : Cell → Out Cell
  | .atom id => .done s (.atom id)
  | .map addr =>
    match copy s addr with
    | .done s1 r => .done s1 (.map r)
    | .panic => .panic
    | .overflow => .overflow

/-- Frozen copies of the keys and values of the associations, in order. -/
def freezeEntries (copy : Store → Nat → Out Nat) :
    Store → List (Cell × Cell) → Out (List (Cell × Cell))
  | s, [] => .done s []
  | s, (k, v) :: rest =>
    match freezeCell copy s k with
    | .done s1 k1 =>
      match freezeCell copy s1 v with
      | .done s2 v1 =>
        match freezeEntries copy s2 rest with
        | .done s3 rest1 => .done s3 ((k1, v1) :: rest1)
        | .panic => .panic
        | .overflow => .overflow
      | .panic => .panic
      | .overflow => .overflow
    | .panic => .panic
    | .overflow => .overflow

/-- Modelled from the spec: the method `Map.Copy(frozen)`.  A frozen copy of an already
frozen map is a no-op that returns the receiver; a frozen copy of a non-frozen map is a new
frozen instance whose non-frozen keys and values are copied and frozen recursively; a
mutable copy is a new non-frozen instance with the same associations.  The first argument
bounds the depth of the recursion. -/
def Copy : Nat → Store → Nat → Bool → Out Nat
  | 0, _, _, _ => .overflow
  | depth + 1, s, x, frozen =>
    match s[x]? with
    | none => .panic
    | some m =>
      if frozen then
        if m.frozen then .done s x
        else
          match freezeEntries (fun s1 addr => Copy depth s1 addr true) s m.entries with
          | .done s1 entries => .done (s1 ++ [⟨entries, true⟩]) s1.length
          | .panic => .panic
          | .overflow => .overflow
      else .done (s ++ [⟨m.entries, false⟩]) s.length

/-- A set of maps (`region`) without back references: every key and value of a non-frozen
map of the set that is a map exists and belongs to the set, and a rank decreases from the
non-frozen map to it.  Maps outside the set are not restricted. -/
def Store.acyclicOn (s : Store) (region : Nat → Bool) (rank : Nat → Nat) : Bool :=
  s.enum.all (fun am =>
    !region am.1 || am.2.frozen || am.2.entries.all (fun kv =>
      (match kv.1 with
        | .atom _ => true
        | .map b => decide (b < s.length ∧ region b = true ∧ rank b < rank am.1))
      && (match kv.2 with
        | .atom _ => true
        | .map b => decide (b < s.length ∧ region b = true ∧ rank b < rank am.1))))

/-- Whether a key or value is a map of the list `loop`. -/
def cellIn (loop : List Nat) : Cell → Bool
  | .atom _ => false
  | .map b => loop.contains b

/-- A set of maps (`loop`) that is closed under a back reference: every member is a
non-frozen map of the store that holds a member as a key or value.  From every member a
non-frozen map that reaches itself can be reached through non-frozen maps. -/
def Store.trapped (s : Store) (loop : List Nat) : Bool :=
  loop.all (fun a =>
    match s[a]? with
    | some m => !m.frozen && m.entries.any (fun kv => cellIn loop kv.1 || cellIn loop kv.2)
    | none => false)

/-- The store `s2` is the store `s` followed by new instances that are all frozen. -/
def Store.extendedBy (s s2 : Store) : Prop :=
  ∃ ext : List MapObject, s2 = s ++ ext ∧ ∀ m ∈ ext, m.frozen = true

/-- The condition of `Store.acyclicOn` on one key or value of the map at address `a`. -/
def cellBelow (s : Store) (region : Nat → Bool) (rank : Nat → Nat) (a : Nat) : Cell → Prop
  | .atom _ => True
  | .map b => b < s.length ∧ region b = true ∧ rank b < rank a

/-- A non-frozen map that holds itself as a value. -/
def selfMap : Store := [⟨[(.atom 0, .map 0)], false⟩]

/-- A non-frozen map (address 1) whose value is another non-frozen map (address 0). -/
def nestedMaps : Store := [⟨[(.atom 0, .atom 1)], false⟩, ⟨[(.atom 2, .map 0)], false⟩]

/-- A non-frozen map (address 1) without a reference to itself whose value is a map
(address 0) that holds itself, and a map (address 2) that reaches no map at all. -/
def heldSelfMap : Store :=
  [⟨[(.atom 0, .map 0)], false⟩, ⟨[(.atom 1, .map 0)], false⟩, ⟨[(.atom 2, .atom 3)], false⟩]

/-! ## The types with a self-delimiting text -/

/-- The operator of a union (`anyOf`), an exclusive union (`oneOf`) or an intersection of
types (`allOf`). -/
inductive Op where
  | or
  | xor
  | and
  deriving DecidableEq, Repr

/-- The operator text that the table entry passes to `writeTernary`. -/
def Op.text : Op → String
  | .or => "|"
  | .xor => "^"
  | .and => "&"

/-- The character of the operator text. -/
def Op.char : Op → Char
  | .or => '|'
  | .xor => '^'
  | .and => '&'

/-- The precedence that the table entry passes to `writeTernary`. -/
def Op.prio : Op → Nat
  | .or => orPrio
  | .xor => xorPrio
  | .and => andPrio

/-- The type object with the operator `op` and the given operands. -/
def Op.type (op : Op) (operands : List Nat) : DgoType :=
  match op with
  | .or => .anyOf operands
  | .xor => .oneOf operands
  | .and => .allOf operands

/-- The structure of a type built from sized string, sized binary and integer range types
by negation, array, map, meta type and tuple nesting and by unions, exclusive unions and
intersections of two or more types: the kind, the bounds and the structure of the operands.
Two such types are structurally equal when they have the same `Shape`. -/
inductive Shape where
  | stringSized (min max : Int)
  | binary (min max : Int)
  | integerRange (min max : Int) (inclusive : Bool)
  | not (operand : Shape)
  | array (min max : Int) (element : Shape)
  | map (key : Shape) (min max : Int) (value : Shape)
  | meta (operand : Shape)
  | union (op : Op) (first second : Shape) (rest : List Shape)
  | tuple (elements : List Shape)
  deriving Repr

/-- The type at a reference has the given structure. -/
inductive HasShape (h : Heap) : Nat → Shape → Prop where
  | stringSized (t : Nat) (min max : Int) :
      h.deref t = some (.stringSized min max) → HasShape h t (.stringSized min max)
  | binary (t : Nat) (min max : Int) :
      h.deref t = some (.binary min max) → HasShape h t (.binary min max)
  | integerRange (t : Nat) (min max : Int) (inclusive : Bool) :
      h.deref t = some (.integerRange min max inclusive) →
      HasShape h t (.integerRange min max inclusive)
  | not (t operand : Nat) (sh : Shape) :
      h.deref t = some (.not operand) → HasShape h operand sh → HasShape h t (.not sh)
  | array (t : Nat) (min max : Int) (element : Nat) (sh : Shape) :
      h.deref t = some (.array min max element) → HasShape h element sh →
      HasShape h t (.array min max sh)
  | map (t key : Nat) (min max : Int) (value : Nat) (shk shv : Shape) :
      h.deref t = some (.map key min max value) → HasShape h key shk →
      HasShape h value shv → HasShape h t (.map shk min max shv)
  | meta (t operand : Nat) (sh : Shape) :
      h.deref t = some (.meta operand) → HasShape h operand sh → HasShape h t (.meta sh)
  | union (t : Nat) (op : Op) (first second : Nat) (rest : List Nat) (sha shb : Shape)
      (shs : List Shape) :
      h.deref t = some (op.type (first :: second :: rest)) → HasShape h first sha →
      HasShape h second shb → List.Forall₂ (HasShape h) rest shs →
      HasShape h t (.union op sha shb shs)
  | tuple (t : Nat) (elementTypes : List Nat) (shs : List Shape) :
      h.deref t = some (.tuple elementTypes) → List.Forall₂ (HasShape h) elementTypes shs →
      HasShape h t (.tuple shs)

mutual
/-- The number of nodes of a structure. -/
def Shape.size : Shape → Nat
  | .stringSized _ _ => 1
  | .binary _ _ => 1
  | .integerRange _ _ _ => 1
  | .not operand => operand.size + 1
  | .array _ _ element => element.size + 1
  | .map key _ _ value => key.size + value.size + 1
  | .meta operand => operand.size + 1
  | .union _ first second rest => first.size + second.size + Shape.sizeList rest + 1
  | .tuple elements => Shape.sizeList elements + 1
/-- The number of nodes of a list of structures. -/
def Shape.sizeList : List Shape → Nat
  | [] => 0
  | x :: xs => x.size + Shape.sizeList xs
end

/-- The text `writeSizeBoundaries` writes. -/
def boundsText (min max : Int) : String :=
  if max = MaxInt64 then FormatInt min else FormatInt min ++ "," ++ FormatInt max

mutual
/-- The text of a structure in a context of precedence `prio`, written from the grammar of
the printer. -/
def Shape.text : Shape → Nat → String
  | .stringSized min max, _ =>
    if min = 0 ∧ max = MaxInt64 then "string"
    else if max = MaxInt64 then "string[" ++ FormatInt min ++ "]"
    else "string[" ++ FormatInt min ++ "," ++ FormatInt max ++ "]"
  | .binary min max, _ =>
    if min = 0 ∧ max = MaxInt64 then "binary"
    else if max = MaxInt64 then "binary[" ++ FormatInt min ++ "]"
    else "binary[" ++ FormatInt min ++ "," ++ FormatInt max ++ "]"
  | .integerRange min max inclusive, _ =>
    (if min = MinInt64 then "" else FormatInt min)
      ++ (if inclusive then ".." else "...")
      ++ (if max = MaxInt64 then "" else FormatInt max)
  | .not operand, _ => "!" ++ operand.text typePrio
  | .array min max element, _ =>
    (if Unbounded min max then "[]" else "[" ++ boundsText min max ++ "]")
      ++ element.text typePrio
  | .map key min max value, _ =>
    "map[" ++ key.text commaPrio
      ++ (if Unbounded min max then "" else "," ++ boundsText min max)
      ++ "]" ++ value.text typePrio
  | .meta operand, prio => "type[" ++ operand.text prio ++ "]"
  | .union op first second rest, prio =>
    (if prio ≥ orPrio then "(" else "")
      ++ (first.text op.prio
        ++ (op.text ++ second.text op.prio ++ Shape.tailText op.text op.prio rest))
      ++ (if prio ≥ orPrio then ")" else "")
  | .tuple elements, _ => "\x7b" ++ Shape.joinText "," commaPrio elements ++ "\x7d"
/-- The texts of a list of structures, each after the separator. -/
def Shape.tailText (sep : String) (prio : Nat) : List Shape → String
  | [] => ""
  | x :: xs => sep ++ x.text prio ++ Shape.tailText sep prio xs
/-- The texts of a list of structures with the separator between neighbours. -/
def Shape.joinText (sep : String) (prio : Nat) : List Shape → String
  | [] => ""
  | x :: xs => x.text prio ++ Shape.tailText sep prio xs
end

/-- The characters between the brackets of an array type, and after the key of a map
type. -/
def innerChars (min max : Int) : List Char :=
  if min = 0 ∧ max = MaxInt64 then []
  else if max = MaxInt64 then (FormatInt min).data
  else (FormatInt min).data ++ ',' :: (FormatInt max).data

mutual
/-- The characters of the text of a structure; `parens` tells whether the precedence of
the context is at least that of `or`. -/
def Shape.chars : Shape → Bool → List Char
  | .stringSized min max, _ => "string".data ++ boundsChars min max
  | .binary min max, _ => "binary".data ++ boundsChars min max
  | .integerRange min max inclusive, _ =>
    boundChars MinInt64 min
      ++ '.' :: '.' :: ((if inclusive then [] else ['.']) ++ boundChars MaxInt64 max)
  | .not operand, _ => '!' :: operand.chars true
  | .array min max element, _ => '[' :: (innerChars min max ++ ']' :: element.chars true)
  | .map key min max value, _ =>
    'm' :: 'a' :: 'p' :: '[' :: (key.chars false ++
      (if min = 0 ∧ max = MaxInt64 then ']' :: value.chars true
        else ',' :: (innerChars min max ++ ']' :: value.chars true)))
  | .meta operand, parens => 't' :: 'y' :: 'p' :: 'e' :: '[' :: (operand.chars parens ++ [']'])
  | .union op first second rest, parens =>
    (if parens then ['('] else [])
      ++ (first.chars true ++ (op.char :: (second.chars true
      ++ Shape.tailChars op.char true rest) ++ (if parens then [')'] else [])))
  | .tuple elements, _ => '\x7b' :: (Shape.joinChars ',' false elements ++ ['\x7d'])
/-- The characters of a list of structures, each after the separator. -/
def Shape.tailChars (sep : Char) (parens : Bool) : List Shape → List Char
  | [] => []
  | x :: xs => sep :: (x.chars parens ++ Shape.tailChars sep parens xs)
/-- The characters of a list of structures with the separator between neighbours. -/
def Shape.joinChars (sep : Char) (parens : Bool) : List Shape → List Char
  | [] => []
  | x :: xs => x.chars parens ++ Shape.tailChars sep parens xs
end

/-- An opening bracket. -/
def isOpen (c : Char) : Bool := c == '[' || c == '(' || c == '\x7b'

/-- A closing bracket. -/
def isClose (c : Char) : Bool := c == ']' || c == ')' || c == '\x7d'

/-- An operator character. -/
def isOp (c : Char) : Bool := c == '|' || c == '^' || c == '&'

/-- A separator: the comma and, when `ops` is set, the operator characters. -/
def isStop (ops : Bool) (c : Char) : Bool := c == ',' || (ops && isOp c)

/-- A character that is no bracket, no comma and no operator. -/
def Plain (c : Char) : Prop :=
  isOpen c = false ∧ isClose c = false ∧ isStop true c = false

instance (c : Char) : Decidable (Plain c) := by
  unfold Plain
  infer_instance

/-- The rest of a text from the first separator or closing bracket that is not enclosed in
brackets, read at bracket depth `d`. -/
def scanTop (ops : Bool) : Nat → List Char → List Char
  | _, [] => []
  | d, c :: l =>
    if isOpen c then scanTop ops (d + 1) l
    else if isClose c then
      match d with
      | 0 => c :: l
      | d + 1 => scanTop ops d l
    else if isStop ops c then
      match d with
      | 0 => c :: l
      | d + 1 => scanTop ops (d + 1) l
    else scanTop ops d l

/-- A text that the scan passes over at every depth: its brackets are balanced and it has
no separator outside brackets. -/
def Closed (ops : Bool) (text : List Char) : Prop :=
  ∀ d r, scanTop ops d (text ++ r) = scanTop ops d r

/-- A text that the scan passes over inside brackets: its brackets are balanced. -/
def Inner (ops : Bool) (text : List Char) : Prop :=
  ∀ d r, scanTop ops (d + 1) (text ++ r) = scanTop ops (d + 1) r

/-- A text at which the scan stops at once: the empty text, or one that starts with a
closing bracket or a separator. -/
def Fixed (ops : Bool) (text : List Char) : Prop :=
  text = [] ∨ ∃ c l, text = c :: l ∧ isOpen c = false ∧ (isClose c = true ∨ isStop ops c = true)

/-- A text that is empty or starts with a closing bracket: what follows the last structure
of a list. -/
def Ends (text : List Char) : Prop :=
  text = [] ∨ ∃ c l, text = c :: l ∧ isOpen c = false ∧ isClose c = true

/-- The class of the first character of a text: 0 for `s`, 1 for `b`, 2 for a character of
a numeral or `.`, 3 for `!`, 4 for `[`, 5 for `m`, 7 for `t`, 8 for `(`, 9 for an opening
brace, 6 for every other character. -/
def charClass (c : Char) : Nat :=
  if isIntChar c || c == '.' then 2
  else if c = 's' then 0
  else if c = 'b' then 1
  else if c = '!' then 3
  else if c = '[' then 4
  else if c = 'm' then 5
  else if c = 't' then 7
  else if c = '(' then 8
  else if c = '\x7b' then 9
  else 6

/-- Whether a structure is that of a union, exclusive union or intersection. -/
def Shape.isUnion : Shape → Bool
  | .union _ _ _ _ => true
  | _ => false

/-- The class of the first character of the text of a structure that is written in
parentheses or is not a union. -/
def Shape.kind : Shape → Nat
  | .stringSized _ _ => 0
  | .binary _ _ => 1
  | .integerRange _ _ _ => 2
  | .not _ => 3
  | .array _ _ _ => 4
  | .map _ _ _ _ => 5
  | .meta _ => 7
  | .union _ _ _ _ => 8
  | .tuple _ => 9

/-- What the text of a structure shows of its kind: 10 for a union that is written without
parentheses (its text has an operator outside brackets), the class of the first character
otherwise. -/
def Shape.tag (sh : Shape) (parens : Bool) : Nat :=
  if sh.isUnion && !parens then 10 else sh.kind

/-- What a text shows of the kind of its structure: 10 when the scan finds an operator
outside brackets, the class of the first character otherwise. -/
def tagOf (text : List Char) : Nat :=
  match scanTop true 0 text with
  | _ :: _ => 10
  | [] =>
    match text with
    | c :: _ => charClass c
    | [] => 6

/-- Types that print alike.  Objects 0 and 1 are the empty tuple and the empty record,
objects 2 and 3 the record that only allows additional entries and the tuple of the integer
range without bounds (object 4), object 5 is the union of the single operand 6, object 6
the sized string type without bounds, object 7 a native type whose Go type prints as
`string`, object 8 a type of a kind outside the table, objects 9 and 10 the intersection of
the exact types 17 and 18 and the intersection of the values 20 and 21, which have these
types, object 11 the meta type of nil, object 12 the meta type of the meta type (object 13)
of the any type (object 14), objects 15 and 16 the tuple of the exact type 17 and the exact
array of the value 20, objects 17 and 18 the exact types of the string `a` and of the
integer 3. -/
def printAlike : Heap :=
  ⟨[.tuple [], .struct [] false, .struct [] true, .tuple [4],
    .integerRange MinInt64 MaxInt64 false, .anyOf [6], .stringSized 0 MaxInt64,
    .native "string", .simple 0, .allOf [17, 18], .allOfValue [20, 21], .meta 99, .meta 13,
    .meta 14, .any, .tuple [17], .arrayExact [20], .stringExact "a", .integerExact "3"],
   fun v => if v = 20 then 17 else if v = 21 then 18 else v⟩

/-- Recursive types that print alike.  Object 0 is the tuple of object 1, which is the
tuple of twice object 0; object 2 is the tuple of object 3, which is the tuple of twice
itself. -/
def loops : Heap := ⟨[.tuple [1], .tuple [0, 0], .tuple [3], .tuple [3, 3]], id⟩

/-- A heap of nested types: object 0 is a map from the sized string 1 to the array 2 of
the negation 3 of the integer range 4, object 5 the meta type of object 0, object 6 a sized
binary type, object 7 the union of the objects 1, 8 and 6, object 8 the intersection of the
objects 4 and 6, object 9 the tuple of the objects 7 and 5. -/
def nestedTypes : Heap :=
  ⟨[.map 1 0 MaxInt64 2, .stringSized 1 10, .array 0 3 3, .not 4, .integerRange 0 5 true,
    .meta 0, .binary 2 MaxInt64, .anyOf [1, 8, 6], .allOf [4, 6], .tuple [7, 5]], id⟩

/-- The structure of object 9 of `nestedTypes`. -/
def nestedShape : Shape :=
  .tuple [.union .or (.stringSized 1 10)
      (.union .and (.integerRange 0 5 true) (.binary 2 MaxInt64) []) [.binary 2 MaxInt64],
    .meta (.map (.stringSized 1 10) 0 MaxInt64 (.array 0 3 (.not (.integerRange 0 5 true))))]

/-! ## Lemmas -/

theorem Res.append_def (a b : Res) : a ++ b = Res.andThen a b := rfl

@[simp] theorem Res.wrote_append_wrote (a b : String) :
    (Res.wrote a ++ Res.wrote b : Res) = Res.wrote (a ++ b) := rfl

@[simp] theorem Res.wrote_empty_append (r : Res) : (Res.wrote "" ++ r : Res) = r := by
  cases r <;> simp [Res.append_def, Res.andThen]

@[simp] theorem Res.append_wrote_empty (r : Res) : (r ++ Res.wrote "" : Res) = r := by
  cases r <;> simp [Res.append_def, Res.andThen]

theorem Res.append_assoc (a b c : Res) : (a ++ b) ++ c = a ++ (b ++ c) := by
  cases a <;> cases b <;> cases c <;> simp [Res.append_def, Res.andThen, String.append_assoc]

theorem Res.append_ne_exhausted {a b : Res} (ha : a ≠ .exhausted) (hb : b ≠ .exhausted) :
    a ++ b ≠ .exhausted := by
  cases a <;> cases b <;> simp_all [Res.append_def, Res.andThen]

theorem Res.wrote_ne_exhausted (s : String) : Res.wrote s ≠ .exhausted := by simp

theorem eachJoin_ne_exhausted {α : Type} (body : α → Res) (s : String) (l : List α)
    (hbody : ∀ x ∈ l, body x ≠ .exhausted) (first : Bool) :
    eachJoin body s first l ≠ .exhausted := by
  induction l generalizing first with
  | nil => simp [eachJoin]
  | cons x xs ih =>
    simp only [eachJoin]
    refine Res.append_ne_exhausted (Res.append_ne_exhausted ?_ ?_) ?_
    · split <;> simp
    · exact hbody x (by simp)
    · exact ih (fun y hy => hbody y (by simp [hy])) false

theorem writeSizeBoundaries_ne_exhausted (min max : Int) :
    writeSizeBoundaries min max ≠ .exhausted := by
  unfold writeSizeBoundaries
  refine Res.append_ne_exhausted (Res.wrote_ne_exhausted _) ?_
  split
  · exact Res.append_ne_exhausted (Res.wrote_ne_exhausted _) (Res.wrote_ne_exhausted _)
  · exact Res.wrote_ne_exhausted _

theorem writeIntRange_ne_exhausted (min max : Int) (inclusive : Bool) :
    writeIntRange min max inclusive ≠ .exhausted := by
  unfold writeIntRange
  refine Res.append_ne_exhausted (Res.append_ne_exhausted ?_ ?_) ?_ <;> (try split) <;>
    exact Res.wrote_ne_exhausted _

theorem writeFloatRange_ne_exhausted (lib : Lib) (min max : Nat) (inclusive : Bool) :
    writeFloatRange lib min max inclusive ≠ .exhausted := by
  unfold writeFloatRange
  refine Res.append_ne_exhausted (Res.append_ne_exhausted ?_ ?_) ?_ <;> (try split) <;>
    exact Res.wrote_ne_exhausted _

theorem writeTernary_ne_exhausted (build : Build) (seen : List Nat) (typ : DgoType)
    (tc : Nat → Nat) (prio : Nat) (op : String) (opPrio : Nat)
    (hb : ∀ t p, build seen t p ≠ .exhausted) :
    writeTernary build seen typ tc prio op opPrio ≠ .exhausted := by
  unfold writeTernary
  refine Res.append_ne_exhausted (Res.append_ne_exhausted ?_ ?_) ?_
  · split <;> simp
  · split
    · exact eachJoin_ne_exhausted _ _ _ (fun x _ => hb _ _) true
    · simp
  · split <;> simp

/-- A table entry never reports exhaustion by itself: it can only pass on what a recursive
call reports. -/
theorem complexTypes_ne_exhausted (lib : Lib) (h : Heap) (build : Build)
    (ti : TypeIdentifier) (f : typeToString) (seen : List Nat) (typ : DgoType) (prio : Nat)
    (hf : complexTypes lib h build ti = some f)
    (hb : ∀ t p, build seen t p ≠ .exhausted) :
    f seen typ prio ≠ .exhausted := by
  have e1 := writeSizeBoundaries_ne_exhausted
  have e2 := writeIntRange_ne_exhausted
  have e3 := writeFloatRange_ne_exhausted lib
  have e4 := fun tc op opPrio => writeTernary_ne_exhausted build seen typ tc prio op opPrio hb
  have e5 : ∀ (l : List Nat) (tc : Nat → Nat) (s : String) (p : Nat),
      joinX build seen l tc s p ≠ .exhausted :=
    fun l tc s p => eachJoin_ne_exhausted _ _ _ (fun x _ => hb _ _) true
  have e6 : ∀ l : List StructEntry, joinStructEntries build seen l ≠ .exhausted := by
    intro l
    refine eachJoin_ne_exhausted _ _ _ (fun x _ => ?_) true
    refine Res.append_ne_exhausted (Res.append_ne_exhausted (Res.append_ne_exhausted
      (hb _ _) ?_) (by simp)) (hb _ _)
    split <;> simp
  cases ti <;> simp only [complexTypes] at hf <;> cases hf <;>
    first
    | exact e4 _ _ _
    | (cases typ <;> simp only [joinTypes, joinValueTypes] <;>
        first
        | exact Res.noConfusion
        | (repeat (first
            | exact hb _ _
            | exact e1 _ _
            | exact e2 _ _ _
            | exact e3 _ _ _
            | exact e5 _ _ _ _
            | exact e6 _
            | exact Res.wrote_ne_exhausted _
            | apply Res.append_ne_exhausted
            | split)))

theorem complexTypes_isSome (lib : Lib) (h : Heap) (build : Build) (ti : TypeIdentifier) :
    (complexTypes lib h build ti).isSome = isComplex ti := by
  cases ti <;> rfl

/-- A table entry reaches `buildTypeString` only with the `seen` list it was given. -/
theorem applyTable_congr (lib : Lib) (h : Heap) (b1 b2 : Build) (ti : TypeIdentifier)
    (seen : List Nat) (typ : DgoType) (prio : Nat) (hb : b1 seen = b2 seen) :
    applyTable lib h b1 ti seen typ prio = applyTable lib h b2 ti seen typ prio := by
  cases ti <;>
    simp only [applyTable, complexTypes, writeTernary, joinX,
      joinTypes, joinValueTypes, joinStructEntries, hb]

theorem applyTable_ne_exhausted (lib : Lib) (h : Heap) (build : Build)
    (ti : TypeIdentifier) (seen : List Nat) (typ : DgoType) (prio : Nat)
    (hb : ∀ t p, build seen t p ≠ .exhausted) :
    applyTable lib h build ti seen typ prio ≠ .exhausted := by
  unfold applyTable
  cases hf : complexTypes lib h build ti with
  | none => simp
  | some f => exact complexTypes_ne_exhausted lib h build ti f seen typ prio hf hb

/-- A list without duplicates whose members are all below `n` has at most `n` members. -/
theorem nodup_length_le (l : List Nat) (n : Nat) (hn : l.Nodup) (hl : ∀ x ∈ l, x < n) :
    l.length ≤ n := by
  have h1 : l.toFinset ⊆ Finset.range n := by
    intro x hx
    simp only [List.mem_toFinset] at hx
    simpa using hl x hx
  have h2 := Finset.card_le_card h1
  rwa [List.toFinset_card_of_nodup hn, Finset.card_range] at h2

theorem recursionHit_eq_true (seen : List Nat) (typ : Nat) :
    recursionHit seen typ = true ↔ typ ∈ seen := by
  simp [recursionHit]

/-- One unfolding of `buildTypeString`. -/
theorem buildTypeString_succ (lib : Lib) (h : Heap) (fuel : Nat) (seen : List Nat)
    (typ prio : Nat) :
    buildTypeString lib h (fuel + 1) seen typ prio =
      match h.deref typ with
      | none => .panic
      | some t =>
        if isComplex t.TypeIdentifier then
          if recursionHit seen typ then .wrote (placeholder lib t.TypeIdentifier)
          else applyTable lib h (buildTypeString lib h fuel) t.TypeIdentifier
            (seen ++ [typ]) t prio
        else .wrote (lib.tiString t.TypeIdentifier) := by
  simp only [buildTypeString]
  cases h.deref typ with
  | none => rfl
  | some t =>
    simp only [← complexTypes_isSome lib h (buildTypeString lib h fuel), applyTable]
    cases complexTypes lib h (buildTypeString lib h fuel) t.TypeIdentifier with
    | none => simp
    | some f =>
      simp only [Option.isSome_some, if_true]
      split
      · simp [placeholder, String.append_assoc]
      · rfl

/-- Fuel invariant: when `seen` holds distinct references of objects and the fuel covers
the objects not yet in `seen`, the call does not run out of fuel, and more fuel does not
change its result. -/
theorem buildTypeString_fuel (lib : Lib) (h : Heap) (fuel : Nat) :
    ∀ (seen : List Nat) (typ prio : Nat), seen.Nodup →
      (∀ x ∈ seen, x < h.types.length) → h.types.length + 1 ≤ fuel + seen.length →
      buildTypeString lib h fuel seen typ prio ≠ .exhausted ∧
        ∀ more, buildTypeString lib h (fuel + more) seen typ prio
          = buildTypeString lib h fuel seen typ prio := by
  induction fuel with
  | zero =>
    intro seen typ prio hn hl hf
    have := nodup_length_le seen _ hn hl
    omega
  | succ fuel ih =>
    intro seen typ prio hn hl hf
    have hmore : ∀ more, fuel + 1 + more = (fuel + more) + 1 := by intro more; omega
    simp only [hmore, buildTypeString_succ]
    cases hd : h.deref typ with
    | none => simp
    | some t =>
      have hlt : typ < h.types.length := by
        unfold Heap.deref at hd
        by_contra hge
        rw [List.getElem?_eq_none (by omega)] at hd
        cases hd
      simp only
      by_cases hc : isComplex t.TypeIdentifier = true
      · by_cases hit : recursionHit seen typ = true
        · simp [hc, hit]
        · simp only [hc, hit, if_true, Bool.false_eq_true, if_false]
          have hnot : typ ∉ seen := fun hm => hit ((recursionHit_eq_true _ _).2 hm)
          have hn2 : (seen ++ [typ]).Nodup := by
            rw [List.nodup_append]
            refine ⟨hn, List.nodup_singleton _, ?_⟩
            intro a ha hb
            simp only [List.mem_singleton] at hb
            exact hnot (hb ▸ ha)
          have hl2 : ∀ x ∈ seen ++ [typ], x < h.types.length := by
            intro x hx
            simp only [List.mem_append, List.mem_singleton] at hx
            rcases hx with hx | hx
            · exact hl x hx
            · exact hx ▸ hlt
          have hf2 : h.types.length + 1 ≤ fuel + (seen ++ [typ]).length := by
            simp only [List.length_append, List.length_singleton]
            omega
          have key := fun t p => ih (seen ++ [typ]) t p hn2 hl2 hf2
          constructor
          · exact applyTable_ne_exhausted _ _ _ _ _ _ _ (fun t p => (key t p).1)
          · intro more
            apply applyTable_congr
            funext t p
            exact (key t p).2 more
      · simp [hc]

theorem Heap.deref_lt (h : Heap) (r : Nat) (hd : ¬ h.deref r = none) :
    r < h.types.length := by
  unfold Heap.deref at hd
  by_contra hge
  exact hd (List.getElem?_eq_none (by omega))

theorem Res.isWrote_append {a b : Res} (ha : a.isWrote = true) (hb : b.isWrote = true) :
    (a ++ b).isWrote = true := by
  cases a <;> cases b <;> simp_all [Res.append_def, Res.andThen, Res.isWrote]

theorem Res.isWrote_append_eq (a b : Res) :
    (a ++ b).isWrote = (a.isWrote && b.isWrote) := by
  cases a <;> cases b <;> simp [Res.append_def, Res.andThen, Res.isWrote]

theorem Res.isWrote_wrote (s : String) : (Res.wrote s).isWrote = true := rfl

theorem Res.isWrote_iff (r : Res) : r.isWrote = true ↔ ∃ s, r = .wrote s := by
  cases r <;> simp [Res.isWrote]

theorem eachJoin_isWrote {α : Type} (body : α → Res) (s : String) (l : List α)
    (hbody : ∀ x ∈ l, (body x).isWrote = true) (first : Bool) :
    (eachJoin body s first l).isWrote = true := by
  induction l generalizing first with
  | nil => rfl
  | cons x xs ih =>
    simp only [eachJoin]
    refine Res.isWrote_append (Res.isWrote_append ?_ ?_) ?_
    · split <;> rfl
    · exact hbody x (by simp)
    · exact ih (fun y hy => hbody y (by simp [hy])) false

theorem writeSizeBoundaries_isWrote (min max : Int) :
    (writeSizeBoundaries min max).isWrote = true := by
  unfold writeSizeBoundaries
  refine Res.isWrote_append rfl ?_
  split
  · exact Res.isWrote_append rfl rfl
  · rfl

theorem writeIntRange_isWrote (min max : Int) (inclusive : Bool) :
    (writeIntRange min max inclusive).isWrote = true := by
  unfold writeIntRange
  refine Res.isWrote_append (Res.isWrote_append ?_ ?_) ?_ <;> (try split) <;> rfl

theorem writeFloatRange_isWrote (lib : Lib) (min max : Nat) (inclusive : Bool) :
    (writeFloatRange lib min max inclusive).isWrote = true := by
  unfold writeFloatRange
  refine Res.isWrote_append (Res.isWrote_append ?_ ?_) ?_ <;> (try split) <;> rfl

theorem joinX_isWrote (build : Build) (seen : List Nat) (l : List Nat) (tc : Nat → Nat)
    (s : String) (p : Nat) (hl : ∀ x ∈ l, (build seen (tc x) p).isWrote = true) :
    (joinX build seen l tc s p).isWrote = true :=
  eachJoin_isWrote _ _ _ hl true

/-- A table entry applied to an object of its own kind returns normally when its recursive
calls do. -/
theorem applyTable_isWrote (lib : Lib) (h : Heap) (build : Build) (seen : List Nat)
    (typ : DgoType) (prio : Nat) (hc : isComplex typ.TypeIdentifier = true)
    (hr : ∀ r ∈ typ.refs h, r < h.types.length)
    (hb : ∀ r p, r < h.types.length → (build seen r p).isWrote = true) :
    (applyTable lib h build typ.TypeIdentifier seen typ prio).isWrote = true := by
  have e1 := writeSizeBoundaries_isWrote
  have e2 := writeIntRange_isWrote
  have e3 := writeFloatRange_isWrote lib
  have hb2 : ∀ r ∈ typ.refs h, ∀ p, (build seen r p).isWrote = true :=
    fun r hm p => hb r p (hr r hm)
  cases typ <;>
    simp only [applyTable, complexTypes, DgoType.TypeIdentifier, writeTernary,
      DgoType.ternaryOperands, joinTypes, joinValueTypes, joinStructEntries, valueAsType,
      typeAsType] <;>
    simp only [DgoType.refs, List.mem_map, List.mem_cons, List.mem_singleton,
      List.mem_append, List.not_mem_nil, or_false, forall_eq_or_imp, forall_eq,
      forall_exists_index, and_imp, forall_apply_eq_imp_iff₂] at hb2 <;>
    (try simp only [Res.isWrote_append_eq, Res.isWrote_wrote, e1, e2, e3,
      apply_ite Res.isWrote, ite_self, Bool.and_true, Bool.true_and, Bool.and_self,
      Bool.and_eq_true, and_true, true_and])
  all_goals
    first
    | (simp [isComplex, DgoType.TypeIdentifier] at hc; done)
    | exact joinX_isWrote _ _ _ _ _ _ (fun x hx => hb2 x hx _)
    | skip
  case struct entries additional =>
    refine eachJoin_isWrote _ _ _ (fun x hx => ?_) true
    simp only [Res.isWrote_append_eq, Res.isWrote_wrote, apply_ite Res.isWrote, ite_self,
      Bool.and_true, Bool.and_eq_true]
    exact ⟨hb2 _ (Or.inl ⟨x, hx, rfl⟩) _, hb2 _ (Or.inr ⟨x, hx, rfl⟩) _⟩
  case array min max elementType => exact hb2 _
  case map keyType min max valueType => exact ⟨hb2.1 _, hb2.2 _⟩
  case mapEntryExact key value => exact ⟨hb2.1 _, hb2.2 _⟩
  case not operand => exact hb2 _
  case meta operand =>
    by_cases hn : h.deref operand = none
    · simp [hn]
    · simp [hn, hb _ _ (Heap.deref_lt h _ hn)]

theorem Heap.wellFormed_refs (h : Heap) (hw : h.wellFormed = true) (typ : Nat) (t : DgoType)
    (hd : h.deref typ = some t) : ∀ r ∈ t.refs h, r < h.types.length := by
  have hm : t ∈ h.types := List.getElem?_mem hd
  unfold Heap.wellFormed at hw
  rw [List.all_eq_true] at hw
  have := hw t hm
  rw [List.all_eq_true] at this
  intro r hr
  simpa using this r hr

/-- In a heap without dangling references a call on an object returns normally, under the
fuel invariant. -/
theorem buildTypeString_isWrote (lib : Lib) (h : Heap) (hw : h.wellFormed = true)
    (fuel : Nat) :
    ∀ (seen : List Nat) (typ prio : Nat), typ < h.types.length → seen.Nodup →
      (∀ x ∈ seen, x < h.types.length) → h.types.length + 1 ≤ fuel + seen.length →
      (buildTypeString lib h fuel seen typ prio).isWrote = true := by
  induction fuel with
  | zero =>
    intro seen typ prio _ hn hl hf
    have := nodup_length_le seen _ hn hl
    omega
  | succ fuel ih =>
    intro seen typ prio hlt hn hl hf
    rw [buildTypeString_succ]
    cases hd : h.deref typ with
    | none =>
      unfold Heap.deref at hd
      rw [List.getElem?_eq_getElem hlt] at hd
      cases hd
    | some t =>
      simp only
      split
      · split
        · rfl
        · rename_i hc hit
          have hnot : typ ∉ seen := fun hm => hit ((recursionHit_eq_true _ _).2 hm)
          have hn2 : (seen ++ [typ]).Nodup := by
            rw [List.nodup_append]
            refine ⟨hn, List.nodup_singleton _, ?_⟩
            intro a ha hb
            simp only [List.mem_singleton] at hb
            exact hnot (hb ▸ ha)
          have hl2 : ∀ x ∈ seen ++ [typ], x < h.types.length := by
            intro x hx
            simp only [List.mem_append, List.mem_singleton] at hx
            rcases hx with hx | hx
            · exact hl x hx
            · exact hx ▸ hlt
          have hf2 : h.types.length + 1 ≤ fuel + (seen ++ [typ]).length := by
            simp only [List.length_append, List.length_singleton]
            omega
          exact applyTable_isWrote lib h _ _ t prio hc (h.wellFormed_refs hw typ t hd)
            (fun r p hr => ih (seen ++ [typ]) r p hr hn2 hl2 hf2)
      · rfl

theorem decimalValue_append_singleton (ds : List Nat) (d : Nat) :
    decimalValue (ds ++ [d]) = 10 * decimalValue ds + d := by
  simp [decimalValue, List.foldl_append]

/-- The digits `formatNatAux` pushes in front of `acc` are decimal digits that denote `n`. -/
theorem formatNatAux_spec (fuel : Nat) :
    ∀ (n : Nat) (acc : List Char), n < fuel →
      ∃ ds : List Nat, formatNatAux fuel n acc = ds.map digitChar ++ acc ∧
        (∀ d ∈ ds, d < 10) ∧ ds ≠ [] ∧ decimalValue ds = n := by
  induction fuel with
  | zero => intro n acc hn; omega
  | succ fuel ih =>
    intro n acc hn
    unfold formatNatAux
    split
    · rename_i hlt
      exact ⟨[n], by simp, by simpa using hlt, by simp, by simp [decimalValue]⟩
    · rename_i hge
      obtain ⟨ds, h1, h2, _, h4⟩ := ih (n / 10) (digitChar (n % 10) :: acc) (by omega)
      refine ⟨ds ++ [n % 10], ?_, ?_, by simp, ?_⟩
      · rw [h1]; simp
      · intro d hd
        simp only [List.mem_append, List.mem_singleton] at hd
        rcases hd with hd | hd
        · exact h2 d hd
        · omega
      · rw [decimalValue_append_singleton, h4]; omega

theorem formatNat_spec (n : Nat) :
    ∃ ds : List Nat, (formatNat n).data = ds.map digitChar ∧
      (∀ d ∈ ds, d < 10) ∧ ds ≠ [] ∧ decimalValue ds = n := by
  obtain ⟨ds, h1, h2, h3, h4⟩ := formatNatAux_spec (n + 1) n [] (by omega)
  exact ⟨ds, by simpa [formatNat] using h1, h2, h3, h4⟩

theorem digitChar_injOn (a b : Nat) (ha : a < 10) (hb : b < 10)
    (h : digitChar a = digitChar b) : a = b := by
  interval_cases a <;> interval_cases b <;> first | rfl | (exact absurd h (by decide))

theorem map_digitChar_inj (xs ys : List Nat) (hx : ∀ d ∈ xs, d < 10) (hy : ∀ d ∈ ys, d < 10)
    (h : xs.map digitChar = ys.map digitChar) : xs = ys := by
  induction xs generalizing ys with
  | nil => cases ys with
    | nil => rfl
    | cons y ys => simp at h
  | cons x xs ih =>
    cases ys with
    | nil => simp at h
    | cons y ys =>
      simp only [List.map_cons, List.cons.injEq] at h
      rw [digitChar_injOn x y (hx x (by simp)) (hy y (by simp)) h.1,
        ih ys (fun d hd => hx d (by simp [hd])) (fun d hd => hy d (by simp [hd])) h.2]

theorem formatNat_injective (a b : Nat) (h : formatNat a = formatNat b) : a = b := by
  obtain ⟨da, a1, a2, _, a4⟩ := formatNat_spec a
  obtain ⟨db, b1, b2, _, b4⟩ := formatNat_spec b
  have : da = db := map_digitChar_inj da db a2 b2 (by rw [← a1, ← b1, h])
  rw [← a4, ← b4, this]

theorem digitChar_isDigit (d : Nat) (hd : d < 10) : (digitChar d).isDigit = true := by
  interval_cases d <;> decide

theorem formatNat_chars (n : Nat) : ∀ c ∈ (formatNat n).data, c.isDigit = true := by
  obtain ⟨ds, h1, h2, _, _⟩ := formatNat_spec n
  intro c hc
  rw [h1, List.mem_map] at hc
  obtain ⟨d, hd, rfl⟩ := hc
  exact digitChar_isDigit d (h2 d hd)

theorem FormatInt_chars (i : Int) : ∀ c ∈ (FormatInt i).data, isIntChar c = true := by
  intro c hc
  cases i with
  | ofNat n =>
    simp only [FormatInt] at hc
    simp [isIntChar, formatNat_chars n c hc]
  | negSucc n =>
    simp only [FormatInt, String.data_append, List.mem_append] at hc
    rcases hc with hc | hc
    · have : c = '-' := by simpa using hc
      subst this; decide
    · simp [isIntChar, formatNat_chars _ c hc]

theorem FormatInt_injective (a b : Int) (h : FormatInt a = FormatInt b) : a = b := by
  have hdata := congrArg String.data h
  cases a with
  | ofNat m =>
    cases b with
    | ofNat n =>
      simp only [FormatInt] at h
      rw [formatNat_injective m n h]
    | negSucc n =>
      exfalso
      simp only [FormatInt, String.data_append] at hdata
      have hm := formatNat_chars m '-' (by rw [hdata]; simp)
      exact absurd hm (by decide)
  | negSucc m =>
    cases b with
    | ofNat n =>
      exfalso
      simp only [FormatInt, String.data_append] at hdata
      have hn := formatNat_chars n '-' (by rw [← hdata]; simp)
      exact absurd hn (by decide)
    | negSucc n =>
      simp only [FormatInt, String.data_append, List.append_cancel_left_eq] at hdata
      have := formatNat_injective (m + 1) (n + 1) (String.ext hdata)
      have hmn : m = n := by omega
      rw [hmn]

/-- A call on a table-dispatched object that is not in `seen` runs the table entry with the
object appended to `seen`. -/
theorem buildTypeString_complex (lib : Lib) (h : Heap) (fuel : Nat) (seen : List Nat)
    (typ prio : Nat) (t : DgoType) (hd : h.deref typ = some t)
    (hc : isComplex t.TypeIdentifier = true) (hnot : typ ∉ seen) :
    buildTypeString lib h (fuel + 1) seen typ prio
      = applyTable lib h (buildTypeString lib h fuel) t.TypeIdentifier (seen ++ [typ]) t
          prio := by
  have hit : recursionHit seen typ = false := by
    cases hr : recursionHit seen typ with
    | false => rfl
    | true => exact absurd ((recursionHit_eq_true _ _).1 hr) hnot
  rw [buildTypeString_succ, hd]
  simp [hc, hit]

/-- A call on an object whose kind is not in the table writes the name of the kind. -/
theorem buildTypeString_atomic (lib : Lib) (h : Heap) (fuel : Nat) (seen : List Nat)
    (typ prio : Nat) (t : DgoType) (hd : h.deref typ = some t)
    (hc : isComplex t.TypeIdentifier = false) :
    buildTypeString lib h (fuel + 1) seen typ prio = .wrote (lib.tiString t.TypeIdentifier) := by
  rw [buildTypeString_succ, hd]
  simp [hc]

theorem TypeString_complex (lib : Lib) (h : Heap) (typ : Nat) (t : DgoType)
    (hd : h.deref typ = some t) (hc : isComplex t.TypeIdentifier = true) :
    TypeString lib h typ
      = applyTable lib h (buildTypeString lib h h.types.length) t.TypeIdentifier [typ] t 0 := by
  unfold TypeString
  rw [buildTypeString_complex lib h _ [] typ 0 t hd hc (by simp)]
  rfl

theorem writeSizeBoundaries_eq (min max : Int) :
    writeSizeBoundaries min max
      = .wrote (if max = MaxInt64 then FormatInt min
          else FormatInt min ++ "," ++ FormatInt max) := by
  unfold writeSizeBoundaries
  by_cases hm : max = MaxInt64
  · simp [hm]
  · simp [hm, String.append_assoc]

theorem Unbounded_iff (min max : Int) :
    Unbounded min max = true ↔ min = 0 ∧ max = MaxInt64 := by
  simp [Unbounded]

theorem sizedText (kw : String) (min max : Int) :
    (Res.wrote kw ++ (if (!Unbounded min max) = true then
        Res.wrote "[" ++ writeSizeBoundaries min max ++ Res.wrote "]" else Res.wrote "") : Res)
      = .wrote (if min = 0 ∧ max = MaxInt64 then kw
          else if max = MaxInt64 then kw ++ "[" ++ FormatInt min ++ "]"
          else kw ++ "[" ++ FormatInt min ++ "," ++ FormatInt max ++ "]") := by
  rw [writeSizeBoundaries_eq]
  by_cases hu : min = 0 ∧ max = MaxInt64
  · have hb : Unbounded min max = true := (Unbounded_iff _ _).2 hu
    rw [hb, if_pos hu]
    simp
  · have hb : Unbounded min max = false := by
      cases hb : Unbounded min max with
      | false => rfl
      | true => exact absurd ((Unbounded_iff _ _).1 hb) hu
    rw [hb, if_neg hu]
    by_cases hm : max = MaxInt64
    · simp only [hm, if_true, Bool.not_false, Res.wrote_append_wrote, String.append_assoc]
    · simp only [hm, if_false, if_true, Bool.not_false, Res.wrote_append_wrote,
        String.append_assoc]

theorem FormatInt_decimal (i : Int) : IsDecimalOf (FormatInt i) i := by
  cases i with
  | ofNat n =>
    obtain ⟨ds, h1, h2, h3, h4⟩ := formatNat_spec n
    refine ⟨ds, ?_, h2, h3, ?_⟩
    · have : ¬ (Int.ofNat n < 0) := by simp
      simp only [FormatInt, this, if_false, List.nil_append]
      exact h1
    · simpa using h4
  | negSucc n =>
    obtain ⟨ds, h1, h2, h3, h4⟩ := formatNat_spec (n + 1)
    refine ⟨ds, ?_, h2, h3, ?_⟩
    · have : Int.negSucc n < 0 := Int.negSucc_lt_zero n
      simp only [FormatInt, this, if_true, String.data_append, h1]
    · simpa using h4

theorem eachJoin_wrote {α : Type} (body : α → Res) (f : α → String) (s : String)
    (l : List α) (hbody : ∀ x ∈ l, body x = .wrote (f x)) (first : Bool) :
    eachJoin body s first l
      = .wrote ((if first || l.isEmpty then "" else s) ++ sepBy s (l.map f)) := by
  induction l generalizing first with
  | nil => simp [eachJoin, sepBy]
  | cons x xs ih =>
    have hx := hbody x (by simp)
    have ih2 := ih (fun y hy => hbody y (by simp [hy])) false
    simp only [eachJoin, hx, ih2]
    cases xs with
    | nil => cases first <;> simp [sepBy]
    | cons y ys => cases first <;> simp [sepBy, String.append_assoc]

/-- Splitting at the first separator: two texts without `c` in front of a `c` are equal
when the whole texts are. -/
theorem split_at_sep {α : Type} (c : α) :
    ∀ (xs ys xs2 ys2 : List α), c ∉ xs → c ∉ xs2 → xs ++ c :: ys = xs2 ++ c :: ys2 →
      xs = xs2 ∧ ys = ys2 := by
  intro xs
  induction xs with
  | nil =>
    intro ys xs2 ys2 _ h2 h
    cases xs2 with
    | nil => simpa using h
    | cons x xs2 =>
      simp only [List.nil_append, List.cons_append, List.cons.injEq] at h
      exact absurd (by simp [h.1]) h2
  | cons x xs ih =>
    intro ys xs2 ys2 h1 h2 h
    cases xs2 with
    | nil =>
      simp only [List.nil_append, List.cons_append, List.cons.injEq] at h
      exact absurd (by simp [h.1]) h1
    | cons y xs2 =>
      simp only [List.cons_append, List.cons.injEq] at h
      have := ih ys xs2 ys2 (fun hm => h1 (by simp [hm])) (fun hm => h2 (by simp [hm])) h.2
      exact ⟨by rw [h.1, this.1], this.2⟩

/-- The text a sized string type renders to. -/
theorem stringSized_text (lib : Lib) (h : Heap) (typ : Nat) (min max : Int)
    (hd : h.deref typ = some (.stringSized min max)) :
    TypeString lib h typ
      = .wrote (if min = 0 ∧ max = MaxInt64 then "string"
          else if max = MaxInt64 then "string[" ++ FormatInt min ++ "]"
          else "string[" ++ FormatInt min ++ "," ++ FormatInt max ++ "]") := by
  rw [TypeString_complex lib h typ _ hd rfl]
  simp only [applyTable, complexTypes, DgoType.TypeIdentifier]
  exact sizedText "string" min max

theorem stringSized_data (min max : Int) :
    (if min = 0 ∧ max = MaxInt64 then "string"
      else if max = MaxInt64 then "string[" ++ FormatInt min ++ "]"
      else "string[" ++ FormatInt min ++ "," ++ FormatInt max ++ "]").data
      = "string".data ++ boundsChars min max := by
  unfold boundsChars
  split
  · simp
  · split
    · simp only [String.data_append]
      rfl
    · simp only [String.data_append]
      simp only [List.append_assoc]
      rfl

theorem comma_not_mem_FormatInt (i : Int) : ',' ∉ (FormatInt i).data :=
  fun hm => absurd (FormatInt_chars i ',' hm) (by decide)

theorem FormatInt_data_injective (a b : Int) (h : (FormatInt a).data = (FormatInt b).data) :
    a = b :=
  FormatInt_injective a b (String.ext h)

/-- The bound section determines the bounds. -/
theorem boundsChars_injective (min1 max1 min2 max2 : Int)
    (h : boundsChars min1 max1 = boundsChars min2 max2) : min1 = min2 ∧ max1 = max2 := by
  unfold boundsChars at h
  by_cases a1 : min1 = 0 ∧ max1 = MaxInt64 <;> by_cases a2 : min2 = 0 ∧ max2 = MaxInt64
  · exact ⟨a1.1.trans a2.1.symm, a1.2.trans a2.2.symm⟩
  · rw [if_pos a1, if_neg a2] at h
    split at h <;> cases h
  · rw [if_neg a1, if_pos a2] at h
    split at h <;> cases h
  · rw [if_neg a1, if_neg a2] at h
    by_cases b1 : max1 = MaxInt64 <;> by_cases b2 : max2 = MaxInt64
    · rw [if_pos b1, if_pos b2] at h
      simp only [List.cons.injEq, true_and] at h
      exact ⟨FormatInt_data_injective _ _ (List.append_cancel_right h), b1.trans b2.symm⟩
    · rw [if_pos b1, if_neg b2] at h
      simp only [List.cons.injEq, true_and] at h
      exfalso
      have hm : ',' ∈ (FormatInt min1).data ++ [']'] := by rw [h]; simp
      simp only [List.mem_append, List.mem_singleton] at hm
      rcases hm with hm | hm
      · exact comma_not_mem_FormatInt _ hm
      · exact absurd hm (by decide)
    · rw [if_neg b1, if_pos b2] at h
      simp only [List.cons.injEq, true_and] at h
      exfalso
      have hm : ',' ∈ (FormatInt min2).data ++ [']'] := by rw [← h]; simp
      simp only [List.mem_append, List.mem_singleton] at hm
      rcases hm with hm | hm
      · exact comma_not_mem_FormatInt _ hm
      · exact absurd hm (by decide)
    · rw [if_neg b1, if_neg b2] at h
      simp only [List.cons.injEq, true_and] at h
      have hs := split_at_sep ',' _ _ _ _ (comma_not_mem_FormatInt min1)
        (comma_not_mem_FormatInt min2) h
      exact ⟨FormatInt_data_injective _ _ hs.1,
        FormatInt_data_injective _ _ (List.append_cancel_right hs.2)⟩

/-! ## Claims about the printer and the any type -/

/-- C1. `TypeString` terminates on every type graph, cyclic or not: the call never runs out
of the fuel `TypeString` gives it and extra fuel does not change its result; in a heap
without dangling references the call on an object returns a text; and at every
table-dispatched object that already occurs in `seen` `buildTypeString` writes exactly
`<recursive self reference to <kind> type>` for that object and does not recurse. -/
theorem TypeString_terminates (lib : Lib) (h : Heap) (typ : Nat) :
    (TypeString lib h typ ≠ .exhausted ∧
      ∀ more, buildTypeString lib h (h.types.length + 1 + more) [] typ 0
        = TypeString lib h typ) ∧
    (h.wellFormed = true → typ < h.types.length → ∃ s, TypeString lib h typ = .wrote s) ∧
    (∀ (fuel : Nat) (seen : List Nat) (prio : Nat) (t : DgoType),
      h.deref typ = some t →
      (complexTypes lib h (buildTypeString lib h fuel) t.TypeIdentifier).isSome = true →
      typ ∈ seen →
      buildTypeString lib h (fuel + 1) seen typ prio
        = .wrote ("<recursive self reference to " ++ lib.tiString t.TypeIdentifier
            ++ " type>")) := by
  refine ⟨?_, ?_, ?_⟩
  · exact buildTypeString_fuel lib h (h.types.length + 1) [] typ 0 List.nodup_nil
      (by simp) (by simp)
  · intro hw hlt
    exact (Res.isWrote_iff _).1
      (buildTypeString_isWrote lib h hw (h.types.length + 1) [] typ 0 hlt List.nodup_nil
        (by simp) (by simp))
  · intro fuel seen prio t hd hc hm
    rw [complexTypes_isSome] at hc
    rw [buildTypeString_succ, hd]
    simp only [hc, (recursionHit_eq_true seen typ).2 hm, if_true, placeholder]

/-- Witness for C1 on the self-referential union: it renders, with the placeholder at the
cycle point. -/
theorem TypeString_terminates_witness :
    (∃ s, TypeString sampleLib selfUnion 0 = .wrote s) ∧
    TypeString sampleLib selfUnion 0
      = .wrote "<recursive self reference to anyOf type>|any" ∧
    buildTypeString sampleLib selfUnion 1 [0] 0 1
      = .wrote ("<recursive self reference to " ++ sampleLib.tiString .TiAnyOf ++ " type>") :=
  ⟨(TypeString_terminates sampleLib selfUnion 0).2.1 (by decide) (by decide),
   by decide,
   (TypeString_terminates sampleLib selfUnion 0).2.2 0 [0] 1 (.anyOf [0, 1]) (by decide)
     (by decide) (by decide)⟩

/-- C2, as stated, fails: an intersection (priority `andPrio`, not lower than the priority
`orPrio` of the union it is an operand of) is written in parentheses. -/
theorem parentheses_only_when_lower_counterexample :
    ¬ (andPrio < orPrio) ∧
    buildTypeString sampleLib unionOfIntersection 2 [0] 1 orPrio = .wrote "(any&any)" ∧
    TypeString sampleLib unionOfIntersection 0 = .wrote "(any&any)|any" := by
  decide

/-- C2, amended. A union, exclusive union or intersection rendered in a context of priority
`prio` is enclosed in parentheses exactly when `prio ≥ orPrio`, that is in every context but
the comma context, whatever the priority of its own operator; the operands are joined with
the operator and rendered at the priority of the operator. -/
theorem writeTernary_parentheses (lib : Lib) (h : Heap) (fuel : Nat) (seen : List Nat)
    (typ prio : Nat) (operands : List Nat) (hnot : typ ∉ seen) :
    (h.deref typ = some (.anyOf operands) →
      buildTypeString lib h (fuel + 1) seen typ prio
        = if prio ≥ orPrio then
            .wrote "(" ++ joinX (buildTypeString lib h fuel) (seen ++ [typ]) operands
              typeAsType "|" orPrio ++ .wrote ")"
          else joinX (buildTypeString lib h fuel) (seen ++ [typ]) operands
              typeAsType "|" orPrio) ∧
    (h.deref typ = some (.oneOf operands) →
      buildTypeString lib h (fuel + 1) seen typ prio
        = if prio ≥ orPrio then
            .wrote "(" ++ joinX (buildTypeString lib h fuel) (seen ++ [typ]) operands
              typeAsType "^" xorPrio ++ .wrote ")"
          else joinX (buildTypeString lib h fuel) (seen ++ [typ]) operands
              typeAsType "^" xorPrio) ∧
    (h.deref typ = some (.allOf operands) →
      buildTypeString lib h (fuel + 1) seen typ prio
        = if prio ≥ orPrio then
            .wrote "(" ++ joinX (buildTypeString lib h fuel) (seen ++ [typ]) operands
              typeAsType "&" andPrio ++ .wrote ")"
          else joinX (buildTypeString lib h fuel) (seen ++ [typ]) operands
              typeAsType "&" andPrio) ∧
    (h.deref typ = some (.allOfValue operands) →
      buildTypeString lib h (fuel + 1) seen typ prio
        = if prio ≥ orPrio then
            .wrote "(" ++ joinX (buildTypeString lib h fuel) (seen ++ [typ]) operands
              (valueAsType h) "&" andPrio ++ .wrote ")"
          else joinX (buildTypeString lib h fuel) (seen ++ [typ]) operands
              (valueAsType h) "&" andPrio) := by
  refine ⟨?_, ?_, ?_, ?_⟩ <;> intro hd <;>
    rw [buildTypeString_complex lib h fuel seen typ prio _ hd rfl hnot] <;>
    simp only [applyTable, complexTypes, DgoType.TypeIdentifier, writeTernary,
      DgoType.ternaryOperands] <;>
    split <;> simp

/-- Witness for the amended C2: the intersection `2&2` as an operand of the union `1|2`
(context priority `orPrio`) is written in parentheses. -/
theorem writeTernary_parentheses_witness :
    buildTypeString sampleLib unionOfIntersection 2 [0] 1 orPrio
      = (if orPrio ≥ orPrio then
          .wrote "(" ++ joinX (buildTypeString sampleLib unionOfIntersection 1) ([0] ++ [1])
            [2, 2] typeAsType "&" andPrio ++ .wrote ")"
        else joinX (buildTypeString sampleLib unionOfIntersection 1) ([0] ++ [1])
            [2, 2] typeAsType "&" andPrio) :=
  (writeTernary_parentheses sampleLib unionOfIntersection 1 [0] 1 orPrio [2, 2]
    (by decide)).2.2.1 (by decide)

/-- C3. A sized string type renders as `string` when its bounds are `0` and the maximum
integer, as `string[min]` when only the upper bound is the maximum integer, and as
`string[min,max]` otherwise, the bounds written as decimal numerals; bounds `[1,10]` give
`string[1,10]` and bounds `[0, max]` give `string`. -/
theorem TypeString_stringSized (lib : Lib) (h : Heap) (typ : Nat) (min max : Int)
    (hd : h.deref typ = some (.stringSized min max)) :
    TypeString lib h typ
      = .wrote (if min = 0 ∧ max = MaxInt64 then "string"
          else if max = MaxInt64 then "string[" ++ FormatInt min ++ "]"
          else "string[" ++ FormatInt min ++ "," ++ FormatInt max ++ "]") ∧
    IsDecimalOf (FormatInt min) min ∧ IsDecimalOf (FormatInt max) max ∧
    (min = 1 → max = 10 → TypeString lib h typ = .wrote "string[1,10]") ∧
    (min = 0 → max = MaxInt64 → TypeString lib h typ = .wrote "string") := by
  have key : TypeString lib h typ
      = .wrote (if min = 0 ∧ max = MaxInt64 then "string"
          else if max = MaxInt64 then "string[" ++ FormatInt min ++ "]"
          else "string[" ++ FormatInt min ++ "," ++ FormatInt max ++ "]") := by
    rw [TypeString_complex lib h typ _ hd rfl]
    simp only [applyTable, complexTypes, DgoType.TypeIdentifier]
    exact sizedText "string" min max
  refine ⟨key, FormatInt_decimal min, FormatInt_decimal max, ?_, ?_⟩
  · intro h1 h2
    rw [key, h1, h2]
    decide
  · intro h1 h2
    rw [key, h1, h2]
    decide

/-- Witness for C3: the sized string type with bounds `[1,10]`. -/
theorem TypeString_stringSized_witness :
    TypeString sampleLib sizedStrings 0 = .wrote "string[1,10]" :=
  (TypeString_stringSized sampleLib sizedStrings 0 1 10 (by decide)).2.2.2.1 rfl rfl

/-- C4. A record type renders as `{`, its entries in declaration order separated by `,`,
each written as the rendered key, `?` exactly when the entry is not required, `:` and the
rendered value type, then `...` when additional entries are permitted (after a `,` exactly
when there is an entry), then `}`.  Here `txt` names the texts the keys and value types
render to in the context of the record.  The record with the single required entry `a` of
type string renders as `{"a":string}`. -/
theorem buildTypeString_struct (lib : Lib) (h : Heap) (fuel : Nat) (seen : List Nat)
    (typ prio : Nat) (entries : List StructEntry) (additional : Bool) (txt : Nat → String)
    (hd : h.deref typ = some (.struct entries additional)) (hnot : typ ∉ seen)
    (hk : ∀ e ∈ entries,
      buildTypeString lib h fuel (seen ++ [typ]) e.key commaPrio = .wrote (txt e.key))
    (hv : ∀ e ∈ entries,
      buildTypeString lib h fuel (seen ++ [typ]) e.value commaPrio = .wrote (txt e.value)) :
    buildTypeString lib h (fuel + 1) seen typ prio
      = .wrote (structText
          (entries.map (fun e => entryText (txt e.key) e.required (txt e.value)))
          additional) ∧
    (lib.quote "a" = "\"a\"" → TypeString lib recordA 0 = .wrote "\x7b\"a\":string\x7d") := by
  constructor
  · rw [buildTypeString_complex lib h fuel seen typ prio _ hd rfl hnot]
    simp only [applyTable, complexTypes, DgoType.TypeIdentifier, joinStructEntries]
    rw [eachJoin_wrote _ (fun e => entryText (txt e.key) e.required (txt e.value))]
    · cases entries with
      | nil => cases additional <;> simp [structText, sepBy]
      | cons e es =>
        cases additional <;> simp [structText, String.append_assoc]
    · intro e he
      rw [hk e he, hv e he]
      cases e.required <;> simp [entryText, String.append_assoc]
  · intro hq
    simp [TypeString, buildTypeString, recordA, Heap.deref, DgoType.TypeIdentifier,
      complexTypes, recursionHit, joinStructEntries, eachJoin, Unbounded, hq, commaPrio]

/-- Witness for C4: the record `{"a":string}`. -/
theorem buildTypeString_struct_witness :
    TypeString sampleLib recordA 0 = .wrote "\x7b\"a\":string\x7d" ∧
    buildTypeString sampleLib recordA 3 [] 0 0
      = .wrote (structText
          ([(⟨1, 2, true⟩ : StructEntry)].map (fun e =>
            entryText ((fun r => if r = 1 then "\"a\"" else "string") e.key) e.required
              ((fun r => if r = 1 then "\"a\"" else "string") e.value)))
          false) :=
  ⟨(buildTypeString_struct sampleLib recordA 2 [] 0 0 [⟨1, 2, true⟩] false
      (fun r => if r = 1 then "\"a\"" else "string") (by decide) (by decide)
      (by decide) (by decide)).2 (by decide),
   (buildTypeString_struct sampleLib recordA 2 [] 0 0 [⟨1, 2, true⟩] false
      (fun r => if r = 1 then "\"a\"" else "string") (by decide) (by decide)
      (by decide) (by decide)).1⟩

/-- C5. An integer range type renders as the decimal numeral of `min` (left out exactly
when `min` is `math.MinInt64`), then `..` when inclusive and `...` when not, then the
decimal numeral of `max` (left out exactly when `max` is `math.MaxInt64`). -/
theorem TypeString_integerRange (lib : Lib) (h : Heap) (typ : Nat) (min max : Int)
    (inclusive : Bool) (hd : h.deref typ = some (.integerRange min max inclusive)) :
    TypeString lib h typ
      = .wrote ((if min = MinInt64 then "" else FormatInt min)
          ++ (if inclusive then ".." else "...")
          ++ (if max = MaxInt64 then "" else FormatInt max)) ∧
    IsDecimalOf (FormatInt min) min ∧ IsDecimalOf (FormatInt max) max := by
  refine ⟨?_, FormatInt_decimal min, FormatInt_decimal max⟩
  rw [TypeString_complex lib h typ _ hd rfl]
  simp only [applyTable, complexTypes, DgoType.TypeIdentifier, writeIntRange]
  by_cases h1 : min = MinInt64 <;> by_cases h2 : max = MaxInt64 <;> simp [h1, h2]

/-- Witness for C5: the exclusive range without a lower bound. -/
theorem TypeString_integerRange_witness :
    TypeString sampleLib intRanges 1
      = .wrote ((if MinInt64 = MinInt64 then "" else FormatInt MinInt64)
          ++ (if false then ".." else "...")
          ++ (if (5 : Int) = MaxInt64 then "" else FormatInt 5)) :=
  (TypeString_integerRange sampleLib intRanges 1 MinInt64 5 false (by decide)).1

/-- C6, as stated, fails for arrays: the array type with default bounds keeps a bracketed
section, the empty pair `[]`, in front of its element type (here the binary type, which
renders as `binary` without any bracket). -/
theorem unbounded_array_counterexample :
    Unbounded 0 MaxInt64 = true ∧
    unboundedSized.deref 0 = some (.array 0 MaxInt64 1) ∧
    TypeString sampleLib unboundedSized 1 = .wrote "binary" ∧
    TypeString sampleLib unboundedSized 0 = .wrote "[]binary" ∧
    '[' ∈ "[]binary".data ∧ ']' ∈ "[]binary".data := by
  decide

/-- C6, amended. When the bounds are at their defaults (`Unbounded()`, that is `min = 0` and
`max = MaxInt64`) the string type writes `string` and nothing else, the binary type writes
`binary` and nothing else; the array type leaves out the bounds but keeps the brackets: it
writes the empty pair `[]` followed at once by the rendering of its element type. -/
theorem unbounded_bound_section (lib : Lib) (h : Heap) (fuel : Nat) (seen : List Nat)
    (typ prio : Nat) (min max : Int) (hnot : typ ∉ seen) (hmin : min = 0)
    (hmax : max = MaxInt64) :
    Unbounded min max = true ∧
    (h.deref typ = some (.stringSized min max) →
      buildTypeString lib h (fuel + 1) seen typ prio = .wrote "string") ∧
    (h.deref typ = some (.binary min max) →
      buildTypeString lib h (fuel + 1) seen typ prio = .wrote "binary") ∧
    (∀ elementType, h.deref typ = some (.array min max elementType) →
      buildTypeString lib h (fuel + 1) seen typ prio
        = .wrote "[]" ++ buildTypeString lib h fuel (seen ++ [typ]) elementType typePrio) := by
  have hu : Unbounded min max = true := (Unbounded_iff _ _).2 ⟨hmin, hmax⟩
  refine ⟨hu, ?_, ?_, ?_⟩
  · intro hd
    rw [buildTypeString_complex lib h fuel seen typ prio _ hd rfl hnot]
    simp [applyTable, complexTypes, DgoType.TypeIdentifier, hu]
  · intro hd
    rw [buildTypeString_complex lib h fuel seen typ prio _ hd rfl hnot]
    simp [applyTable, complexTypes, DgoType.TypeIdentifier, hu]
  · intro elementType hd
    rw [buildTypeString_complex lib h fuel seen typ prio _ hd rfl hnot]
    simp [applyTable, complexTypes, DgoType.TypeIdentifier, hu]

/-- Witness for the amended C6: the unbounded string, binary and array types. -/
theorem unbounded_bound_section_witness :
    TypeString sampleLib unboundedSized 2 = .wrote "string" ∧
    TypeString sampleLib unboundedSized 1 = .wrote "binary" ∧
    TypeString sampleLib unboundedSized 0
      = .wrote "[]" ++ buildTypeString sampleLib unboundedSized 3 ([] ++ [0]) 1 typePrio :=
  ⟨(unbounded_bound_section sampleLib unboundedSized 3 [] 2 0 0 MaxInt64 (by decide) rfl
      rfl).2.1 (by decide),
   (unbounded_bound_section sampleLib unboundedSized 3 [] 1 0 0 MaxInt64 (by decide) rfl
      rfl).2.2.1 (by decide),
   (unbounded_bound_section sampleLib unboundedSized 3 [] 0 0 0 MaxInt64 (by decide) rfl
      rfl).2.2.2 1 (by decide)⟩

/-- C7. A type whose kind tag is absent from the dispatch table is rendered as the name of
its kind, at every priority and for every list `seen` (even one that holds the type
itself): no recursion check, no parentheses.  The any type is such a type, and
`anyType.String` is the name of `TiAny`. -/
theorem buildTypeString_absent_from_table (lib : Lib) (h : Heap) (fuel : Nat)
    (seen : List Nat) (typ prio : Nat) (t : DgoType) (hd : h.deref typ = some t)
    (habs : complexTypes lib h (buildTypeString lib h fuel) t.TypeIdentifier = none) :
    buildTypeString lib h (fuel + 1) seen typ prio = .wrote (lib.tiString t.TypeIdentifier) ∧
    TypeString lib h typ = .wrote (lib.tiString t.TypeIdentifier) ∧
    complexTypes lib h (buildTypeString lib h fuel) DgoType.any.TypeIdentifier = none ∧
    anyType.String lib = .wrote (lib.tiString .TiAny) := by
  have hc : isComplex t.TypeIdentifier = false := by
    rw [← complexTypes_isSome lib h (buildTypeString lib h fuel), habs]
    rfl
  refine ⟨buildTypeString_atomic lib h fuel seen typ prio t hd hc,
    buildTypeString_atomic lib h h.types.length [] typ 0 t hd hc, rfl, ?_⟩
  exact buildTypeString_atomic lib ⟨[.any], id⟩ 1 [] 0 0 .any rfl rfl

/-- Witness for C7: the any type, rendered at the highest priority with itself in `seen`. -/
theorem buildTypeString_absent_from_table_witness :
    buildTypeString sampleLib atoms 1 [0] 0 typePrio = .wrote "any" :=
  (buildTypeString_absent_from_table sampleLib atoms 0 [0] 0 typePrio .any (by decide)
    rfl).1

/-- C8. For the any type `Assignable(other)` is true for every type `other` and
`Instance(value)` is true for every value, so `Assignable` agrees with its set definition:
whatever set of instances `other` has (`instOther`), `Assignable(other)` is true exactly
when every instance of `other` is an instance of the any type. -/
theorem anyType_Assignable_Instance (t : anyType) (other value : Iface)
    (instOther : Iface → Bool) :
    t.Assignable other = true ∧ t.Instance value = true ∧
    (t.Assignable other = true ↔ ∀ v, instOther v = true → t.Instance v = true) := by
  refine ⟨rfl, rfl, ?_⟩
  constructor
  · intro _ v _
    rfl
  · intro _
    rfl

/-- C9. For all values `a`, `b` of the any type `a.Equals(b) = b.Equals(a)`, equal values
have the same hash code, and an `anyType` is never equal to a value that is not an
`anyType`. -/
theorem anyType_Equals_HashCode (tiInt : TypeIdentifier → Int) (a b : anyType) :
    a.Equals (.ofAnyType b) = b.Equals (.ofAnyType a) ∧
    (a.Equals (.ofAnyType b) = true → a.HashCode tiInt = b.HashCode tiInt) ∧
    (∀ v : Iface, (∀ t, v ≠ .ofAnyType t) → a.Equals v = false) := by
  refine ⟨?_, fun _ => rfl, ?_⟩
  · simp only [anyType.Equals, Iface.ofAnyType.injEq]
    by_cases hab : a = b
    · simp [hab]
    · have hba : ¬ b = a := fun e => hab e.symm
      simp [hab, hba]
  · intro v hv
    simp only [anyType.Equals, decide_eq_false_iff_not]
    exact fun e => hv a e.symm

/-- Witness for C9: the default any type against itself and against nil. -/
theorem anyType_Equals_HashCode_witness :
    DefaultAnyType.HashCode (fun _ => 1) = DefaultAnyType.HashCode (fun _ => 1) ∧
    DefaultAnyType.Equals .nil = false :=
  ⟨(anyType_Equals_HashCode (fun _ => 1) DefaultAnyType DefaultAnyType).2.1 (by decide),
   (anyType_Equals_HashCode (fun _ => 1) DefaultAnyType DefaultAnyType).2.2 .nil
     (by intro t; exact Iface.noConfusion)⟩

/-! ## Lemmas for the integer range -/

theorem writeIntRange_text (min max : Int) (inclusive : Bool) :
    writeIntRange min max inclusive
      = .wrote ((if min = MinInt64 then "" else FormatInt min)
          ++ (if inclusive then ".." else "...")
          ++ (if max = MaxInt64 then "" else FormatInt max)) := by
  unfold writeIntRange
  by_cases h1 : min = MinInt64 <;> by_cases h2 : max = MaxInt64 <;> simp [h1, h2]

theorem writeIntRange_data (min max : Int) (inclusive : Bool) :
    ((if min = MinInt64 then "" else FormatInt min)
          ++ (if inclusive then ".." else "...")
          ++ (if max = MaxInt64 then "" else FormatInt max)).data
      = boundChars MinInt64 min
          ++ '.' :: '.' :: ((if inclusive then [] else ['.']) ++ boundChars MaxInt64 max) := by
  unfold boundChars
  by_cases h1 : min = MinInt64 <;> by_cases h2 : max = MaxInt64 <;> cases inclusive <;>
    simp [h1, h2]

theorem dot_not_mem_FormatInt (i : Int) : '.' ∉ (FormatInt i).data :=
  fun hm => absurd (FormatInt_chars i '.' hm) (by decide)

theorem dot_not_mem_boundChars (sentinel i : Int) : '.' ∉ boundChars sentinel i := by
  unfold boundChars
  split
  · simp
  · exact dot_not_mem_FormatInt i

theorem FormatInt_data_ne_nil (i : Int) : (FormatInt i).data ≠ [] := by
  obtain ⟨ds, h1, _, h3, _⟩ := FormatInt_decimal i
  rw [h1]
  cases ds with
  | nil => exact absurd rfl h3
  | cons d ds => simp

theorem boundChars_inj (sentinel a b : Int)
    (h : boundChars sentinel a = boundChars sentinel b) : a = b := by
  unfold boundChars at h
  by_cases ha : a = sentinel <;> by_cases hb : b = sentinel
  · rw [ha, hb]
  · rw [if_pos ha, if_neg hb] at h
    exact absurd h.symm (FormatInt_data_ne_nil b)
  · rw [if_neg ha, if_pos hb] at h
    exact absurd h (FormatInt_data_ne_nil a)
  · rw [if_neg ha, if_neg hb] at h
    exact FormatInt_data_injective a b h

/-! ## Lemmas for acyclic heaps -/

theorem eachJoin_congr {α : Type} (f g : α → Res) (s : String) (l : List α)
    (hfg : ∀ x ∈ l, f x = g x) (first : Bool) :
    eachJoin f s first l = eachJoin g s first l := by
  induction l generalizing first with
  | nil => rfl
  | cons x xs ih =>
    simp only [eachJoin]
    rw [hfg x (by simp), ih (fun y hy => hfg y (by simp [hy])) false]

/-- A table entry applied to an object of its own kind calls `buildTypeString` only on the
children of the object, with the list `seen` it was given. -/
theorem applyTable_congr_children (lib : Lib) (h : Heap) (b1 b2 : Build) (s1 s2 : List Nat)
    (t : DgoType) (prio : Nat)
    (hc : ∀ c ∈ t.children h, ∀ p, b1 s1 c p = b2 s2 c p) :
    applyTable lib h b1 t.TypeIdentifier s1 t prio
      = applyTable lib h b2 t.TypeIdentifier s2 t prio := by
  cases t <;>
    simp only [applyTable, complexTypes, DgoType.TypeIdentifier, writeTernary,
      DgoType.ternaryOperands, joinX, joinTypes, joinValueTypes, joinStructEntries,
      typeAsType, valueAsType] <;>
    simp only [DgoType.children, DgoType.refs, List.mem_map, List.mem_cons,
      List.mem_singleton, List.mem_append, List.not_mem_nil, or_false, forall_eq_or_imp,
      forall_eq, forall_exists_index, and_imp, forall_apply_eq_imp_iff₂] at hc
  case anyOf ops => rw [eachJoin_congr _ _ _ _ (fun x hx => hc x hx _)]
  case oneOf ops => rw [eachJoin_congr _ _ _ _ (fun x hx => hc x hx _)]
  case allOf ops => rw [eachJoin_congr _ _ _ _ (fun x hx => hc x hx _)]
  case allOfValue ops => rw [eachJoin_congr _ _ _ _ (fun x hx => hc x hx _)]
  case arrayExact ops => rw [eachJoin_congr _ _ _ _ (fun x hx => hc x hx _)]
  case tuple ops => rw [eachJoin_congr _ _ _ _ (fun x hx => hc x hx _)]
  case mapExact ops => rw [eachJoin_congr _ _ _ _ (fun x hx => hc x hx _)]
  case array min max e => rw [hc]
  case map k min max v => rw [hc.1, hc.2]
  case mapEntryExact k v => rw [hc.1, hc.2]
  case not op => rw [hc]
  case meta op => rw [hc]
  case struct entries additional =>
    rw [eachJoin_congr _ _ _ _ (fun x hx => by
      rw [hc _ (Or.inl ⟨x, hx, rfl⟩), hc _ (Or.inr ⟨x, hx, rfl⟩)])]

theorem Heap.acyclic_lt (h : Heap) (rank : Nat → Nat) (hac : h.acyclic rank = true)
    (typ : Nat) (t : DgoType) (hd : h.deref typ = some t) :
    ∀ c ∈ t.children h, rank c < rank typ := by
  have hlt : typ < h.types.length := Heap.deref_lt h typ (by rw [hd]; simp)
  unfold Heap.acyclic at hac
  rw [List.all_eq_true] at hac
  have := hac typ (List.mem_range.2 hlt)
  rw [hd] at this
  simp only [List.all_eq_true, decide_eq_true_eq] at this
  exact this

theorem buildTypeStringNoCheck_succ (lib : Lib) (h : Heap) (fuel typ prio : Nat) :
    buildTypeStringNoCheck lib h (fuel + 1) typ prio =
      match h.deref typ with
      | none => .panic
      | some t =>
        if isComplex t.TypeIdentifier then
          applyTable lib h (fun _ c p => buildTypeStringNoCheck lib h fuel c p)
            t.TypeIdentifier [] t prio
        else .wrote (lib.tiString t.TypeIdentifier) := by
  simp only [buildTypeStringNoCheck]
  cases h.deref typ with
  | none => rfl
  | some t =>
    simp only [← complexTypes_isSome lib h
      (fun _ c p => buildTypeStringNoCheck lib h fuel c p), applyTable]
    cases complexTypes lib h (fun _ c p => buildTypeStringNoCheck lib h fuel c p)
      t.TypeIdentifier <;> simp

/-- In an acyclic heap a call whose list `seen` holds only objects of higher rank writes
what the printer without the recursion check writes. -/
theorem buildTypeString_eq_noCheck (lib : Lib) (h : Heap) (rank : Nat → Nat)
    (hac : h.acyclic rank = true) (fuel : Nat) :
    ∀ (seen : List Nat) (typ prio : Nat), (∀ s ∈ seen, rank typ < rank s) →
      buildTypeString lib h fuel seen typ prio = buildTypeStringNoCheck lib h fuel typ prio := by
  induction fuel with
  | zero => intro seen typ prio _; rfl
  | succ fuel ih =>
    intro seen typ prio hs
    rw [buildTypeString_succ, buildTypeStringNoCheck_succ]
    cases hd : h.deref typ with
    | none => rfl
    | some t =>
      simp only
      have hnot : typ ∉ seen := fun hm => Nat.lt_irrefl _ (hs typ hm)
      have hit : recursionHit seen typ = false := by
        cases hr : recursionHit seen typ with
        | false => rfl
        | true => exact absurd ((recursionHit_eq_true _ _).1 hr) hnot
      rw [hit]
      by_cases hc : isComplex t.TypeIdentifier = true
      · simp only [hc, if_true, Bool.false_eq_true, if_false]
        apply applyTable_congr_children
        intro c hcm p
        apply ih
        intro s hsm
        have hlt := Heap.acyclic_lt h rank hac typ t hd c hcm
        simp only [List.mem_append, List.mem_singleton] at hsm
        rcases hsm with hsm | hsm
        · exact Nat.lt_trans hlt (hs s hsm)
        · rw [hsm]; exact hlt
      · simp [hc]

theorem RenderPath.rank_lt (h : Heap) (rank : Nat → Nat) (hac : h.acyclic rank = true)
    (root : Nat) (seen : List Nat) (typ : Nat) (hp : RenderPath h root seen typ) :
    ∀ s ∈ seen, rank typ < rank s := by
  induction hp with
  | start => intro s hs; simp at hs
  | step seen typ t c _ hd _ _ hcm ih =>
    intro s hsm
    have hlt := Heap.acyclic_lt h rank hac typ t hd c hcm
    simp only [List.mem_append, List.mem_singleton] at hsm
    rcases hsm with hsm | hsm
    · exact Nat.lt_trans hlt (ih s hsm)
    · rw [hsm]; exact hlt

theorem RenderPath.chain (h : Heap) (root : Nat) (seen : List Nat) (typ : Nat)
    (hp : RenderPath h root seen typ) :
    List.Chain' h.childOf (seen ++ [typ]) ∧ (seen ++ [typ]).head? = some root := by
  induction hp with
  | start => simp
  | step seen typ t c _ hd hcx _ hcm ih =>
    constructor
    · refine List.Chain'.append ih.1 (List.chain'_singleton c) ?_
      intro x hx y hy
      simp only [List.getLast?_append, List.getLast?_singleton, Option.or,
        Option.mem_def, Option.some.injEq] at hx
      simp only [List.head?_cons, Option.mem_def, Option.some.injEq] at hy
      subst hx hy
      exact ⟨t, hd, hcx, hcm⟩
    · have := ih.2
      cases hl : seen ++ [typ] with
      | nil => simp at hl
      | cons a l =>
        rw [hl] at this
        simpa using this

/-! ## Lemmas for the error values -/

theorem recordA_text (lib : Lib) (hq : lib.quote "a" = "\"a\"") :
    TypeString lib recordA 0 = .wrote "\x7b\"a\":string\x7d" := by
  simp [TypeString, buildTypeString, recordA, Heap.deref, DgoType.TypeIdentifier,
    complexTypes, recursionHit, joinStructEntries, eachJoin, Unbounded, hq, commaPrio]

theorem sizedStrings_text (lib : Lib) :
    TypeString lib sizedStrings 0 = .wrote "string[1,10]" ∧
    TypeString lib sizedStrings 1 = .wrote "string" := by
  constructor
  · rw [stringSized_text lib sizedStrings 0 1 10 rfl]
    decide
  · rw [stringSized_text lib sizedStrings 1 0 MaxInt64 rfl]
    decide

/-! ## Lemmas for frozen copies -/

theorem selfMap_overflow (depth : Nat) : Copy depth selfMap 0 true = .overflow := by
  induction depth with
  | zero => rfl
  | succ depth ih =>
    simp [Copy, selfMap, freezeEntries, freezeCell] at ih ⊢
    simp [ih]

theorem Copy_succ (depth : Nat) (s : Store) (x : Nat) (frozen : Bool) :
    Copy (depth + 1) s x frozen =
      match s[x]? with
      | none => .panic
      | some m =>
        if frozen then
          if m.frozen then .done s x
          else
            match freezeEntries (fun s1 addr => Copy depth s1 addr true) s m.entries with
            | .done s1 entries => .done (s1 ++ [⟨entries, true⟩]) s1.length
            | .panic => .panic
            | .overflow => .overflow
        else .done (s ++ [⟨m.entries, false⟩]) s.length := rfl

theorem Store.extendedBy_refl (s : Store) : s.extendedBy s :=
  ⟨[], by simp, by simp⟩

theorem Store.extendedBy_trans {s s1 s2 : Store} (h1 : s.extendedBy s1)
    (h2 : s1.extendedBy s2) : s.extendedBy s2 := by
  obtain ⟨e1, rfl, f1⟩ := h1
  obtain ⟨e2, rfl, f2⟩ := h2
  refine ⟨e1 ++ e2, by simp, ?_⟩
  intro m hm
  simp only [List.mem_append] at hm
  rcases hm with hm | hm
  · exact f1 m hm
  · exact f2 m hm

theorem Store.extendedBy_length {s s1 : Store} (h1 : s.extendedBy s1) :
    s.length ≤ s1.length := by
  obtain ⟨e1, rfl, _⟩ := h1
  simp

theorem Store.extendedBy_get {s s1 : Store} (h1 : s.extendedBy s1) (x : Nat) (m : MapObject)
    (hx : s1[x]? = some m) : (x < s.length ∧ s[x]? = some m) ∨ m.frozen = true := by
  obtain ⟨e1, rfl, f1⟩ := h1
  by_cases hlt : x < s.length
  · rw [List.getElem?_append_left hlt] at hx
    exact Or.inl ⟨hlt, hx⟩
  · rw [List.getElem?_append_right (by omega)] at hx
    exact Or.inr (f1 m (List.getElem?_mem hx))

theorem Store.acyclicOn_spec (s : Store) (region : Nat → Bool) (rank : Nat → Nat)
    (hac : s.acyclicOn region rank = true) (a : Nat) (m : MapObject) (ha : s[a]? = some m)
    (hr : region a = true) (hf : m.frozen = false) :
    ∀ kv ∈ m.entries, cellBelow s region rank a kv.1 ∧ cellBelow s region rank a kv.2 := by
  unfold Store.acyclicOn at hac
  rw [List.all_eq_true] at hac
  have h1 := hac (a, m) (List.mk_mem_enum_iff_getElem?.2 ha)
  simp only [hr, hf, Bool.not_true, Bool.false_or, List.all_eq_true, Bool.and_eq_true] at h1
  intro kv hkv
  have h2 := h1 kv hkv
  constructor
  · cases hk : kv.1 with
    | atom id => trivial
    | map b =>
      have := h2.1
      rw [hk] at this
      simpa [cellBelow] using this
  · cases hk : kv.2 with
    | atom id => trivial
    | map b =>
      have := h2.2
      rw [hk] at this
      simpa [cellBelow] using this

theorem freezeCell_done (s : Store) (region : Nat → Bool) (rank : Nat → Nat) (k : Nat)
    (copy : Store → Nat → Out Nat)
    (hcopy : ∀ s1 : Store, s.extendedBy s1 → ∀ b, b < s.length → region b = true →
      rank b < k → ∃ s2 r, copy s1 b = .done s2 r ∧ s1.extendedBy s2)
    (s1 : Store) (he : s.extendedBy s1) (c : Cell)
    (hc : ∀ b, c = .map b → b < s.length ∧ region b = true ∧ rank b < k) :
    ∃ s2 c2, freezeCell copy s1 c = .done s2 c2 ∧ s1.extendedBy s2 := by
  cases c with
  | atom id => exact ⟨s1, .atom id, rfl, Store.extendedBy_refl s1⟩
  | map b =>
    obtain ⟨s2, r, h1, h2⟩ := hcopy s1 he b (hc b rfl).1 (hc b rfl).2.1 (hc b rfl).2.2
    exact ⟨s2, .map r, by simp [freezeCell, h1], h2⟩

theorem freezeEntries_done (s : Store) (region : Nat → Bool) (rank : Nat → Nat) (k : Nat)
    (copy : Store → Nat → Out Nat)
    (hcopy : ∀ s1 : Store, s.extendedBy s1 → ∀ b, b < s.length → region b = true →
      rank b < k → ∃ s2 r, copy s1 b = .done s2 r ∧ s1.extendedBy s2)
    (entries : List (Cell × Cell)) :
    ∀ (s1 : Store), s.extendedBy s1 →
      (∀ kv ∈ entries,
        (∀ b, kv.1 = .map b → b < s.length ∧ region b = true ∧ rank b < k) ∧
        (∀ b, kv.2 = .map b → b < s.length ∧ region b = true ∧ rank b < k)) →
      ∃ s2 es, freezeEntries copy s1 entries = .done s2 es ∧ s1.extendedBy s2 := by
  induction entries with
  | nil => intro s1 _ _; exact ⟨s1, [], rfl, Store.extendedBy_refl s1⟩
  | cons kv rest ih =>
    intro s1 he hall
    obtain ⟨k0, v0⟩ := kv
    have hkv := hall (k0, v0) (by simp)
    obtain ⟨s2, k1, e1, x1⟩ := freezeCell_done s region rank k copy hcopy s1 he k0 hkv.1
    have he2 := Store.extendedBy_trans he x1
    obtain ⟨s3, v1, e2, x2⟩ := freezeCell_done s region rank k copy hcopy s2 he2 v0 hkv.2
    have he3 := Store.extendedBy_trans he2 x2
    obtain ⟨s4, es, e3, x3⟩ := ih s3 he3 (fun kv hm => hall kv (by simp [hm]))
    exact ⟨s4, (k1, v1) :: es, by simp [freezeEntries, e1, e2, e3],
      Store.extendedBy_trans x1 (Store.extendedBy_trans x2 x3)⟩

/-- On a set of maps without back references a frozen copy returns when the depth exceeds
the rank of the map. -/
theorem Copy_done_of_acyclicOn (s : Store) (region : Nat → Bool) (rank : Nat → Nat)
    (hac : s.acyclicOn region rank = true) (n : Nat) :
    ∀ (s1 : Store), s.extendedBy s1 → ∀ x, x < s1.length →
      (x < s.length → region x = true ∧ rank x < n) →
      ∃ s2 r, Copy (n + 1) s1 x true = .done s2 r ∧ s1.extendedBy s2 := by
  induction n with
  | zero =>
    intro s1 he x hx hr
    obtain ⟨m, hm⟩ : ∃ m, s1[x]? = some m := ⟨s1[x], List.getElem?_eq_getElem hx⟩
    rcases Store.extendedBy_get he x m hm with ⟨hlt, _⟩ | hf
    · exact absurd (hr hlt).2 (Nat.not_lt_zero _)
    · exact ⟨s1, x, by simp [Copy, hm, hf], Store.extendedBy_refl s1⟩
  | succ k ih =>
    intro s1 he x hx hr
    obtain ⟨m, hm⟩ : ∃ m, s1[x]? = some m := ⟨s1[x], List.getElem?_eq_getElem hx⟩
    cases hf : m.frozen with
    | true => exact ⟨s1, x, by simp [Copy, hm, hf], Store.extendedBy_refl s1⟩
    | false =>
      rcases Store.extendedBy_get he x m hm with ⟨hlt, hsx⟩ | hf2
      · have hcells := Store.acyclicOn_spec s region rank hac x m hsx (hr hlt).1 hf
        have hrx : rank x < k + 1 := (hr hlt).2
        have hcopy : ∀ s2 : Store, s.extendedBy s2 → ∀ b, b < s.length → region b = true →
            rank b < k →
            ∃ s3 r, (fun s1 addr => Copy (k + 1) s1 addr true) s2 b = .done s3 r ∧
              s2.extendedBy s3 := by
          intro s2 he2 b hb hreg hrb
          exact ih s2 he2 b (Nat.lt_of_lt_of_le hb (Store.extendedBy_length he2))
            (fun _ => ⟨hreg, hrb⟩)
        obtain ⟨s3, es, e3, x3⟩ := freezeEntries_done s region rank k _ hcopy m.entries s1 he
          (by
            intro kv hkv
            have := hcells kv hkv
            constructor
            · intro b hb
              have h1 := this.1
              rw [hb] at h1
              exact ⟨h1.1, h1.2.1, by have := h1.2.2; omega⟩
            · intro b hb
              have h2 := this.2
              rw [hb] at h2
              exact ⟨h2.1, h2.2.1, by have := h2.2.2; omega⟩)
        refine ⟨s3 ++ [⟨es, true⟩], s3.length, ?_, ?_⟩
        · rw [Copy_succ, hm]
          simp only [if_true, hf, Bool.false_eq_true, if_false, e3]
        exact Store.extendedBy_trans x3 ⟨[⟨es, true⟩], rfl, by simp⟩
      · rw [hf] at hf2
        cases hf2

theorem freezeCell_extends (copy : Store → Nat → Out Nat)
    (hext : ∀ s1 a s2 r, copy s1 a = .done s2 r → s1.extendedBy s2)
    (s1 : Store) (c : Cell) (s2 : Store) (c2 : Cell)
    (hc : freezeCell copy s1 c = .done s2 c2) : s1.extendedBy s2 := by
  cases c with
  | atom id =>
    simp only [freezeCell, Out.done.injEq] at hc
    rw [← hc.1]
    exact Store.extendedBy_refl s1
  | map b =>
    simp only [freezeCell] at hc
    cases hb : copy s1 b with
    | done s3 r =>
      rw [hb] at hc
      simp only [Out.done.injEq] at hc
      rw [← hc.1]
      exact hext s1 b s3 r hb
    | panic => rw [hb] at hc; cases hc
    | overflow => rw [hb] at hc; cases hc

theorem freezeEntries_extends (copy : Store → Nat → Out Nat)
    (hext : ∀ s1 a s2 r, copy s1 a = .done s2 r → s1.extendedBy s2)
    (entries : List (Cell × Cell)) :
    ∀ (s1 s2 : Store) (es : List (Cell × Cell)),
      freezeEntries copy s1 entries = .done s2 es → s1.extendedBy s2 := by
  induction entries with
  | nil =>
    intro s1 s2 es hc
    simp only [freezeEntries, Out.done.injEq] at hc
    rw [← hc.1]
    exact Store.extendedBy_refl s1
  | cons kv rest ih =>
    intro s1 s2 es hc
    obtain ⟨k0, v0⟩ := kv
    simp only [freezeEntries] at hc
    cases h1 : freezeCell copy s1 k0 with
    | done sa k1 =>
      rw [h1] at hc
      simp only at hc
      cases h2 : freezeCell copy sa v0 with
      | done sb v1 =>
        rw [h2] at hc
        simp only at hc
        cases h3 : freezeEntries copy sb rest with
        | done sc rest1 =>
          rw [h3] at hc
          simp only [Out.done.injEq] at hc
          rw [← hc.1]
          exact Store.extendedBy_trans (freezeCell_extends copy hext s1 k0 sa k1 h1)
            (Store.extendedBy_trans (freezeCell_extends copy hext sa v0 sb v1 h2)
              (ih sb sc rest1 h3))
        | panic => rw [h3] at hc; cases hc
        | overflow => rw [h3] at hc; cases hc
      | panic => rw [h2] at hc; cases hc
      | overflow => rw [h2] at hc; cases hc
    | panic => rw [h1] at hc; cases hc
    | overflow => rw [h1] at hc; cases hc

/-- A frozen copy only adds frozen instances to the store. -/
theorem Copy_extends (depth : Nat) :
    ∀ (s : Store) (x : Nat) (s1 : Store) (r : Nat),
      Copy depth s x true = .done s1 r → s.extendedBy s1 := by
  induction depth with
  | zero => intro s x s1 r hc; cases hc
  | succ depth ih =>
    intro s x s1 r hc
    rw [Copy_succ] at hc
    cases hm : s[x]? with
    | none => rw [hm] at hc; cases hc
    | some m =>
      rw [hm] at hc
      simp only [if_true] at hc
      cases hf : m.frozen with
      | true =>
        rw [hf] at hc
        simp only [if_true, Out.done.injEq] at hc
        rw [← hc.1]
        exact Store.extendedBy_refl s
      | false =>
        rw [hf] at hc
        simp only [Bool.false_eq_true, if_false] at hc
        cases he : freezeEntries (fun s1 addr => Copy depth s1 addr true) s m.entries with
        | done s2 es =>
          rw [he] at hc
          simp only [Out.done.injEq] at hc
          rw [← hc.1]
          exact Store.extendedBy_trans
            (freezeEntries_extends _ (fun sa a sb rb => ih sa a sb rb) m.entries s s2 es he)
            ⟨[⟨es, true⟩], rfl, by simp⟩
        | panic => rw [he] at hc; cases hc
        | overflow => rw [he] at hc; cases hc

theorem freezeCell_stuck (s : Store) (loop : List Nat) (copy : Store → Nat → Out Nat)
    (hstuck : ∀ s1 : Store, s.extendedBy s1 → ∀ b ∈ loop, ∀ s2 r, copy s1 b ≠ .done s2 r)
    (s1 : Store) (he : s.extendedBy s1) (c : Cell) (hc : cellIn loop c = true) :
    ∀ s2 c2, freezeCell copy s1 c ≠ .done s2 c2 := by
  cases c with
  | atom id => simp [cellIn] at hc
  | map b =>
    have hb : b ∈ loop := by simpa [cellIn] using hc
    intro s2 c2 hd
    simp only [freezeCell] at hd
    cases hcb : copy s1 b with
    | done s3 r => exact hstuck s1 he b hb s3 r hcb
    | panic => rw [hcb] at hd; cases hd
    | overflow => rw [hcb] at hd; cases hd

theorem freezeEntries_stuck (s : Store) (loop : List Nat) (copy : Store → Nat → Out Nat)
    (hext : ∀ s1 a s2 r, copy s1 a = .done s2 r → s1.extendedBy s2)
    (hstuck : ∀ s1 : Store, s.extendedBy s1 → ∀ b ∈ loop, ∀ s2 r, copy s1 b ≠ .done s2 r)
    (entries : List (Cell × Cell)) :
    ∀ (s1 : Store), s.extendedBy s1 →
      (entries.any (fun kv => cellIn loop kv.1 || cellIn loop kv.2) = true) →
      ∀ s2 es, freezeEntries copy s1 entries ≠ .done s2 es := by
  induction entries with
  | nil => intro s1 _ hany; simp at hany
  | cons kv rest ih =>
    intro s1 he hany s2 es hd
    obtain ⟨k0, v0⟩ := kv
    simp only [freezeEntries] at hd
    cases h1 : freezeCell copy s1 k0 with
    | done sa k1 =>
      rw [h1] at hd
      simp only at hd
      have hea := Store.extendedBy_trans he (freezeCell_extends copy hext s1 k0 sa k1 h1)
      cases h2 : freezeCell copy sa v0 with
      | done sb v1 =>
        rw [h2] at hd
        simp only at hd
        have heb := Store.extendedBy_trans hea (freezeCell_extends copy hext sa v0 sb v1 h2)
        cases h3 : freezeEntries copy sb rest with
        | done sc rest1 =>
          simp only [List.any_cons, Bool.or_eq_true] at hany
          rcases hany with (hk | hv) | hrest
          · exact freezeCell_stuck s loop copy hstuck s1 he k0 hk sa k1 h1
          · exact freezeCell_stuck s loop copy hstuck sa hea v0 hv sb v1 h2
          · exact ih sb heb hrest sc rest1 h3
        | panic => rw [h3] at hd; cases hd
        | overflow => rw [h3] at hd; cases hd
      | panic => rw [h2] at hd; cases hd
      | overflow => rw [h2] at hd; cases hd
    | panic => rw [h1] at hd; cases hd
    | overflow => rw [h1] at hd; cases hd

/-- The frozen copy of a member of a set that is closed under a back reference does not
return, at any depth and in any store that the copy itself has extended. -/
theorem Copy_stuck (s : Store) (loop : List Nat) (ht : s.trapped loop = true) (depth : Nat) :
    ∀ (s1 : Store), s.extendedBy s1 → ∀ x ∈ loop, ∀ s2 r,
      Copy depth s1 x true ≠ .done s2 r := by
  induction depth with
  | zero => intro s1 _ x _ s2 r hd; cases hd
  | succ depth ih =>
    intro s1 he x hx s2 r hd
    unfold Store.trapped at ht
    rw [List.all_eq_true] at ht
    have hxs := ht x hx
    cases hm : s[x]? with
    | none => rw [hm] at hxs; cases hxs
    | some m =>
      rw [hm] at hxs
      simp only [Bool.and_eq_true, Bool.not_eq_true'] at hxs
      have hlt : x < s.length := by
        by_contra hge
        rw [List.getElem?_eq_none (by omega)] at hm
        cases hm
      have hm1 : s1[x]? = some m := by
        obtain ⟨ext, rfl, _⟩ := he
        rw [List.getElem?_append_left hlt]
        exact hm
      rw [Copy_succ, hm1] at hd
      simp only [if_true, hxs.1, Bool.false_eq_true, if_false] at hd
      cases hfe : freezeEntries (fun s1 addr => Copy depth s1 addr true) s1 m.entries with
      | done s3 es =>
        exact freezeEntries_stuck s loop _ (fun sa a sb rb => Copy_extends depth sa a sb rb)
          (fun sa hea b hb sb rb => ih sa hea b hb sb rb) m.entries s1 he hxs.2 s3 es hfe
      | panic => rw [hfe] at hd; cases hd
      | overflow => rw [hfe] at hd; cases hd

/-! ## Claims about errors, maps and the printer -/

/-- C19. The integer-range rendering is injective: when `writeIntRange` writes the same
text for `(min, max, inclusive)` and `(min2, max2, inclusive2)`, then `min = min2`,
`max = max2` and `inclusive = inclusive2`. -/
theorem writeIntRange_injective (min max min2 max2 : Int) (inclusive inclusive2 : Bool)
    (h : writeIntRange min max inclusive = writeIntRange min2 max2 inclusive2) :
    min = min2 ∧ max = max2 ∧ inclusive = inclusive2 := by
  rw [writeIntRange_text, writeIntRange_text] at h
  have hdata := congrArg String.data (Res.wrote.inj h)
  rw [writeIntRange_data, writeIntRange_data] at hdata
  have hs := split_at_sep '.' _ _ _ _ (dot_not_mem_boundChars MinInt64 min)
    (dot_not_mem_boundChars MinInt64 min2) hdata
  have hmin := boundChars_inj _ _ _ hs.1
  have hrest := hs.2
  simp only [List.cons.injEq, true_and] at hrest
  cases inclusive <;> cases inclusive2
  · simp only [Bool.false_eq_true, if_false, List.singleton_append, List.cons.injEq,
      true_and] at hrest
    exact ⟨hmin, boundChars_inj _ _ _ hrest, rfl⟩
  · exfalso
    simp only [Bool.false_eq_true, if_false, if_true, List.singleton_append,
      List.nil_append] at hrest
    exact dot_not_mem_boundChars MaxInt64 max2 (by rw [← hrest]; simp)
  · exfalso
    simp only [Bool.false_eq_true, if_false, if_true, List.singleton_append,
      List.nil_append] at hrest
    exact dot_not_mem_boundChars MaxInt64 max (by rw [hrest]; simp)
  · simp only [if_true, List.nil_append] at hrest
    exact ⟨hmin, boundChars_inj _ _ _ hrest, rfl⟩

/-- Witness for C19: the range `1..10` against itself. -/
theorem writeIntRange_injective_witness :
    writeIntRange 1 10 true = writeIntRange 1 10 true ∧
      ((1 : Int) = 1 ∧ (10 : Int) = 10 ∧ true = true) :=
  ⟨rfl, writeIntRange_injective 1 10 1 10 true true rfl⟩

/-- C20. A meta type renders as the bare text `type` when its operand is the default any
type, as `type[type]` when its operand is nil, and otherwise as `type[`, the rendering of
the operand at the priority the meta type itself is rendered at, and `]`.  The type of the
any type (`anyType.Type`) renders as `type`. -/
theorem buildTypeString_meta (lib : Lib) (h : Heap) (fuel : Nat) (seen : List Nat)
    (typ prio op : Nat) (hd : h.deref typ = some (.meta op)) (hnot : typ ∉ seen) :
    (h.deref op = some .any →
      buildTypeString lib h (fuel + 1) seen typ prio = .wrote "type") ∧
    (h.deref op = none →
      buildTypeString lib h (fuel + 1) seen typ prio = .wrote "type[type]") ∧
    (h.deref op ≠ some .any → h.deref op ≠ none →
      buildTypeString lib h (fuel + 1) seen typ prio
        = .wrote "type[" ++ buildTypeString lib h fuel (seen ++ [typ]) op prio
            ++ .wrote "]") ∧
    (h.deref op = some .any →
      TypeString lib (anyType.Type h op).1 (anyType.Type h op).2 = .wrote "type") := by
  have key := buildTypeString_complex lib h fuel seen typ prio _ hd rfl hnot
  simp only [applyTable, complexTypes, DgoType.TypeIdentifier] at key
  refine ⟨?_, ?_, ?_, ?_⟩
  · intro ha
    rw [key]
    simp [ha]
  · intro hn
    rw [key]
    simp [hn]
  · intro ha hn
    rw [key]
    simp only [ne_eq, ha, not_false_eq_true, if_true, hn, if_false]
    cases buildTypeString lib h fuel (seen ++ [typ]) op prio <;> rfl
  · intro ha
    have hlt : op < h.types.length := Heap.deref_lt h op (by rw [ha]; simp)
    have hd2 : (anyType.Type h op).1.deref (anyType.Type h op).2 = some (.meta op) := by
      simp [anyType.Type, Heap.deref]
    have ha2 : (anyType.Type h op).1.deref op = some .any := by
      unfold Heap.deref at ha
      simp only [anyType.Type, Heap.deref]
      rw [List.getElem?_append_left hlt]
      exact ha
    rw [TypeString_complex lib _ _ _ hd2 rfl]
    simp [applyTable, complexTypes, DgoType.TypeIdentifier, ha2]

/-- Witness for C20: the type of the any type, the meta type without an operand and the
meta type of a sized string type. -/
theorem buildTypeString_meta_witness :
    TypeString sampleLib metas 0 = .wrote "type" ∧
    TypeString sampleLib metas 2 = .wrote "type[type]" ∧
    TypeString sampleLib metas 3
      = .wrote "type[" ++ buildTypeString sampleLib metas 5 ([] ++ [3]) 4 0 ++ .wrote "]" ∧
    TypeString sampleLib metas 3 = .wrote "type[string[1,10]]" ∧
    TypeString sampleLib (anyType.Type metas 1).1 (anyType.Type metas 1).2 = .wrote "type" :=
  ⟨(buildTypeString_meta sampleLib metas 5 [] 0 0 1 (by decide) (by decide)).1 (by decide),
   (buildTypeString_meta sampleLib metas 5 [] 2 0 9 (by decide) (by decide)).2.1 (by decide),
   (buildTypeString_meta sampleLib metas 5 [] 3 0 4 (by decide) (by decide)).2.2.1
     (by decide) (by decide),
   by decide,
   (buildTypeString_meta sampleLib metas 5 [] 0 0 1 (by decide) (by decide)).2.2.2
     (by decide)⟩

/-- C17. A union, exclusive union or intersection rendered at a priority strictly higher
than the priority of its own operator is enclosed in `(` and `)`, and rendered at the comma
priority it is not enclosed.  The priorities are ordered comma < or < xor < and < type; the
operands of an operator are rendered at the priority of the operator, the operand of `!`,
the element type of an array and the value type of a map at the type priority; the top
level, the key type of a map, the elements of a tuple and the keys and value types of a
record are rendered at the comma priority. -/
theorem parentheses_where_needed (lib : Lib) (h : Heap) (fuel : Nat) (seen : List Nat)
    (typ prio : Nat) (t : DgoType) (hd : h.deref typ = some t) (hnot : typ ∉ seen) :
    (∀ operands tc op opPrio, ternaryParts h t = some (operands, tc, op, opPrio) →
      (prio > opPrio →
        buildTypeString lib h (fuel + 1) seen typ prio
          = .wrote "(" ++ joinX (buildTypeString lib h fuel) (seen ++ [typ]) operands tc op
              opPrio ++ .wrote ")") ∧
      (prio = commaPrio →
        buildTypeString lib h (fuel + 1) seen typ prio
          = joinX (buildTypeString lib h fuel) (seen ++ [typ]) operands tc op opPrio) ∧
      commaPrio < opPrio ∧ opPrio < typePrio) ∧
    (commaPrio < orPrio ∧ orPrio < xorPrio ∧ xorPrio < andPrio ∧ andPrio < typePrio) ∧
    TypeString lib h typ = buildTypeString lib h (h.types.length + 1) [] typ commaPrio ∧
    (∀ operand, t = .not operand →
      buildTypeString lib h (fuel + 1) seen typ prio
        = .wrote "!" ++ buildTypeString lib h fuel (seen ++ [typ]) operand typePrio) ∧
    (∀ min max elementType, t = .array min max elementType →
      buildTypeString lib h (fuel + 1) seen typ prio
        = (if Unbounded min max then .wrote "[]"
            else .wrote "[" ++ writeSizeBoundaries min max ++ .wrote "]")
          ++ buildTypeString lib h fuel (seen ++ [typ]) elementType typePrio) ∧
    (∀ keyType min max valueType, t = .map keyType min max valueType →
      buildTypeString lib h (fuel + 1) seen typ prio
        = .wrote "map[" ++ buildTypeString lib h fuel (seen ++ [typ]) keyType commaPrio
          ++ (if !Unbounded min max then .wrote "," ++ writeSizeBoundaries min max
              else .wrote "")
          ++ .wrote "]"
          ++ buildTypeString lib h fuel (seen ++ [typ]) valueType typePrio) ∧
    (∀ elementTypes, t = .tuple elementTypes →
      buildTypeString lib h (fuel + 1) seen typ prio
        = .wrote "\x7b"
          ++ joinX (buildTypeString lib h fuel) (seen ++ [typ]) elementTypes typeAsType ","
              commaPrio
          ++ .wrote "\x7d") ∧
    (∀ entries additional, t = .struct entries additional →
      buildTypeString lib h (fuel + 1) seen typ prio
        = .wrote "\x7b"
          ++ eachJoin (fun e =>
              buildTypeString lib h fuel (seen ++ [typ]) e.key commaPrio
                ++ (if !e.required then .wrote "?" else .wrote "")
                ++ .wrote ":"
                ++ buildTypeString lib h fuel (seen ++ [typ]) e.value commaPrio) "," true
              entries
          ++ (if additional then
                (if entries.length > 0 then .wrote "," else .wrote "") ++ .wrote "..."
              else .wrote "")
          ++ .wrote "\x7d") := by
  refine ⟨?_, by decide, rfl, ?_, ?_, ?_, ?_, ?_⟩
  · intro operands tc op opPrio hp
    cases t <;> simp only [ternaryParts] at hp <;> cases hp <;>
      (have key := buildTypeString_complex lib h fuel seen typ prio _ hd rfl hnot
       simp only [applyTable, complexTypes, DgoType.TypeIdentifier, writeTernary,
         DgoType.ternaryOperands] at key
       refine ⟨?_, ?_, by decide, by decide⟩
       · intro hgt
         have hge : prio ≥ orPrio := by
           first
           | exact Nat.le_of_lt hgt
           | exact Nat.le_trans (by decide) (Nat.le_of_lt hgt)
         rw [key]
         simp only [if_pos hge]
       · intro hc
         have hlt : ¬ prio ≥ orPrio := by rw [hc]; decide
         rw [key]
         simp only [if_neg hlt, Res.wrote_empty_append, Res.append_wrote_empty])
  all_goals
    intros
    subst_vars
    rw [buildTypeString_complex lib h fuel seen typ prio _ hd rfl hnot]
    simp only [applyTable, complexTypes, DgoType.TypeIdentifier, joinTypes,
      joinStructEntries]

/-- Witness for C17: the union `any|any` as the operand of `!`, of `&`, as an array
element type and as a map value type is enclosed; at the top level, as a map key type, as
a tuple element and as a record entry it is not. -/
theorem parentheses_where_needed_witness :
    buildTypeString sampleLib contexts 2 [0] 1 typePrio
      = .wrote "(" ++ joinX (buildTypeString sampleLib contexts 1) ([0] ++ [1]) [2, 2]
          typeAsType "|" orPrio ++ .wrote ")" ∧
    TypeString sampleLib contexts 0 = .wrote "!(any|any)" ∧
    TypeString sampleLib contexts 3 = .wrote "(any|any)&any" ∧
    TypeString sampleLib contexts 4 = .wrote "[](any|any)" ∧
    TypeString sampleLib contexts 5 = .wrote "map[any|any](any|any)" ∧
    TypeString sampleLib contexts 6 = .wrote "\x7bany|any\x7d" ∧
    TypeString sampleLib contexts 7 = .wrote "\x7bany|any:any|any\x7d" ∧
    TypeString sampleLib contexts 1 = .wrote "any|any" :=
  ⟨((parentheses_where_needed sampleLib contexts 1 [0] 1 typePrio (.anyOf [2, 2])
      (by decide) (by decide)).1 [2, 2] typeAsType "|" orPrio rfl).1 (by decide),
   by decide, by decide, by decide, by decide, by decide, by decide, by decide⟩

/-- C18. In a finite acyclic heap (a rank decreases from every object to its children):
each recursive call a table entry makes gets exactly the list `seen ++ [typ]` of its
parent call and goes to a child of the parent (replacing every other call by a panic
changes nothing, so siblings never leak into the list); along the calls that start at the
root, `seen` followed by the current type is the chain of ancestors from the root, the
current type is not in `seen`, so the recursion check never hits; and `TypeString` writes
what the printer without the placeholder branch writes. -/
theorem acyclic_never_placeholder (lib : Lib) (h : Heap) (rank : Nat → Nat)
    (hac : h.acyclic rank = true) (root : Nat) :
    (∀ (fuel : Nat) (seen : List Nat) (typ prio : Nat) (t : DgoType),
      h.deref typ = some t → isComplex t.TypeIdentifier = true → typ ∉ seen →
      buildTypeString lib h (fuel + 1) seen typ prio
        = applyTable lib h
            (fun s c p =>
              if s = seen ++ [typ] ∧ c ∈ t.children h then buildTypeString lib h fuel s c p
              else .panic)
            t.TypeIdentifier (seen ++ [typ]) t prio) ∧
    (∀ (seen : List Nat) (typ : Nat), RenderPath h root seen typ →
      List.Chain' h.childOf (seen ++ [typ]) ∧ (seen ++ [typ]).head? = some root ∧
      typ ∉ seen ∧ recursionHit seen typ = false ∧
      ∀ fuel prio, buildTypeString lib h fuel seen typ prio
        = buildTypeStringNoCheck lib h fuel typ prio) ∧
    TypeString lib h root = buildTypeStringNoCheck lib h (h.types.length + 1) root 0 := by
  refine ⟨?_, ?_, ?_⟩
  · intro fuel seen typ prio t hd hc hnot
    rw [buildTypeString_complex lib h fuel seen typ prio t hd hc hnot]
    apply applyTable_congr_children
    intro c hcm p
    simp [hcm]
  · intro seen typ hp
    have hr := RenderPath.rank_lt h rank hac root seen typ hp
    have hnot : typ ∉ seen := fun hm => Nat.lt_irrefl _ (hr typ hm)
    refine ⟨(RenderPath.chain h root seen typ hp).1, (RenderPath.chain h root seen typ hp).2,
      hnot, ?_, ?_⟩
    · cases hit : recursionHit seen typ with
      | false => rfl
      | true => exact absurd ((recursionHit_eq_true _ _).1 hit) hnot
    · intro fuel prio
      exact buildTypeString_eq_noCheck lib h rank hac fuel seen typ prio hr
  · exact buildTypeString_eq_noCheck lib h rank hac _ [] root 0 (by simp)

/-- Witness for C18: the union `!any|!any` whose two operands are the same object. -/
theorem acyclic_never_placeholder_witness :
    sharedOperand.acyclic (fun typ => 3 - typ) = true ∧
    TypeString sampleLib sharedOperand 0
      = buildTypeStringNoCheck sampleLib sharedOperand (sharedOperand.types.length + 1) 0 0 ∧
    TypeString sampleLib sharedOperand 0 = .wrote "!any|!any" :=
  ⟨by decide,
   (acyclic_never_placeholder sampleLib sharedOperand (fun typ => 3 - typ) (by decide)
     0).2.2,
   by decide⟩

/-- C11. The size-constraint error built from a sized type `t` and an attempted size `n`
renders exactly `size constraint violation on type `, the text `TypeString` writes for
`t`, ` when attempting resize to ` and the decimal numeral of `n`; for the sized string
type with bounds `[1,10]` and the size 12 this is
`size constraint violation on type string[1,10] when attempting resize to 12`. -/
theorem IllegalSize_String (lib : Lib) (h : Heap) (t : Nat) (n : Int) (s : String)
    (ht : TypeString lib h t = .wrote s) :
    (ErrorValue.IllegalSize t n).String lib h
      = .wrote ("size constraint violation on type " ++ s ++ " when attempting resize to "
          ++ FormatInt n) ∧
    IsDecimalOf (FormatInt n) n ∧
    (ErrorValue.IllegalSize 0 12).String lib sizedStrings
      = .wrote "size constraint violation on type string[1,10] when attempting resize to 12" := by
  refine ⟨?_, FormatInt_decimal n, ?_⟩
  · simp [ErrorValue.String, ht, String.append_assoc]
  · simp only [ErrorValue.String, (sizedStrings_text lib).1]
    decide

/-- Witness for C11: the sized string type with bounds `[1,10]` and the size 12. -/
theorem IllegalSize_String_witness :
    (ErrorValue.IllegalSize 0 12).String sampleLib sizedStrings
      = .wrote ("size constraint violation on type " ++ "string[1,10]"
          ++ " when attempting resize to " ++ FormatInt 12) :=
  (IllegalSize_String sampleLib sizedStrings 0 12 "string[1,10]" (by decide)).1

/-- C12. The assignment-failure error built from a type `t` and a value `v` renders exactly
`the value `, the text of `v`, ` cannot be assigned to a variable of type ` and the text
`TypeString` writes for `t`; for the integer 3 and a type that renders as `string` (the
string type without bounds is one) this is
`the value 3 cannot be assigned to a variable of type string`. -/
theorem IllegalAssignment_String (lib : Lib) (h : Heap) (t : Nat) (v : Value) (s : String)
    (ht : TypeString lib h t = .wrote s) :
    (ErrorValue.IllegalAssignment t v).String lib h
      = .wrote ("the value " ++ v.text lib ++ " cannot be assigned to a variable of type "
          ++ s) ∧
    (s = "string" →
      (ErrorValue.IllegalAssignment t (.integer 3)).String lib h
        = .wrote "the value 3 cannot be assigned to a variable of type string") ∧
    (ErrorValue.IllegalAssignment 1 (.integer 3)).String lib sizedStrings
      = .wrote "the value 3 cannot be assigned to a variable of type string" := by
  refine ⟨?_, ?_, ?_⟩
  · simp [ErrorValue.String, ht, String.append_assoc]
  · intro hs
    simp only [ErrorValue.String, ht, hs, Value.text]
    decide
  · simp only [ErrorValue.String, (sizedStrings_text lib).2, Value.text]
    decide

/-- Witness for C12: the integer 3 and the string type without bounds. -/
theorem IllegalAssignment_String_witness :
    (ErrorValue.IllegalAssignment 1 (.integer 3)).String sampleLib sizedStrings
      = .wrote "the value 3 cannot be assigned to a variable of type string" :=
  (IllegalAssignment_String sampleLib sizedStrings 1 (.integer 3) "string"
    (by decide)).2.1 rfl

/-- C13. The unrecognized-key error built from a record type `t` and a key `k` renders
exactly `key `, the text of `k`, ` cannot added to type ` and the text `TypeString` writes
for `t`; for the string key b and the record type `{"a":string}` this is
`key "b" cannot added to type {"a":string}` (for every quoting function that encloses `a`
and `b` in double quotes). -/
theorem IllegalMapKey_String (lib : Lib) (h : Heap) (t : Nat) (k : Value) (s : String)
    (ht : TypeString lib h t = .wrote s) :
    (ErrorValue.IllegalMapKey t k).String lib h
      = .wrote ("key " ++ k.text lib ++ " cannot added to type " ++ s) ∧
    (lib.quote "a" = "\"a\"" → lib.quote "b" = "\"b\"" →
      (ErrorValue.IllegalMapKey 0 (.string "b")).String lib recordA
        = .wrote "key \"b\" cannot added to type \x7b\"a\":string\x7d") := by
  refine ⟨?_, ?_⟩
  · simp [ErrorValue.String, ht, String.append_assoc]
  · intro ha hb
    simp only [ErrorValue.String, recordA_text lib ha, Value.text, hb]
    decide

/-- Witness for C13: the string key b and the record type `{"a":string}`. -/
theorem IllegalMapKey_String_witness :
    (ErrorValue.IllegalMapKey 0 (.string "b")).String sampleLib recordA
      = .wrote "key \"b\" cannot added to type \x7b\"a\":string\x7d" :=
  (IllegalMapKey_String sampleLib recordA 0 (.string "b") "\x7b\"a\":string\x7d"
    (by decide)).2 (by decide) (by decide)

/-- C14. For each of the three error kinds: two errors built from equal inputs (types that
are equal by the structural `Equals` of types, in particular the same type, and equal
values, sizes or keys) are equal and have the same hash code; two errors of the same kind
that differ in the offending value, size or key are not equal; and an error is never equal
to a value that is not an error, such as a plain string.  In the scenario of the test, with
the structural equality of the heap, the size errors built from two separately built sized
string types `[1,10]` and the size 12 are equal with the same hash code, and differ from
the error for the size 11; the same holds for two separately built array types whose
element types are separately built. -/
theorem ErrorValue_Equals_HashCode (tm : TypeMethods) (hashValue : Value → Int)
    (mix : Int → Int → Int → Int) (t t2 : Nat) (v v2 : Value) (n n2 : Int) :
    (tm.Equals t t2 = true → v = v2 →
      (ErrorValue.IllegalAssignment t v).Equals tm (.error (.IllegalAssignment t2 v2)) = true ∧
      (ErrorValue.IllegalAssignment t v).HashCode tm hashValue mix
        = (ErrorValue.IllegalAssignment t2 v2).HashCode tm hashValue mix) ∧
    (tm.Equals t t2 = true → n = n2 →
      (ErrorValue.IllegalSize t n).Equals tm (.error (.IllegalSize t2 n2)) = true ∧
      (ErrorValue.IllegalSize t n).HashCode tm hashValue mix
        = (ErrorValue.IllegalSize t2 n2).HashCode tm hashValue mix) ∧
    (tm.Equals t t2 = true → v = v2 →
      (ErrorValue.IllegalMapKey t v).Equals tm (.error (.IllegalMapKey t2 v2)) = true ∧
      (ErrorValue.IllegalMapKey t v).HashCode tm hashValue mix
        = (ErrorValue.IllegalMapKey t2 v2).HashCode tm hashValue mix) ∧
    ((ErrorValue.IllegalAssignment t v).Equals tm (.error (.IllegalAssignment t v)) = true ∧
      (ErrorValue.IllegalSize t n).Equals tm (.error (.IllegalSize t n)) = true ∧
      (ErrorValue.IllegalMapKey t v).Equals tm (.error (.IllegalMapKey t v)) = true) ∧
    (v ≠ v2 →
      (ErrorValue.IllegalAssignment t v).Equals tm (.error (.IllegalAssignment t2 v2))
        = false) ∧
    (n ≠ n2 →
      (ErrorValue.IllegalSize t n).Equals tm (.error (.IllegalSize t2 n2)) = false) ∧
    (v ≠ v2 →
      (ErrorValue.IllegalMapKey t v).Equals tm (.error (.IllegalMapKey t2 v2)) = false) ∧
    (∀ (e : ErrorValue) (other : AnyValue), (∀ e2, other ≠ .error e2) →
      e.Equals tm other = false) ∧
    (∀ e : ErrorValue, e.Equals tm (.value (.string "oops")) = false) ∧
    ((ErrorValue.IllegalSize 0 12).Equals (structuralMethods twinTypes)
        (.error (.IllegalSize 1 12)) = true ∧
      (ErrorValue.IllegalSize 0 12).HashCode (structuralMethods twinTypes) hashValue mix
        = (ErrorValue.IllegalSize 1 12).HashCode (structuralMethods twinTypes) hashValue mix ∧
      (ErrorValue.IllegalSize 0 12).Equals (structuralMethods twinTypes)
        (.error (.IllegalSize 1 11)) = false ∧
      (ErrorValue.IllegalSize 2 12).Equals (structuralMethods twinTypes)
        (.error (.IllegalSize 3 12)) = true ∧
      (ErrorValue.IllegalSize 2 12).HashCode (structuralMethods twinTypes) hashValue mix
        = (ErrorValue.IllegalSize 3 12).HashCode (structuralMethods twinTypes) hashValue mix ∧
      (ErrorValue.IllegalSize 0 12).Equals (structuralMethods twinTypes)
        (.error (.IllegalSize 2 12)) = false) := by
  refine ⟨?_, ?_, ?_, ?_, ?_, ?_, ?_, ?_, ?_, ?_⟩
  · intro ht hv
    exact ⟨by simp [ErrorValue.Equals, ht, hv],
      by simp only [ErrorValue.HashCode, tm.hash_eq t t2 ht, hv]⟩
  · intro ht hn
    exact ⟨by simp [ErrorValue.Equals, ht, hn],
      by simp only [ErrorValue.HashCode, tm.hash_eq t t2 ht, hn]⟩
  · intro ht hv
    exact ⟨by simp [ErrorValue.Equals, ht, hv],
      by simp only [ErrorValue.HashCode, tm.hash_eq t t2 ht, hv]⟩
  · simp [ErrorValue.Equals, tm.equals_refl]
  · intro hne
    simp [ErrorValue.Equals, hne]
  · intro hne
    simp [ErrorValue.Equals, hne]
  · intro hne
    simp [ErrorValue.Equals, hne]
  · intro e other hother
    cases other with
    | value w => cases e <;> rfl
    | type w => cases e <;> rfl
    | error e2 => exact absurd rfl (hother e2)
  · intro e
    cases e <;> rfl
  · refine ⟨by decide, ?_, by decide, by decide, ?_, by decide⟩
    · simp only [ErrorValue.HashCode]
      rw [(structuralMethods twinTypes).hash_eq 0 1 (by decide)]
    · simp only [ErrorValue.HashCode]
      rw [(structuralMethods twinTypes).hash_eq 2 3 (by decide)]

/-- Witness for C14: the errors of the tests, built from two separately built sized string
types, from the values 3 and 4, the sizes 12 and 11 and the keys b and c. -/
theorem ErrorValue_Equals_HashCode_witness :
    (structuralMethods twinTypes).Equals 0 1 = true ∧
    (ErrorValue.IllegalAssignment 0 (.integer 3)).Equals (structuralMethods twinTypes)
        (.error (.IllegalAssignment 1 (.integer 3))) = true ∧
    (ErrorValue.IllegalAssignment 0 (.integer 3)).HashCode (structuralMethods twinTypes)
        (fun _ => 1) (fun a b c => a + b + c)
      = (ErrorValue.IllegalAssignment 1 (.integer 3)).HashCode (structuralMethods twinTypes)
        (fun _ => 1) (fun a b c => a + b + c) ∧
    (ErrorValue.IllegalAssignment 0 (.integer 3)).Equals (structuralMethods twinTypes)
        (.error (.IllegalAssignment 1 (.integer 4))) = false ∧
    (ErrorValue.IllegalSize 0 12).Equals (structuralMethods twinTypes)
        (.error (.IllegalSize 1 11)) = false ∧
    (ErrorValue.IllegalMapKey 0 (.string "b")).Equals (structuralMethods twinTypes)
        (.error (.IllegalMapKey 1 (.string "c"))) = false ∧
    (ErrorValue.IllegalMapKey 0 (.string "b")).Equals (structuralMethods twinTypes)
        (.value (.string "oops")) = false :=
  ⟨by decide,
   ((ErrorValue_Equals_HashCode (structuralMethods twinTypes) (fun _ => 1)
      (fun a b c => a + b + c) 0 1 (.integer 3) (.integer 3) 12 12).1 (by decide) rfl).1,
   ((ErrorValue_Equals_HashCode (structuralMethods twinTypes) (fun _ => 1)
      (fun a b c => a + b + c) 0 1 (.integer 3) (.integer 3) 12 12).1 (by decide) rfl).2,
   (ErrorValue_Equals_HashCode (structuralMethods twinTypes) (fun _ => 1)
      (fun a b c => a + b + c) 0 1 (.integer 3) (.integer 4) 12 11).2.2.2.2.1 (by decide),
   (ErrorValue_Equals_HashCode (structuralMethods twinTypes) (fun _ => 1)
      (fun a b c => a + b + c) 0 1 (.integer 3) (.integer 4) 12 11).2.2.2.2.2.1
      (by decide),
   (ErrorValue_Equals_HashCode (structuralMethods twinTypes) (fun _ => 1)
      (fun a b c => a + b + c) 0 1 (.string "b") (.string "c") 12 11).2.2.2.2.2.2.1
      (by decide),
   (ErrorValue_Equals_HashCode (structuralMethods twinTypes) (fun _ => 1)
      (fun a b c => a + b + c) 0 1 (.string "b") (.string "c") 12 11).2.2.2.2.2.2.2.1 _
      (.value (.string "oops")) (by intro e2; exact AnyValue.noConfusion)⟩

/-- C15. Validating, against the record type with the single required entry a of type
string and no additional entries, the map whose only association is b bound to the string
`x` returns exactly two errors, the one for the missing required key a and the
unrecognized-key error for b; and `Validate` returns the empty list exactly when the
candidate fully conforms to the record type. -/
theorem Validate_empty_iff_Conforms (inst : Nat → Value → Bool) (t : Nat)
    (entries : List RecordEntry) (additional : Bool) (candidate : MapValue) :
    (Validate inst t entries additional candidate = []
      ↔ Conforms inst entries additional candidate) ∧
    (∀ valueType,
      Validate inst t [⟨.string "a", valueType, true⟩] false [(.string "b", .string "x")]
        = [.missingRequired (.string "a"),
           .failure (.IllegalMapKey t (.string "b"))]) := by
  constructor
  · simp only [Validate, Conforms, List.append_eq_nil, List.filterMap_eq_nil_iff]
    constructor
    · rintro ⟨⟨h1, h2⟩, h3⟩
      refine ⟨?_, ?_, ?_⟩
      · intro e he hr
        have := h1 e he
        cases hl : candidate.lookup e.key with
        | none => simp [hr, hl] at this
        | some v => rfl
      · intro kv hkv
        have := h2 kv hkv
        cases hdec : declares entries kv.1 with
        | true => exact Or.inl rfl
        | false =>
          cases ha : additional with
          | true => exact Or.inr rfl
          | false => simp [hdec, ha] at this
      · intro e he v hv
        have := h3 e he
        rw [hv] at this
        cases hi : inst e.valueType v with
        | true => rfl
        | false => simp [hi] at this
    · rintro ⟨h1, h2, h3⟩
      refine ⟨⟨?_, ?_⟩, ?_⟩
      · intro e he
        cases hr : e.required with
        | false => simp
        | true =>
          have := h1 e he hr
          cases hl : candidate.lookup e.key with
          | none => rw [hl] at this; cases this
          | some v => simp
      · intro kv hkv
        rcases h2 kv hkv with hd | ha
        · simp [hd]
        · simp [ha]
      · intro e he
        cases hl : candidate.lookup e.key with
        | none => rfl
        | some v => simp [h3 e he v hl]
  · intro valueType
    rfl

/-- Witness for C15: scenario A, with a string type that accepts every string. -/
theorem Validate_empty_iff_Conforms_witness :
    Validate (fun _ _ => true) 0 [⟨.string "a", 2, true⟩] false
        [(.string "b", .string "x")]
      = [.missingRequired (.string "a"), .failure (.IllegalMapKey 0 (.string "b"))] ∧
    Validate (fun _ _ => true) 0 [⟨.string "a", 2, true⟩] false
        [(.string "a", .string "x")] = [] :=
  ⟨(Validate_empty_iff_Conforms (fun _ _ => true) 0 [⟨.string "a", 2, true⟩] false
      [(.string "b", .string "x")]).2 2,
   (Validate_empty_iff_Conforms (fun _ _ => true) 0 [⟨.string "a", 2, true⟩] false
      [(.string "a", .string "x")]).1.2
      ⟨by decide, by decide, fun _ _ _ _ => rfl⟩⟩

/-- C16, as stated, fails for a map from which a non-frozen map with a back reference to
itself is reached: the frozen copy of the map that holds itself, and of a map that holds
such a map, does not return at any depth of the recursion (the stack overflow of the
documentation), so there is no result that could be frozen or copied again. -/
theorem Copy_self_reference_counterexample :
    selfMap[0]? = some ⟨[(.atom 0, .map 0)], false⟩ ∧
    (¬ ∃ depth s1 r, Copy depth selfMap 0 true = .done s1 r) ∧
    heldSelfMap[1]? = some ⟨[(.atom 1, .map 0)], false⟩ ∧
    (¬ ∃ depth s1 r, Copy depth heldSelfMap 1 true = .done s1 r) := by
  refine ⟨rfl, ?_, rfl, ?_⟩
  · rintro ⟨depth, s1, r, hc⟩
    rw [selfMap_overflow depth] at hc
    cases hc
  · rintro ⟨depth, s1, r, hc⟩
    exact Copy_stuck heldSelfMap [0, 1] (by decide) depth heldSelfMap
      (Store.extendedBy_refl _) 1 (by decide) s1 r hc

/-- C16, amended. Whenever the frozen copy of a map `x` returns, its result is frozen and a
frozen copy of the result is a no-op that returns the result itself (the same address in
an unchanged store); a frozen copy of an already frozen map returns the receiver.  The
frozen copy of `x` returns when `x` belongs to a set of maps without back references (the
maps held by the non-frozen maps of the set exist, belong to the set and have a lower
rank).  It does not return when `x` belongs to a set of non-frozen maps each of which
holds a map of the set as a key or value, that is when a non-frozen map that reaches
itself is reached from `x` through non-frozen maps. -/
theorem Copy_frozen_idempotent (s : Store) (x : Nat) :
    (∀ depth s1 r, Copy depth s x true = .done s1 r →
      (∃ m, s1[r]? = some m ∧ m.frozen = true) ∧
      ∀ depth2, Copy (depth2 + 1) s1 r true = .done s1 r) ∧
    (∀ m depth, s[x]? = some m → m.frozen = true →
      Copy (depth + 1) s x true = .done s x) ∧
    (∀ region rank, s.acyclicOn region rank = true → region x = true → x < s.length →
      ∃ depth s1 r, Copy depth s x true = .done s1 r) ∧
    (∀ loop, s.trapped loop = true → x ∈ loop →
      ¬ ∃ depth s1 r, Copy depth s x true = .done s1 r) := by
  refine ⟨?_, ?_, ?_, ?_⟩
  · intro depth s1 r hc
    cases depth with
    | zero => cases hc
    | succ depth =>
      simp only [Copy, if_true] at hc
      cases hm : s[x]? with
      | none => rw [hm] at hc; cases hc
      | some m =>
        rw [hm] at hc
        simp only at hc
        cases hf : m.frozen with
        | true =>
          rw [hf] at hc
          simp only [if_true, Out.done.injEq] at hc
          obtain ⟨rfl, rfl⟩ := hc
          exact ⟨⟨m, hm, hf⟩, fun depth2 => by simp [Copy, hm, hf]⟩
        | false =>
          rw [hf] at hc
          simp only [Bool.false_eq_true, if_false] at hc
          cases he : freezeEntries (fun s1 addr => Copy depth s1 addr true) s m.entries with
          | done s2 es =>
            rw [he] at hc
            simp only [Out.done.injEq] at hc
            obtain ⟨rfl, rfl⟩ := hc
            have hget : (s2 ++ [(⟨es, true⟩ : MapObject)])[s2.length]? = some ⟨es, true⟩ :=
              List.getElem?_concat_length s2 _
            exact ⟨⟨_, hget, rfl⟩, fun depth2 => by simp [Copy, hget]⟩
          | panic => rw [he] at hc; cases hc
          | overflow => rw [he] at hc; cases hc
  · intro m depth hm hf
    simp [Copy, hm, hf]
  · intro region rank hac hreg hx
    obtain ⟨s2, r, h1, _⟩ := Copy_done_of_acyclicOn s region rank hac (rank x + 1) s
      (Store.extendedBy_refl s) x hx (fun _ => ⟨hreg, Nat.lt_succ_self _⟩)
    exact ⟨_, s2, r, h1⟩
  · rintro loop ht hx ⟨depth, s1, r, hc⟩
    exact Copy_stuck s loop ht depth s (Store.extendedBy_refl s) x hx s1 r hc

/-- Witness for the amended C16: the frozen copy of a map that holds another non-frozen
map is frozen; the copy of the map of `heldSelfMap` that reaches no other map returns
although the store holds a map with a back reference; the copy of the map that holds the
self-referential map does not return. -/
theorem Copy_frozen_idempotent_witness :
    (∃ m, (nestedMaps ++ [⟨[(.atom 0, .atom 1)], true⟩, ⟨[(.atom 2, .map 2)], true⟩])[3]?
        = some m ∧ m.frozen = true) ∧
    (∃ depth s1 r, Copy depth nestedMaps 1 true = .done s1 r) ∧
    (∃ depth s1 r, Copy depth heldSelfMap 2 true = .done s1 r) ∧
    (¬ ∃ depth s1 r, Copy depth heldSelfMap 1 true = .done s1 r) :=
  ⟨((Copy_frozen_idempotent nestedMaps 1).1 3
      (nestedMaps ++ [⟨[(.atom 0, .atom 1)], true⟩, ⟨[(.atom 2, .map 2)], true⟩]) 3
      (by decide)).1,
   (Copy_frozen_idempotent nestedMaps 1).2.2.1 (fun _ => true) (fun a => a) (by decide)
     (by decide) (by decide),
   (Copy_frozen_idempotent heldSelfMap 2).2.2.1 (fun a => decide (a = 2)) (fun a => a)
     (by decide) (by decide) (by decide),
   (Copy_frozen_idempotent heldSelfMap 1).2.2.2 [0, 1] (by decide) (by decide)⟩

/-! ## Lemmas for the types with a self-delimiting text -/

theorem binarySized_data (min max : Int) :
    (if min = 0 ∧ max = MaxInt64 then "binary"
      else if max = MaxInt64 then "binary[" ++ FormatInt min ++ "]"
      else "binary[" ++ FormatInt min ++ "," ++ FormatInt max ++ "]").data
      = "binary".data ++ boundsChars min max := by
  unfold boundsChars
  split
  · simp
  · split
    · simp only [String.data_append]
      rfl
    · simp only [String.data_append]
      simp only [List.append_assoc]
      rfl

theorem boundsText_data (min max : Int) (hu : ¬ (min = 0 ∧ max = MaxInt64)) :
    (boundsText min max).data = innerChars min max := by
  unfold boundsText innerChars
  rw [if_neg hu]
  split
  · rfl
  · simp only [String.data_append]
    simp only [List.append_assoc]
    rfl

theorem Plain.not_stop {c : Char} (hc : Plain c) (ops : Bool) : isStop ops c = false := by
  have h := hc.2.2
  cases ops
  · simp only [isStop, Bool.true_and, Bool.or_eq_false_iff] at h
    simp [isStop, h.1]
  · exact h

theorem isIntChar_plain (c : Char) (hc : isIntChar c = true) : Plain c := by
  refine ⟨?_, ?_, ?_⟩
  · cases h : isOpen c with
    | false => rfl
    | true =>
      simp only [isOpen, Bool.or_eq_true, beq_iff_eq] at h
      rcases h with (rfl | rfl) | rfl <;> exact absurd hc (by decide)
  · cases h : isClose c with
    | false => rfl
    | true =>
      simp only [isClose, Bool.or_eq_true, beq_iff_eq] at h
      rcases h with (rfl | rfl) | rfl <;> exact absurd hc (by decide)
  · cases h : isStop true c with
    | false => rfl
    | true =>
      simp only [isStop, isOp, Bool.true_and, Bool.or_eq_true, beq_iff_eq] at h
      rcases h with rfl | (rfl | rfl) | rfl <;> exact absurd hc (by decide)

theorem scanTop_cons_plain (ops : Bool) (c : Char) (hc : Plain c) (d : Nat) (l : List Char) :
    scanTop ops d (c :: l) = scanTop ops d l := by
  simp [scanTop, hc.1, hc.2.1, hc.not_stop ops]

theorem scanTop_cons_open (ops : Bool) (c : Char) (hc : isOpen c = true) (d : Nat)
    (l : List Char) : scanTop ops d (c :: l) = scanTop ops (d + 1) l := by
  simp [scanTop, hc]

theorem scanTop_cons_close (ops : Bool) (c : Char) (ho : isOpen c = false)
    (hc : isClose c = true) (d : Nat) (l : List Char) :
    scanTop ops (d + 1) (c :: l) = scanTop ops d l := by
  simp [scanTop, ho, hc]

theorem scanTop_cons_inner (ops : Bool) (c : Char) (ho : isOpen c = false)
    (hc : isClose c = false) (d : Nat) (l : List Char) :
    scanTop ops (d + 1) (c :: l) = scanTop ops (d + 1) l := by
  cases hs : isStop ops c <;> simp [scanTop, ho, hc, hs]

theorem Closed.nil (ops : Bool) : Closed ops [] := fun _ _ => rfl

theorem Closed.append {ops : Bool} {a b : List Char} (ha : Closed ops a) (hb : Closed ops b) :
    Closed ops (a ++ b) := by
  intro d r
  rw [List.append_assoc, ha d (b ++ r), hb d r]

theorem Closed.cons_plain {ops : Bool} {c : Char} {l : List Char} (hc : Plain c)
    (hl : Closed ops l) : Closed ops (c :: l) := by
  intro d r
  rw [List.cons_append, scanTop_cons_plain ops c hc, hl d r]

theorem Closed.of_plain (ops : Bool) (text : List Char) (hp : ∀ c ∈ text, Plain c) :
    Closed ops text := by
  induction text with
  | nil => exact Closed.nil ops
  | cons c l ih =>
    exact Closed.cons_plain (hp c (by simp)) (ih (fun x hx => hp x (by simp [hx])))

theorem Closed.inner {ops : Bool} {text : List Char} (h : Closed ops text) : Inner ops text :=
  fun d r => h (d + 1) r

theorem Inner.of_empty (ops : Bool) : Inner ops [] := fun _ _ => rfl

theorem Inner.concat {ops : Bool} {a b : List Char} (ha : Inner ops a) (hb : Inner ops b) :
    Inner ops (a ++ b) := by
  intro d r
  rw [List.append_assoc, ha d (b ++ r), hb d r]

theorem Inner.cons {ops : Bool} {c : Char} {l : List Char} (ho : isOpen c = false)
    (hc : isClose c = false) (hl : Inner ops l) : Inner ops (c :: l) := by
  intro d r
  rw [List.cons_append, scanTop_cons_inner ops c ho hc, hl d r]

theorem Inner.of_no_bracket (ops : Bool) (text : List Char)
    (hp : ∀ c ∈ text, isOpen c = false ∧ isClose c = false) : Inner ops text := by
  induction text with
  | nil => exact Inner.of_empty ops
  | cons c l ih =>
    exact Inner.cons (hp c (by simp)).1 (hp c (by simp)).2
      (ih (fun x hx => hp x (by simp [hx])))

/-- A text in brackets is passed over by the scan. -/
theorem Closed.bracket {ops : Bool} (o c : Char) {inner : List Char} (ho : isOpen o = true)
    (hco : isOpen c = false) (hc : isClose c = true) (hi : Inner ops inner) :
    Closed ops (o :: (inner ++ [c])) := by
  intro d r
  rw [List.cons_append, scanTop_cons_open ops o ho, List.append_assoc, hi d]
  exact scanTop_cons_close ops c hco hc d r

theorem scanTop_fixed (ops : Bool) (text : List Char) (h : Fixed ops text) :
    scanTop ops 0 text = text := by
  rcases h with rfl | ⟨c, l, rfl, ho, hc | hs⟩
  · rfl
  · simp [scanTop, ho, hc]
  · cases hc : isClose c <;> simp [scanTop, ho, hc, hs]

/-- Two closed texts in front of a separator, a closing bracket or the end are equal when
the whole texts are. -/
theorem closed_split (ops : Bool) (k1 k2 r1 r2 : List Char) (h1 : Closed ops k1)
    (h2 : Closed ops k2) (f1 : Fixed ops r1) (f2 : Fixed ops r2) (h : k1 ++ r1 = k2 ++ r2) :
    k1 = k2 ∧ r1 = r2 := by
  have s1 : scanTop ops 0 (k1 ++ r1) = r1 := by rw [h1 0, scanTop_fixed ops r1 f1]
  have s2 : scanTop ops 0 (k2 ++ r2) = r2 := by rw [h2 0, scanTop_fixed ops r2 f2]
  have hr : r1 = r2 := by rw [← s1, ← s2, h]
  rw [hr] at h
  exact ⟨List.append_cancel_right h, hr⟩

theorem Fixed.empty (ops : Bool) : Fixed ops [] := Or.inl rfl

theorem Fixed.close (ops : Bool) (c : Char) (l : List Char) (ho : isOpen c = false)
    (hc : isClose c = true) : Fixed ops (c :: l) :=
  Or.inr ⟨c, l, rfl, ho, Or.inl hc⟩

theorem Fixed.stop (ops : Bool) (c : Char) (l : List Char) (ho : isOpen c = false)
    (hs : isStop ops c = true) : Fixed ops (c :: l) :=
  Or.inr ⟨c, l, rfl, ho, Or.inr hs⟩

theorem FormatInt_plain (i : Int) : ∀ c ∈ (FormatInt i).data, Plain c :=
  fun c hc => isIntChar_plain c (FormatInt_chars i c hc)

theorem innerChars_no_bracket (min max : Int) :
    ∀ c ∈ innerChars min max, isOpen c = false ∧ isClose c = false := by
  intro c hc
  unfold innerChars at hc
  split at hc
  · simp at hc
  · split at hc
    · exact ⟨(FormatInt_plain min c hc).1, (FormatInt_plain min c hc).2.1⟩
    · simp only [List.mem_append, List.mem_cons] at hc
      rcases hc with hc | hc | hc
      · exact ⟨(FormatInt_plain min c hc).1, (FormatInt_plain min c hc).2.1⟩
      · subst hc
        exact ⟨by decide, by decide⟩
      · exact ⟨(FormatInt_plain max c hc).1, (FormatInt_plain max c hc).2.1⟩

theorem innerChars_inner (ops : Bool) (min max : Int) : Inner ops (innerChars min max) :=
  Inner.of_no_bracket ops _ (innerChars_no_bracket min max)

theorem boundsChars_eq (min max : Int) :
    boundsChars min max
      = if min = 0 ∧ max = MaxInt64 then [] else '[' :: (innerChars min max ++ [']']) := by
  unfold boundsChars innerChars
  by_cases hu : min = 0 ∧ max = MaxInt64
  · rw [if_pos hu, if_pos hu]
  · rw [if_neg hu, if_neg hu, if_neg hu]
    split
    · rfl
    · simp

theorem boundsChars_closed (ops : Bool) (min max : Int) : Closed ops (boundsChars min max) := by
  rw [boundsChars_eq]
  split
  · exact Closed.nil ops
  · exact Closed.bracket '[' ']' (by decide) (by decide) (by decide)
      (innerChars_inner ops min max)

theorem innerChars_nil_iff (min max : Int) :
    innerChars min max = [] ↔ (min = 0 ∧ max = MaxInt64) := by
  unfold innerChars
  constructor
  · intro h
    by_contra hu
    rw [if_neg hu] at h
    split at h
    · exact FormatInt_data_ne_nil min h
    · exact FormatInt_data_ne_nil min (List.append_eq_nil.1 h).1
  · intro hu
    rw [if_pos hu]

theorem innerChars_injective (min1 max1 min2 max2 : Int)
    (h : innerChars min1 max1 = innerChars min2 max2) : min1 = min2 ∧ max1 = max2 := by
  apply boundsChars_injective
  rw [boundsChars_eq, boundsChars_eq]
  by_cases h1 : min1 = 0 ∧ max1 = MaxInt64
  · have h2 : min2 = 0 ∧ max2 = MaxInt64 := by
      rw [← innerChars_nil_iff, ← h, innerChars_nil_iff]
      exact h1
    rw [if_pos h1, if_pos h2]
  · have h2 : ¬ (min2 = 0 ∧ max2 = MaxInt64) := by
      rw [← innerChars_nil_iff, ← h, innerChars_nil_iff]
      exact h1
    rw [if_neg h1, if_neg h2, h]

theorem boundChars_plain (sentinel i : Int) : ∀ c ∈ boundChars sentinel i, Plain c := by
  intro c hc
  unfold boundChars at hc
  split at hc
  · simp at hc
  · exact FormatInt_plain i c hc

theorem rangeChars_closed (ops : Bool) (min max : Int) (inclusive : Bool) :
    Closed ops (boundChars MinInt64 min
      ++ '.' :: '.' :: ((if inclusive then [] else ['.']) ++ boundChars MaxInt64 max)) := by
  apply Closed.of_plain
  intro c hc
  simp only [List.mem_append, List.mem_cons] at hc
  rcases hc with hc | hc | hc | hc | hc
  · exact boundChars_plain _ _ c hc
  · subst hc; exact ⟨by decide, by decide, by decide⟩
  · subst hc; exact ⟨by decide, by decide, by decide⟩
  · cases inclusive
    · simp only [Bool.false_eq_true, if_false, List.mem_singleton] at hc
      subst hc; exact ⟨by decide, by decide, by decide⟩
    · simp at hc
  · exact boundChars_plain _ _ c hc

/-- Induction on structures: a property that holds for a structure whenever it holds for
its operands holds for every structure. -/
theorem Shape.induct {P : Shape → Prop} (stringSized : ∀ min max, P (.stringSized min max))
    (binary : ∀ min max, P (.binary min max))
    (integerRange : ∀ min max inclusive, P (.integerRange min max inclusive))
    (not : ∀ operand, P operand → P (.not operand))
    (array : ∀ min max element, P element → P (.array min max element))
    (map : ∀ key min max value, P key → P value → P (.map key min max value))
    (meta : ∀ operand, P operand → P (.meta operand))
    (union : ∀ op first second rest, P first → P second → (∀ o ∈ rest, P o) →
      P (.union op first second rest))
    (tuple : ∀ elements, (∀ o ∈ elements, P o) → P (.tuple elements)) : ∀ sh, P sh
  | .stringSized min max => stringSized min max
  | .binary min max => binary min max
  | .integerRange min max inclusive => integerRange min max inclusive
  | .not operand => not operand
      (Shape.induct stringSized binary integerRange not array map meta union tuple operand)
  | .array min max element => array min max element
      (Shape.induct stringSized binary integerRange not array map meta union tuple element)
  | .map key min max value => map key min max value
      (Shape.induct stringSized binary integerRange not array map meta union tuple key)
      (Shape.induct stringSized binary integerRange not array map meta union tuple value)
  | .meta operand => meta operand
      (Shape.induct stringSized binary integerRange not array map meta union tuple operand)
  | .union op first second rest => union op first second rest
      (Shape.induct stringSized binary integerRange not array map meta union tuple first)
      (Shape.induct stringSized binary integerRange not array map meta union tuple second)
      (fun o _ =>
        Shape.induct stringSized binary integerRange not array map meta union tuple o)
  | .tuple elements => tuple elements
      (fun o _ =>
        Shape.induct stringSized binary integerRange not array map meta union tuple o)

theorem scanTop_cons_pass (ops : Bool) (c : Char) (ho : isOpen c = false)
    (hc : isClose c = false) (hs : isStop ops c = false) (d : Nat) (l : List Char) :
    scanTop ops d (c :: l) = scanTop ops d l := by
  simp [scanTop, ho, hc, hs]

theorem Closed.cons_pass {ops : Bool} {c : Char} {l : List Char} (ho : isOpen c = false)
    (hc : isClose c = false) (hs : isStop ops c = false) (hl : Closed ops l) :
    Closed ops (c :: l) := by
  intro d r
  rw [List.cons_append, scanTop_cons_pass ops c ho hc hs, hl d r]

theorem Shape.tailChars_inner (ops : Bool) (sep : Char) (p : Bool) (ho : isOpen sep = false)
    (hc : isClose sep = false) (l : List Shape) (hl : ∀ o ∈ l, Inner ops (o.chars p)) :
    Inner ops (Shape.tailChars sep p l) := by
  induction l with
  | nil => exact Inner.of_empty ops
  | cons x xs ih =>
    simp only [Shape.tailChars]
    exact Inner.cons ho hc (Inner.concat (hl x (by simp))
      (ih (fun o hm => hl o (by simp [hm]))))

theorem Shape.tailChars_closed (ops : Bool) (sep : Char) (p : Bool) (ho : isOpen sep = false)
    (hc : isClose sep = false) (hs : isStop ops sep = false) (l : List Shape)
    (hl : ∀ o ∈ l, Closed ops (o.chars p)) : Closed ops (Shape.tailChars sep p l) := by
  induction l with
  | nil => exact Closed.nil ops
  | cons x xs ih =>
    simp only [Shape.tailChars]
    exact Closed.cons_pass ho hc hs (Closed.append (hl x (by simp))
      (ih (fun o hm => hl o (by simp [hm]))))

theorem Op.char_isOp (op : Op) :
    isOp op.char = true ∧ isOpen op.char = false ∧ isClose op.char = false := by
  cases op <;> exact ⟨by decide, by decide, by decide⟩

theorem Op.char_injective (op1 op2 : Op) (h : op1.char = op2.char) : op1 = op2 := by
  cases op1 <;> cases op2 <;> first | rfl | exact absurd h (by decide)

theorem Op.char_not_stop (op : Op) : isStop false op.char = false := by
  cases op <;> decide

theorem Op.char_stop (op : Op) : isStop true op.char = true := by
  cases op <;> decide

/-- The text of a structure is passed over by the scan inside brackets, and everywhere
when it is written in parentheses, is not a union, or the operators are no separators. -/
theorem Shape.chars_scan (sh : Shape) :
    ∀ (ops p : Bool), Inner ops (sh.chars p) ∧
      ((p = true ∨ ops = false ∨ sh.isUnion = false) → Closed ops (sh.chars p)) := by
  induction sh using Shape.induct with
  | stringSized min max =>
    intro ops p
    have hc : Closed ops ((Shape.stringSized min max).chars p) :=
      Closed.append (Closed.of_plain ops _ (by decide)) (boundsChars_closed ops min max)
    exact ⟨hc.inner, fun _ => hc⟩
  | binary min max =>
    intro ops p
    have hc : Closed ops ((Shape.binary min max).chars p) :=
      Closed.append (Closed.of_plain ops _ (by decide)) (boundsChars_closed ops min max)
    exact ⟨hc.inner, fun _ => hc⟩
  | integerRange min max inclusive =>
    intro ops p
    have hc : Closed ops ((Shape.integerRange min max inclusive).chars p) :=
      rangeChars_closed ops min max inclusive
    exact ⟨hc.inner, fun _ => hc⟩
  | not operand ih =>
    intro ops p
    have hc : Closed ops ((Shape.not operand).chars p) := by
      simp only [Shape.chars]
      exact Closed.cons_plain (by decide) ((ih ops true).2 (Or.inl rfl))
    exact ⟨hc.inner, fun _ => hc⟩
  | array min max element ih =>
    intro ops p
    have hc : Closed ops ((Shape.array min max element).chars p) := by
      have e : (Shape.array min max element).chars p
          = ('[' :: (innerChars min max ++ [']'])) ++ element.chars true := by
        simp [Shape.chars]
      rw [e]
      exact Closed.append (Closed.bracket '[' ']' (by decide) (by decide) (by decide)
        (innerChars_inner ops min max)) ((ih ops true).2 (Or.inl rfl))
    exact ⟨hc.inner, fun _ => hc⟩
  | map key min max value ihk ihv =>
    intro ops p
    have hc : Closed ops ((Shape.map key min max value).chars p) := by
      have e : (Shape.map key min max value).chars p
          = 'm' :: 'a' :: 'p' :: (('[' :: ((key.chars false
              ++ (if min = 0 ∧ max = MaxInt64 then [] else ',' :: innerChars min max))
              ++ [']'])) ++ value.chars true) := by
        simp only [Shape.chars]
        split <;> simp
      rw [e]
      refine Closed.cons_plain (by decide) (Closed.cons_plain (by decide)
        (Closed.cons_plain (by decide) (Closed.append (Closed.bracket '[' ']' (by decide)
          (by decide) (by decide) (Inner.concat (ihk ops false).1 ?_))
          ((ihv ops true).2 (Or.inl rfl)))))
      split
      · exact Inner.of_empty ops
      · exact Inner.cons (by decide) (by decide) (innerChars_inner ops min max)
    exact ⟨hc.inner, fun _ => hc⟩
  | meta operand ih =>
    intro ops p
    have hc : Closed ops ((Shape.meta operand).chars p) := by
      simp only [Shape.chars]
      exact Closed.cons_plain (by decide) (Closed.cons_plain (by decide)
        (Closed.cons_plain (by decide) (Closed.cons_plain (by decide)
          (Closed.bracket '[' ']' (by decide) (by decide) (by decide) (ih ops p).1))))
    exact ⟨hc.inner, fun _ => hc⟩
  | union op first second rest iha ihb ihr =>
    intro ops p
    have hop := Op.char_isOp op
    have hbody : Inner ops (first.chars true
        ++ op.char :: (second.chars true ++ Shape.tailChars op.char true rest)) :=
      Inner.concat (iha ops true).1 (Inner.cons hop.2.1 hop.2.2
        (Inner.concat (ihb ops true).1 (Shape.tailChars_inner ops op.char true hop.2.1
          hop.2.2 rest (fun o hm => (ihr o hm ops true).1))))
    cases p with
    | true =>
      have e : (Shape.union op first second rest).chars true
          = '(' :: ((first.chars true
              ++ op.char :: (second.chars true ++ Shape.tailChars op.char true rest))
              ++ [')']) := by
        simp [Shape.chars]
      have hc : Closed ops ((Shape.union op first second rest).chars true) := by
        rw [e]
        exact Closed.bracket '(' ')' (by decide) (by decide) (by decide) hbody
      exact ⟨hc.inner, fun _ => hc⟩
    | false =>
      have e : (Shape.union op first second rest).chars false
          = first.chars true
              ++ op.char :: (second.chars true ++ Shape.tailChars op.char true rest) := by
        simp [Shape.chars]
      rw [e]
      refine ⟨hbody, ?_⟩
      intro hcond
      have hops : ops = false := by
        rcases hcond with h | h | h
        · cases h
        · exact h
        · simp [Shape.isUnion] at h
      subst hops
      exact Closed.append ((iha false true).2 (Or.inl rfl))
        (Closed.cons_pass hop.2.1 hop.2.2 (Op.char_not_stop op)
          (Closed.append ((ihb false true).2 (Or.inl rfl))
            (Shape.tailChars_closed false op.char true hop.2.1 hop.2.2 (Op.char_not_stop op)
              rest (fun o hm => (ihr o hm false true).2 (Or.inl rfl)))))
  | tuple elements ih =>
    intro ops p
    have hj : Inner ops (Shape.joinChars ',' false elements) := by
      cases elements with
      | nil => exact Inner.of_empty ops
      | cons x xs =>
        simp only [Shape.joinChars]
        exact Inner.concat (ih x (by simp) ops false).1
          (Shape.tailChars_inner ops ',' false (by decide) (by decide) xs
            (fun o hm => (ih o (by simp [hm]) ops false).1))
    have hc : Closed ops ((Shape.tuple elements).chars p) := by
      simp only [Shape.chars]
      exact Closed.bracket '\x7b' '\x7d' (by decide) (by decide) (by decide) hj
    exact ⟨hc.inner, fun _ => hc⟩

theorem Shape.chars_closed (sh : Shape) (ops p : Bool)
    (h : p = true ∨ ops = false ∨ sh.isUnion = false) : Closed ops (sh.chars p) :=
  (sh.chars_scan ops p).2 h

theorem charClass_of_isIntChar (c : Char) (hc : isIntChar c = true) : charClass c = 2 := by
  simp [charClass, hc]

theorem FormatInt_head (i : Int) :
    ∃ c tl, (FormatInt i).data = c :: tl ∧ charClass c = 2 := by
  cases hd : (FormatInt i).data with
  | nil => exact absurd hd (FormatInt_data_ne_nil i)
  | cons c tl =>
    exact ⟨c, tl, rfl, charClass_of_isIntChar c (FormatInt_chars i c (by rw [hd]; simp))⟩

theorem charClass_close (c : Char) (hc : isClose c = true) : charClass c = 6 := by
  simp only [isClose, Bool.or_eq_true, beq_iff_eq] at hc
  rcases hc with (rfl | rfl) | rfl <;> decide

/-- The first character of the text of a structure is no closing bracket, and it tells the
kind of a structure that is written in parentheses or is not a union. -/
theorem Shape.chars_head (sh : Shape) :
    ∀ p : Bool, ∃ c tl, sh.chars p = c :: tl ∧ charClass c ≠ 6 ∧
      ((p = true ∨ sh.isUnion = false) → charClass c = sh.kind) := by
  induction sh using Shape.induct with
  | stringSized min max =>
    intro p
    exact ⟨'s', _, rfl, by decide, fun _ => by simp only [Shape.kind]; decide⟩
  | binary min max =>
    intro p
    exact ⟨'b', _, rfl, by decide, fun _ => by simp only [Shape.kind]; decide⟩
  | integerRange min max inclusive =>
    intro p
    simp only [Shape.chars, Shape.kind, boundChars]
    by_cases hm : min = MinInt64
    · rw [if_pos hm]
      exact ⟨'.', _, rfl, by decide, fun _ => by decide⟩
    · rw [if_neg hm]
      obtain ⟨c, tl, h1, h2⟩ := FormatInt_head min
      rw [h1]
      exact ⟨c, _, rfl, by rw [h2]; decide, fun _ => h2⟩
  | not operand ih =>
    intro p
    exact ⟨'!', _, rfl, by decide, fun _ => by simp only [Shape.kind]; decide⟩
  | array min max element ih =>
    intro p
    exact ⟨'[', _, rfl, by decide, fun _ => by simp only [Shape.kind]; decide⟩
  | map key min max value ihk ihv =>
    intro p
    exact ⟨'m', _, rfl, by decide, fun _ => by simp only [Shape.kind]; decide⟩
  | meta operand ih =>
    intro p
    exact ⟨'t', _, rfl, by decide, fun _ => by simp only [Shape.kind]; decide⟩
  | union op first second rest iha ihb ihr =>
    intro p
    cases p with
    | true =>
      exact ⟨'(', _, rfl, by decide, fun _ => by simp only [Shape.kind]; decide⟩
    | false =>
      obtain ⟨c, tl, h1, h2, _⟩ := iha true
      refine ⟨c, tl ++ op.char :: (second.chars true ++ Shape.tailChars op.char true rest),
        by simp [Shape.chars, h1], h2, ?_⟩
      intro hcond
      rcases hcond with h | h
      · cases h
      · simp [Shape.isUnion] at h
  | tuple elements ih =>
    intro p
    exact ⟨'\x7b', _, rfl, by decide, fun _ => by simp only [Shape.kind]; decide⟩

/-- The text of a structure shows its tag. -/
theorem Shape.tagOf_chars (sh : Shape) (p : Bool) : tagOf (sh.chars p) = sh.tag p := by
  by_cases hcond : p = true ∨ sh.isUnion = false
  · have hc := sh.chars_closed true p (hcond.imp_right Or.inr)
    have hs : scanTop true 0 (sh.chars p) = [] := by
      have := hc 0 []
      rwa [List.append_nil] at this
    obtain ⟨c, tl, h1, _, h3⟩ := sh.chars_head p
    have htag : sh.tag p = sh.kind := by
      unfold Shape.tag
      rcases hcond with h | h
      · simp [h]
      · simp [h]
    rw [htag, ← h3 hcond]
    unfold tagOf
    rw [hs, h1]
  · have hp : p = false := by
      cases p
      · rfl
      · exact absurd (Or.inl rfl) hcond
    subst hp
    cases sh with
    | union op first second rest =>
      have hop := Op.char_isOp op
      have e : (Shape.union op first second rest).chars false
          = first.chars true
              ++ op.char :: (second.chars true ++ Shape.tailChars op.char true rest) := by
        simp [Shape.chars]
      have hs : scanTop true 0 ((Shape.union op first second rest).chars false)
          = op.char :: (second.chars true ++ Shape.tailChars op.char true rest) := by
        rw [e, first.chars_closed true true (Or.inl rfl) 0]
        exact scanTop_fixed true _ (Fixed.stop true _ _ hop.2.1 (Op.char_stop op))
      unfold tagOf
      rw [hs]
      simp [Shape.tag, Shape.isUnion]
    | stringSized _ _ => exact absurd (Or.inr rfl) hcond
    | binary _ _ => exact absurd (Or.inr rfl) hcond
    | integerRange _ _ _ => exact absurd (Or.inr rfl) hcond
    | not _ => exact absurd (Or.inr rfl) hcond
    | array _ _ _ => exact absurd (Or.inr rfl) hcond
    | map _ _ _ _ => exact absurd (Or.inr rfl) hcond
    | meta _ => exact absurd (Or.inr rfl) hcond
    | tuple _ => exact absurd (Or.inr rfl) hcond

theorem Shape.tag_eq_of_chars_eq (sh1 sh2 : Shape) (p : Bool)
    (h : sh1.chars p = sh2.chars p) : sh1.tag p = sh2.tag p := by
  rw [← Shape.tagOf_chars, ← Shape.tagOf_chars, h]

theorem Ends.fixed {text : List Char} (h : Ends text) (ops : Bool) : Fixed ops text := by
  rcases h with rfl | ⟨c, l, rfl, ho, hc⟩
  · exact Fixed.empty ops
  · exact Fixed.close ops c l ho hc

theorem Shape.tailChars_fixed (ops : Bool) (sep : Char) (p : Bool) (ho : isOpen sep = false)
    (hs : isStop ops sep = true) (l : List Shape) (r : List Char) (hr : Ends r) :
    Fixed ops (Shape.tailChars sep p l ++ r) := by
  cases l with
  | nil => exact hr.fixed ops
  | cons x xs => exact Fixed.stop ops sep _ ho hs

/-- Two lists of structures whose texts after the separators are equal are equal, when the
texts of the structures of the first list determine them. -/
theorem Shape.tailChars_injective (ops : Bool) (sep : Char) (p : Bool)
    (hcond : p = true ∨ ops = false) (ho : isOpen sep = false) (hc : isClose sep = false)
    (hs : isStop ops sep = true) (l1 : List Shape) :
    ∀ (l2 : List Shape) (r1 r2 : List Char),
      (∀ o ∈ l1, ∀ sh2 : Shape, o.chars p = sh2.chars p → o = sh2) → Ends r1 → Ends r2 →
      Shape.tailChars sep p l1 ++ r1 = Shape.tailChars sep p l2 ++ r2 →
      l1 = l2 ∧ r1 = r2 := by
  induction l1 with
  | nil =>
    intro l2 r1 r2 _ h1 h2 h
    cases l2 with
    | nil => exact ⟨rfl, by simpa [Shape.tailChars] using h⟩
    | cons y ys =>
      exfalso
      rcases h1 with rfl | ⟨c, l, rfl, _, hcl⟩
      · simp [Shape.tailChars] at h
      · simp only [Shape.tailChars, List.nil_append, List.cons_append, List.cons.injEq] at h
        rw [h.1, hc] at hcl
        cases hcl
  | cons x xs ih =>
    intro l2 r1 r2 hinj h1 h2 h
    cases l2 with
    | nil =>
      exfalso
      rcases h2 with rfl | ⟨c, l, rfl, _, hcl⟩
      · simp [Shape.tailChars] at h
      · simp only [Shape.tailChars, List.nil_append, List.cons_append, List.cons.injEq] at h
        rw [← h.1, hc] at hcl
        cases hcl
    | cons y ys =>
      simp only [Shape.tailChars, List.cons_append, List.append_assoc, List.cons.injEq,
        true_and] at h
      have hx : Closed ops (x.chars p) := by
        rcases hcond with hp | hp
        · exact x.chars_closed ops p (Or.inl hp)
        · exact x.chars_closed ops p (Or.inr (Or.inl hp))
      have hy : Closed ops (y.chars p) := by
        rcases hcond with hp | hp
        · exact y.chars_closed ops p (Or.inl hp)
        · exact y.chars_closed ops p (Or.inr (Or.inl hp))
      have hsp := closed_split ops _ _ _ _ hx hy
        (Shape.tailChars_fixed ops sep p ho hs xs r1 h1)
        (Shape.tailChars_fixed ops sep p ho hs ys r2 h2) h
      have hxy := hinj x (by simp) y hsp.1
      have hrest := ih ys r1 r2 (fun o hm => hinj o (by simp [hm])) h1 h2 hsp.2
      exact ⟨by rw [hxy, hrest.1], hrest.2⟩

theorem Shape.kind_lt (sh : Shape) : sh.kind < 10 := by
  cases sh <;> simp [Shape.kind]

theorem Shape.kind_ne_of_not_union (sh : Shape) (h : sh.isUnion = false) : sh.kind ≠ 8 := by
  cases sh <;> simp [Shape.kind, Shape.isUnion] at h ⊢

/-- A text of a structure that is not a union is not the text of a union, and it shows the
kind. -/
theorem Shape.kind_eq_of_chars_eq (sh1 sh2 : Shape) (p : Bool)
    (h : sh1.chars p = sh2.chars p) (h1 : sh1.isUnion = false) :
    sh2.isUnion = false ∧ sh1.kind = sh2.kind := by
  have ht := Shape.tag_eq_of_chars_eq sh1 sh2 p h
  have hk1 := sh1.kind_lt
  have hn1 := sh1.kind_ne_of_not_union h1
  unfold Shape.tag at ht
  rw [h1] at ht
  simp only [Bool.false_and, Bool.false_eq_true, if_false] at ht
  cases hu : sh2.isUnion with
  | false =>
    rw [hu] at ht
    simp only [Bool.false_and, Bool.false_eq_true, if_false] at ht
    exact ⟨rfl, ht⟩
  | true =>
    exfalso
    rw [hu] at ht
    cases p with
    | false =>
      simp only [Bool.not_false, Bool.and_self, if_true] at ht
      omega
    | true =>
      simp only [Bool.not_true, Bool.and_false, Bool.false_eq_true, if_false] at ht
      cases sh2 <;> simp [Shape.isUnion] at hu
      simp only [Shape.kind] at ht
      exact hn1 ht

theorem Shape.union_of_chars_eq (op : Op) (first second : Shape) (rest : List Shape)
    (sh2 : Shape) (p : Bool) (h : (Shape.union op first second rest).chars p = sh2.chars p) :
    sh2.isUnion = true := by
  cases hu : sh2.isUnion with
  | true => rfl
  | false =>
    have := (Shape.kind_eq_of_chars_eq sh2 _ p h.symm hu).1
    simp [Shape.isUnion] at this

theorem Shape.union_chars (op : Op) (first second : Shape) (rest : List Shape) (p : Bool) :
    (Shape.union op first second rest).chars p
      = (if p then ['('] else []) ++ (first.chars true ++ op.char :: (second.chars true
          ++ (Shape.tailChars op.char true rest ++ (if p then [')'] else [])))) := by
  simp [Shape.chars]

theorem bracket_not_mem_innerChars (min max : Int) : ']' ∉ innerChars min max :=
  fun hm => absurd (innerChars_no_bracket min max ']' hm).2 (by decide)

/-- The characters of an integer range determine its bounds and its operator. -/
theorem rangeChars_injective (min max min2 max2 : Int) (inclusive inclusive2 : Bool)
    (hdata : boundChars MinInt64 min
        ++ '.' :: '.' :: ((if inclusive then [] else ['.']) ++ boundChars MaxInt64 max)
      = boundChars MinInt64 min2
        ++ '.' :: '.' :: ((if inclusive2 then [] else ['.']) ++ boundChars MaxInt64 max2)) :
    min = min2 ∧ max = max2 ∧ inclusive = inclusive2 := by
  have hs := split_at_sep '.' _ _ _ _ (dot_not_mem_boundChars MinInt64 min)
    (dot_not_mem_boundChars MinInt64 min2) hdata
  have hmin := boundChars_inj _ _ _ hs.1
  have hrest := hs.2
  simp only [List.cons.injEq, true_and] at hrest
  cases inclusive <;> cases inclusive2
  · simp only [Bool.false_eq_true, if_false, List.singleton_append, List.cons.injEq,
      true_and] at hrest
    exact ⟨hmin, boundChars_inj _ _ _ hrest, rfl⟩
  · exfalso
    simp only [Bool.false_eq_true, if_false, if_true, List.singleton_append,
      List.nil_append] at hrest
    exact dot_not_mem_boundChars MaxInt64 max2 (by rw [← hrest]; simp)
  · exfalso
    simp only [Bool.false_eq_true, if_false, if_true, List.singleton_append,
      List.nil_append] at hrest
    exact dot_not_mem_boundChars MaxInt64 max (by rw [hrest]; simp)
  · simp only [if_true, List.nil_append] at hrest
    exact ⟨hmin, boundChars_inj _ _ _ hrest, rfl⟩

/-- Two unions with the same text between the parentheses are equal, when the texts of the
operands of the first determine them. -/
theorem Shape.union_injective (op op2 : Op) (first second first2 second2 : Shape)
    (rest rest2 : List Shape) (sfx : List Char) (hsfx : Ends sfx)
    (iha : ∀ sh2 : Shape, first.chars true = sh2.chars true → first = sh2)
    (ihb : ∀ sh2 : Shape, second.chars true = sh2.chars true → second = sh2)
    (ihr : ∀ o ∈ rest, ∀ sh2 : Shape, o.chars true = sh2.chars true → o = sh2)
    (h : first.chars true ++ op.char :: (second.chars true
          ++ (Shape.tailChars op.char true rest ++ sfx))
      = first2.chars true ++ op2.char :: (second2.chars true
          ++ (Shape.tailChars op2.char true rest2 ++ sfx))) :
    Shape.union op first second rest = Shape.union op2 first2 second2 rest2 := by
  have hop := Op.char_isOp op
  have hop2 := Op.char_isOp op2
  have s1 := closed_split true _ _ _ _ (first.chars_closed true true (Or.inl rfl))
    (first2.chars_closed true true (Or.inl rfl))
    (Fixed.stop true _ _ hop.2.1 (Op.char_stop op))
    (Fixed.stop true _ _ hop2.2.1 (Op.char_stop op2)) h
  have h2 := s1.2
  simp only [List.cons.injEq] at h2
  have hopeq := Op.char_injective op op2 h2.1
  subst hopeq
  have s2 := closed_split true _ _ _ _ (second.chars_closed true true (Or.inl rfl))
    (second2.chars_closed true true (Or.inl rfl))
    (Shape.tailChars_fixed true op.char true hop.2.1 (Op.char_stop op) rest sfx hsfx)
    (Shape.tailChars_fixed true op.char true hop.2.1 (Op.char_stop op) rest2 sfx hsfx) h2.2
  have s3 := Shape.tailChars_injective true op.char true (Or.inl rfl) hop.2.1 hop.2.2
    (Op.char_stop op) rest rest2 sfx sfx ihr hsfx hsfx s2.2
  rw [iha _ s1.1, ihb _ s2.1, s3.1]

/-- Two structures with the same text are equal. -/
theorem Shape.chars_injective (sh1 : Shape) :
    ∀ (sh2 : Shape) (p : Bool), sh1.chars p = sh2.chars p → sh1 = sh2 := by
  induction sh1 using Shape.induct with
  | stringSized min max =>
    intro sh2 p h
    have hk := (Shape.kind_eq_of_chars_eq _ _ p h rfl).2
    cases sh2 <;> simp only [Shape.kind] at hk <;> try (exact absurd hk (by decide))
    simp only [Shape.chars] at h
    have := boundsChars_injective _ _ _ _ (List.append_cancel_left h)
    rw [this.1, this.2]
  | binary min max =>
    intro sh2 p h
    have hk := (Shape.kind_eq_of_chars_eq _ _ p h rfl).2
    cases sh2 <;> simp only [Shape.kind] at hk <;> try (exact absurd hk (by decide))
    simp only [Shape.chars] at h
    have := boundsChars_injective _ _ _ _ (List.append_cancel_left h)
    rw [this.1, this.2]
  | integerRange min max inclusive =>
    intro sh2 p h
    have hk := (Shape.kind_eq_of_chars_eq _ _ p h rfl).2
    cases sh2 <;> simp only [Shape.kind] at hk <;> try (exact absurd hk (by decide))
    simp only [Shape.chars] at h
    have := rangeChars_injective _ _ _ _ _ _ h
    rw [this.1, this.2.1, this.2.2]
  | not operand ih =>
    intro sh2 p h
    have hk := (Shape.kind_eq_of_chars_eq _ _ p h rfl).2
    cases sh2 <;> simp only [Shape.kind] at hk <;> try (exact absurd hk (by decide))
    simp only [Shape.chars, List.cons.injEq, true_and] at h
    rw [ih _ true h]
  | array min max element ih =>
    intro sh2 p h
    have hk := (Shape.kind_eq_of_chars_eq _ _ p h rfl).2
    cases sh2 <;> simp only [Shape.kind] at hk <;> try (exact absurd hk (by decide))
    simp only [Shape.chars, List.cons.injEq, true_and] at h
    have hs := split_at_sep ']' _ _ _ _ (bracket_not_mem_innerChars _ _)
      (bracket_not_mem_innerChars _ _) h
    have hb := innerChars_injective _ _ _ _ hs.1
    rw [hb.1, hb.2, ih _ true hs.2]
  | map key min max value ihk ihv =>
    intro sh2 p h
    have hk := (Shape.kind_eq_of_chars_eq _ _ p h rfl).2
    cases sh2 <;> simp only [Shape.kind] at hk <;> try (exact absurd hk (by decide))
    rename_i key2 min2 max2 value2
    simp only [Shape.chars, List.cons.injEq, true_and] at h
    have hk1 := key.chars_closed false false (Or.inr (Or.inl rfl))
    have hk2 := key2.chars_closed false false (Or.inr (Or.inl rfl))
    have fclose : ∀ l, Fixed false (']' :: l) :=
      fun l => Fixed.close false ']' l (by decide) (by decide)
    have fcomma : ∀ l, Fixed false (',' :: l) :=
      fun l => Fixed.stop false ',' l (by decide) (by decide)
    by_cases h1 : min = 0 ∧ max = MaxInt64 <;> by_cases h2 : min2 = 0 ∧ max2 = MaxInt64
    · rw [if_pos h1, if_pos h2] at h
      have hs := closed_split false _ _ _ _ hk1 hk2 (fclose _) (fclose _) h
      simp only [List.cons.injEq, true_and] at hs
      rw [ihk _ false hs.1, ihv _ true hs.2, h1.1, h1.2, h2.1, h2.2]
    · rw [if_pos h1, if_neg h2] at h
      have hs := closed_split false _ _ _ _ hk1 hk2 (fclose _) (fcomma _) h
      simp only [List.cons.injEq] at hs
      exact absurd hs.2.1 (by decide)
    · rw [if_neg h1, if_pos h2] at h
      have hs := closed_split false _ _ _ _ hk1 hk2 (fcomma _) (fclose _) h
      simp only [List.cons.injEq] at hs
      exact absurd hs.2.1 (by decide)
    · rw [if_neg h1, if_neg h2] at h
      have hs := closed_split false _ _ _ _ hk1 hk2 (fcomma _) (fcomma _) h
      simp only [List.cons.injEq, true_and] at hs
      have hs2 := split_at_sep ']' _ _ _ _ (bracket_not_mem_innerChars _ _)
        (bracket_not_mem_innerChars _ _) hs.2
      have hb := innerChars_injective _ _ _ _ hs2.1
      rw [ihk _ false hs.1, ihv _ true hs2.2, hb.1, hb.2]
  | meta operand ih =>
    intro sh2 p h
    have hk := (Shape.kind_eq_of_chars_eq _ _ p h rfl).2
    cases sh2 <;> simp only [Shape.kind] at hk <;> try (exact absurd hk (by decide))
    simp only [Shape.chars, List.cons.injEq, true_and] at h
    rw [ih _ p (List.append_cancel_right h)]
  | union op first second rest iha ihb ihr =>
    intro sh2 p h
    have hu := Shape.union_of_chars_eq op first second rest sh2 p h
    cases sh2 <;> simp only [Shape.isUnion] at hu <;> try (exact absurd hu (by decide))
    rename_i op2 first2 second2 rest2
    rw [Shape.union_chars, Shape.union_chars] at h
    cases p with
    | false =>
      simp only [Bool.false_eq_true, if_false, List.nil_append] at h
      exact Shape.union_injective op op2 first second first2 second2 rest rest2 []
        (Or.inl rfl) (fun s => iha s true) (fun s => ihb s true)
        (fun o hm s => ihr o hm s true) h
    | true =>
      simp only [if_true, List.singleton_append, List.cons.injEq, true_and] at h
      exact Shape.union_injective op op2 first second first2 second2 rest rest2 [')']
        (Or.inr ⟨')', [], rfl, by decide, by decide⟩) (fun s => iha s true)
        (fun s => ihb s true) (fun o hm s => ihr o hm s true) h
  | tuple elements ih =>
    intro sh2 p h
    have hk := (Shape.kind_eq_of_chars_eq _ _ p h rfl).2
    cases sh2 <;> simp only [Shape.kind] at hk <;> try (exact absurd hk (by decide))
    rename_i elements2
    simp only [Shape.chars, List.cons.injEq, true_and] at h
    have hend : Ends ['\x7d'] := Or.inr ⟨'\x7d', [], rfl, by decide, by decide⟩
    cases elements with
    | nil =>
      cases elements2 with
      | nil => rfl
      | cons y ys =>
        exfalso
        obtain ⟨c, tl, h1, h2, _⟩ := y.chars_head false
        simp only [Shape.joinChars, List.nil_append, h1, List.cons_append,
          List.cons.injEq] at h
        rw [← h.1] at h2
        exact h2 (by decide)
    | cons x xs =>
      cases elements2 with
      | nil =>
        exfalso
        obtain ⟨c, tl, h1, h2, _⟩ := x.chars_head false
        simp only [Shape.joinChars, List.nil_append, h1, List.cons_append,
          List.cons.injEq] at h
        rw [h.1] at h2
        exact h2 (by decide)
      | cons y ys =>
        simp only [Shape.joinChars, List.append_assoc] at h
        have s1 := closed_split false _ _ _ _
          (x.chars_closed false false (Or.inr (Or.inl rfl)))
          (y.chars_closed false false (Or.inr (Or.inl rfl)))
          (Shape.tailChars_fixed false ',' false (by decide) (by decide) xs _ hend)
          (Shape.tailChars_fixed false ',' false (by decide) (by decide) ys _ hend) h
        have s2 := Shape.tailChars_injective false ',' false (Or.inr rfl) (by decide)
          (by decide) (by decide) xs ys _ _
          (fun o hm s => ih o (by simp [hm]) s false) hend hend s1.2
        rw [ih x (by simp) y false s1.1, s2.1]

theorem Op.text_chars (op : Op) : op.text.data = [op.char] := by
  cases op <;> rfl

theorem Op.prio_ge (op : Op) : decide (op.prio ≥ orPrio) = true := by
  cases op <;> decide

theorem Shape.tailText_data (sep : String) (c : Char) (hsep : sep.data = [c]) (prio : Nat)
    (p : Bool) (l : List Shape) (hl : ∀ o ∈ l, (o.text prio).data = o.chars p) :
    (Shape.tailText sep prio l).data = Shape.tailChars c p l := by
  induction l with
  | nil => rfl
  | cons x xs ih =>
    simp only [Shape.tailText, Shape.tailChars, String.data_append, hsep,
      hl x (by simp), ih (fun o hm => hl o (by simp [hm])), List.append_assoc,
      List.singleton_append, List.cons_append, List.nil_append]

/-- The characters of the text of a structure. -/
theorem Shape.text_data (sh : Shape) :
    ∀ prio : Nat, (sh.text prio).data = sh.chars (decide (prio ≥ orPrio)) := by
  have ht : decide (typePrio ≥ orPrio) = true := by decide
  have hc : decide (commaPrio ≥ orPrio) = false := by decide
  induction sh using Shape.induct with
  | stringSized min max =>
    intro prio
    simp only [Shape.text, Shape.chars]
    exact stringSized_data min max
  | binary min max =>
    intro prio
    simp only [Shape.text, Shape.chars]
    exact binarySized_data min max
  | integerRange min max inclusive =>
    intro prio
    simp only [Shape.text, Shape.chars]
    exact writeIntRange_data min max inclusive
  | not operand ih =>
    intro prio
    have := ih typePrio
    rw [ht] at this
    simp only [Shape.text, Shape.chars, String.data_append, this]
    rfl
  | array min max element ih =>
    intro prio
    have := ih typePrio
    rw [ht] at this
    simp only [Shape.text, Shape.chars, String.data_append, this]
    by_cases hu : min = 0 ∧ max = MaxInt64
    · have hb : Unbounded min max = true := (Unbounded_iff _ _).2 hu
      simp only [hb, if_true, innerChars, hu, and_self]
      rfl
    · have hb : Unbounded min max = false := by
        cases hb : Unbounded min max with
        | false => rfl
        | true => exact absurd ((Unbounded_iff _ _).1 hb) hu
      simp only [hb, Bool.false_eq_true, if_false, String.data_append,
        boundsText_data min max hu, List.append_assoc]
      rfl
  | map key min max value ihk ihv =>
    intro prio
    have hv := ihv typePrio
    rw [ht] at hv
    have hk := ihk commaPrio
    rw [hc] at hk
    simp only [Shape.text, Shape.chars, String.data_append, hk, hv]
    by_cases hu : min = 0 ∧ max = MaxInt64
    · have hb : Unbounded min max = true := (Unbounded_iff _ _).2 hu
      simp only [hb, if_true, hu, and_self, List.append_assoc]
      rfl
    · have hb : Unbounded min max = false := by
        cases hb : Unbounded min max with
        | false => rfl
        | true => exact absurd ((Unbounded_iff _ _).1 hb) hu
      simp only [hb, Bool.false_eq_true, if_false, String.data_append,
        boundsText_data min max hu, List.append_assoc, if_neg hu]
      rfl
  | meta operand ih =>
    intro prio
    simp only [Shape.text, Shape.chars, String.data_append, ih prio]
    rfl
  | union op first second rest iha ihb ihr =>
    intro prio
    have ha := iha op.prio
    have hb := ihb op.prio
    rw [Op.prio_ge] at ha hb
    have hr := Shape.tailText_data op.text op.char (Op.text_chars op) op.prio true rest
      (fun o hm => by have := ihr o hm op.prio; rwa [Op.prio_ge] at this)
    rw [Shape.union_chars]
    simp only [Shape.text, String.data_append, ha, hb, hr, Op.text_chars]
    by_cases hp : prio ≥ orPrio
    · simp [hp]
    · simp [hp]
  | tuple elements ih =>
    intro prio
    simp only [Shape.text, Shape.chars, String.data_append]
    cases elements with
    | nil => rfl
    | cons x xs =>
      have hx := ih x (by simp) commaPrio
      rw [hc] at hx
      have hr := Shape.tailText_data "," ',' rfl commaPrio false xs
        (fun o hm => by have := ih o (by simp [hm]) commaPrio; rwa [hc] at this)
      simp only [Shape.joinText, Shape.joinChars, String.data_append, hx, hr]
      rfl

/-- Two structures with the same text in the same context are equal. -/
theorem Shape.text_injective (sh1 sh2 : Shape) (prio : Nat)
    (h : sh1.text prio = sh2.text prio) : sh1 = sh2 := by
  apply Shape.chars_injective sh1 sh2 (decide (prio ≥ orPrio))
  rw [← Shape.text_data, ← Shape.text_data, h]

theorem Forall₂_HasShape_unique (h : Heap) (ts : List Nat) (shs : List Shape)
    (hf : List.Forall₂ (HasShape h) ts shs) :
    ∀ shs2, List.Forall₂ (HasShape h) ts shs2 →
      (∀ o ∈ shs, ∀ (t : Nat) (sh2 : Shape), HasShape h t o → HasShape h t sh2 → o = sh2) →
      shs = shs2 := by
  induction hf with
  | nil =>
    intro shs2 h2 _
    cases h2
    rfl
  | cons hx _ ih =>
    intro shs2 h2 hu
    cases h2 with
    | cons hx2 hrest2 =>
      rw [hu _ (by simp) _ _ hx hx2, ih _ hrest2 (fun o hm => hu o (by simp [hm]))]

theorem Op.type_injective (op op2 : Op) (l l2 : List Nat) (h : op.type l = op2.type l2) :
    op = op2 ∧ l = l2 := by
  cases op <;> cases op2 <;> simp only [Op.type] at h <;> cases h <;> exact ⟨rfl, rfl⟩

/-- The structure of a type is unique. -/
theorem HasShape.unique (h : Heap) (sh : Shape) :
    ∀ (t : Nat) (sh2 : Shape), HasShape h t sh → HasShape h t sh2 → sh = sh2 := by
  induction sh using Shape.induct with
  | stringSized min max =>
    intro t sh2 hs hs2
    cases hs with
    | stringSized _ _ _ hd =>
    cases hs2 with
    | stringSized _ _ _ hd2 => rw [hd] at hd2; cases hd2; rfl
    | binary _ _ _ hd2 => rw [hd] at hd2; cases hd2
    | integerRange _ _ _ _ hd2 => rw [hd] at hd2; cases hd2
    | not _ _ _ hd2 _ => rw [hd] at hd2; cases hd2
    | array _ _ _ _ _ hd2 _ => rw [hd] at hd2; cases hd2
    | map _ _ _ _ _ _ _ hd2 _ _ => rw [hd] at hd2; cases hd2
    | meta _ _ _ hd2 _ => rw [hd] at hd2; cases hd2
    | union _ op2 _ _ _ _ _ _ hd2 _ _ _ => rw [hd] at hd2; cases op2 <;> cases hd2
    | tuple _ _ _ hd2 _ => rw [hd] at hd2; cases hd2
  | binary min max =>
    intro t sh2 hs hs2
    cases hs with
    | binary _ _ _ hd =>
    cases hs2 with
    | stringSized _ _ _ hd2 => rw [hd] at hd2; cases hd2
    | binary _ _ _ hd2 => rw [hd] at hd2; cases hd2; rfl
    | integerRange _ _ _ _ hd2 => rw [hd] at hd2; cases hd2
    | not _ _ _ hd2 _ => rw [hd] at hd2; cases hd2
    | array _ _ _ _ _ hd2 _ => rw [hd] at hd2; cases hd2
    | map _ _ _ _ _ _ _ hd2 _ _ => rw [hd] at hd2; cases hd2
    | meta _ _ _ hd2 _ => rw [hd] at hd2; cases hd2
    | union _ op2 _ _ _ _ _ _ hd2 _ _ _ => rw [hd] at hd2; cases op2 <;> cases hd2
    | tuple _ _ _ hd2 _ => rw [hd] at hd2; cases hd2
  | integerRange min max inclusive =>
    intro t sh2 hs hs2
    cases hs with
    | integerRange _ _ _ _ hd =>
    cases hs2 with
    | stringSized _ _ _ hd2 => rw [hd] at hd2; cases hd2
    | binary _ _ _ hd2 => rw [hd] at hd2; cases hd2
    | integerRange _ _ _ _ hd2 => rw [hd] at hd2; cases hd2; rfl
    | not _ _ _ hd2 _ => rw [hd] at hd2; cases hd2
    | array _ _ _ _ _ hd2 _ => rw [hd] at hd2; cases hd2
    | map _ _ _ _ _ _ _ hd2 _ _ => rw [hd] at hd2; cases hd2
    | meta _ _ _ hd2 _ => rw [hd] at hd2; cases hd2
    | union _ op2 _ _ _ _ _ _ hd2 _ _ _ => rw [hd] at hd2; cases op2 <;> cases hd2
    | tuple _ _ _ hd2 _ => rw [hd] at hd2; cases hd2
  | not operand ih =>
    intro t sh2 hs hs2
    cases hs with
    | not _ _ _ hd hop =>
    cases hs2 with
    | stringSized _ _ _ hd2 => rw [hd] at hd2; cases hd2
    | binary _ _ _ hd2 => rw [hd] at hd2; cases hd2
    | integerRange _ _ _ _ hd2 => rw [hd] at hd2; cases hd2
    | not _ _ s2 hd2 hop2 => rw [hd] at hd2; cases hd2; rw [ih _ s2 hop hop2]
    | array _ _ _ _ _ hd2 _ => rw [hd] at hd2; cases hd2
    | map _ _ _ _ _ _ _ hd2 _ _ => rw [hd] at hd2; cases hd2
    | meta _ _ _ hd2 _ => rw [hd] at hd2; cases hd2
    | union _ op2 _ _ _ _ _ _ hd2 _ _ _ => rw [hd] at hd2; cases op2 <;> cases hd2
    | tuple _ _ _ hd2 _ => rw [hd] at hd2; cases hd2
  | array min max element ih =>
    intro t sh2 hs hs2
    cases hs with
    | array _ _ _ _ _ hd hel =>
    cases hs2 with
    | stringSized _ _ _ hd2 => rw [hd] at hd2; cases hd2
    | binary _ _ _ hd2 => rw [hd] at hd2; cases hd2
    | integerRange _ _ _ _ hd2 => rw [hd] at hd2; cases hd2
    | not _ _ _ hd2 _ => rw [hd] at hd2; cases hd2
    | array _ _ _ _ s2 hd2 hel2 => rw [hd] at hd2; cases hd2; rw [ih _ s2 hel hel2]
    | map _ _ _ _ _ _ _ hd2 _ _ => rw [hd] at hd2; cases hd2
    | meta _ _ _ hd2 _ => rw [hd] at hd2; cases hd2
    | union _ op2 _ _ _ _ _ _ hd2 _ _ _ => rw [hd] at hd2; cases op2 <;> cases hd2
    | tuple _ _ _ hd2 _ => rw [hd] at hd2; cases hd2
  | map key min max value ihk ihv =>
    intro t sh2 hs hs2
    cases hs with
    | map _ _ _ _ _ _ _ hd hk hv =>
    cases hs2 with
    | stringSized _ _ _ hd2 => rw [hd] at hd2; cases hd2
    | binary _ _ _ hd2 => rw [hd] at hd2; cases hd2
    | integerRange _ _ _ _ hd2 => rw [hd] at hd2; cases hd2
    | not _ _ _ hd2 _ => rw [hd] at hd2; cases hd2
    | array _ _ _ _ _ hd2 _ => rw [hd] at hd2; cases hd2
    | map _ _ _ _ _ sk2 sv2 hd2 hk2 hv2 =>
      rw [hd] at hd2; cases hd2; rw [ihk _ sk2 hk hk2, ihv _ sv2 hv hv2]
    | meta _ _ _ hd2 _ => rw [hd] at hd2; cases hd2
    | union _ op2 _ _ _ _ _ _ hd2 _ _ _ => rw [hd] at hd2; cases op2 <;> cases hd2
    | tuple _ _ _ hd2 _ => rw [hd] at hd2; cases hd2
  | meta operand ih =>
    intro t sh2 hs hs2
    cases hs with
    | meta _ _ _ hd hop =>
    cases hs2 with
    | stringSized _ _ _ hd2 => rw [hd] at hd2; cases hd2
    | binary _ _ _ hd2 => rw [hd] at hd2; cases hd2
    | integerRange _ _ _ _ hd2 => rw [hd] at hd2; cases hd2
    | not _ _ _ hd2 _ => rw [hd] at hd2; cases hd2
    | array _ _ _ _ _ hd2 _ => rw [hd] at hd2; cases hd2
    | map _ _ _ _ _ _ _ hd2 _ _ => rw [hd] at hd2; cases hd2
    | meta _ _ s2 hd2 hop2 => rw [hd] at hd2; cases hd2; rw [ih _ s2 hop hop2]
    | union _ op2 _ _ _ _ _ _ hd2 _ _ _ => rw [hd] at hd2; cases op2 <;> cases hd2
    | tuple _ _ _ hd2 _ => rw [hd] at hd2; cases hd2
  | union op first second rest iha ihb ihr =>
    intro t sh2 hs hs2
    cases hs with
    | union _ _ a b l _ _ _ hd ha hb hl =>
    cases hs2 with
    | stringSized _ _ _ hd2 => rw [hd] at hd2; cases op <;> cases hd2
    | binary _ _ _ hd2 => rw [hd] at hd2; cases op <;> cases hd2
    | integerRange _ _ _ _ hd2 => rw [hd] at hd2; cases op <;> cases hd2
    | not _ _ _ hd2 _ => rw [hd] at hd2; cases op <;> cases hd2
    | array _ _ _ _ _ hd2 _ => rw [hd] at hd2; cases op <;> cases hd2
    | map _ _ _ _ _ _ _ hd2 _ _ => rw [hd] at hd2; cases op <;> cases hd2
    | meta _ _ _ hd2 _ => rw [hd] at hd2; cases op <;> cases hd2
    | union _ op2 a2 b2 l2 sa2 sb2 shs2 hd2 ha2 hb2 hl2 =>
      rw [hd] at hd2
      have hinj := Op.type_injective _ _ _ _ (Option.some.inj hd2)
      obtain ⟨hop, hlist⟩ := hinj
      simp only [List.cons.injEq] at hlist
      obtain ⟨e1, e2, e3⟩ := hlist
      subst hop e1 e2 e3
      rw [iha _ sa2 ha ha2, ihb _ sb2 hb hb2,
        Forall₂_HasShape_unique h _ _ hl shs2 hl2 ihr]
    | tuple _ _ _ hd2 _ => rw [hd] at hd2; cases op <;> cases hd2
  | tuple elements ih =>
    intro t sh2 hs hs2
    cases hs with
    | tuple _ _ _ hd hl =>
    cases hs2 with
    | stringSized _ _ _ hd2 => rw [hd] at hd2; cases hd2
    | binary _ _ _ hd2 => rw [hd] at hd2; cases hd2
    | integerRange _ _ _ _ hd2 => rw [hd] at hd2; cases hd2
    | not _ _ _ hd2 _ => rw [hd] at hd2; cases hd2
    | array _ _ _ _ _ hd2 _ => rw [hd] at hd2; cases hd2
    | map _ _ _ _ _ _ _ hd2 _ _ => rw [hd] at hd2; cases hd2
    | meta _ _ _ hd2 _ => rw [hd] at hd2; cases hd2
    | union _ op2 _ _ _ _ _ _ hd2 _ _ _ => rw [hd] at hd2; cases op2 <;> cases hd2
    | tuple _ _ shs2 hd2 hl2 =>
      rw [hd] at hd2
      cases hd2
      rw [Forall₂_HasShape_unique h _ _ hl shs2 hl2 ih]

theorem Op.type_complex (op : Op) (operands : List Nat) :
    isComplex (op.type operands).TypeIdentifier = true ∧ op.type operands ≠ .any := by
  cases op <;> exact ⟨rfl, by simp [Op.type]⟩

/-- An object with a structure is a table-dispatched object other than the any type. -/
theorem HasShape.deref (h : Heap) (t : Nat) (sh : Shape) (hs : HasShape h t sh) :
    ∃ obj, h.deref t = some obj ∧ obj ≠ .any ∧ isComplex obj.TypeIdentifier = true := by
  cases hs with
  | stringSized _ _ _ hd => exact ⟨_, hd, by simp, rfl⟩
  | binary _ _ _ hd => exact ⟨_, hd, by simp, rfl⟩
  | integerRange _ _ _ _ hd => exact ⟨_, hd, by simp, rfl⟩
  | not _ _ _ hd _ => exact ⟨_, hd, by simp, rfl⟩
  | array _ _ _ _ _ hd _ => exact ⟨_, hd, by simp, rfl⟩
  | map _ _ _ _ _ _ _ hd _ _ => exact ⟨_, hd, by simp, rfl⟩
  | meta _ _ _ hd _ => exact ⟨_, hd, by simp, rfl⟩
  | union _ op _ _ _ _ _ _ hd _ _ _ =>
    exact ⟨_, hd, (Op.type_complex op _).2, (Op.type_complex op _).1⟩
  | tuple _ _ _ hd _ => exact ⟨_, hd, by simp, rfl⟩

theorem HasShape.not_mem_seen (h : Heap) (t : Nat) (sh : Shape) (hs : HasShape h t sh)
    (seen : List Nat)
    (hseen : ∀ s ∈ seen, ∃ shs, HasShape h s shs ∧ sh.size < shs.size) : t ∉ seen := by
  intro hm
  obtain ⟨shs, h1, h2⟩ := hseen t hm
  have := HasShape.unique h sh t shs hs h1
  rw [this] at h2
  omega

theorem HasShape.seen_step (h : Heap) (t : Nat) (sh : Shape) (hs : HasShape h t sh)
    (seen : List Nat)
    (hseen : ∀ s ∈ seen, ∃ shs, HasShape h s shs ∧ sh.size < shs.size) (c : Shape)
    (hc : c.size < sh.size) :
    ∀ s ∈ seen ++ [t], ∃ shs, HasShape h s shs ∧ c.size < shs.size := by
  intro s hm
  rcases List.mem_append.1 hm with hm | hm
  · obtain ⟨shs, h1, h2⟩ := hseen s hm
    exact ⟨shs, h1, by omega⟩
  · rw [List.mem_singleton.1 hm]
    exact ⟨sh, hs, hc⟩

theorem typeBracket_text (x : String) :
    "type" ++ ("[" ++ x ++ "]") = "type[" ++ x ++ "]" := by
  apply String.ext
  simp [String.data_append]

theorem Shape.size_le_sizeList (l : List Shape) : ∀ o ∈ l, o.size ≤ Shape.sizeList l := by
  induction l with
  | nil => intro o hm; cases hm
  | cons x xs ih =>
    intro o hm
    simp only [Shape.sizeList]
    rcases List.mem_cons.1 hm with rfl | hm
    · omega
    · have := ih o hm
      omega

theorem Forall₂_of_mem {α β : Type} {R S : α → β → Prop} {l : List α} {shs : List β}
    (hf : List.Forall₂ R l shs) (himp : ∀ x, ∀ sh ∈ shs, R x sh → S x sh) :
    List.Forall₂ S l shs := by
  induction hf with
  | nil => exact .nil
  | cons hx _ ih =>
    exact .cons (himp _ _ (by simp) hx) (ih (fun x sh hm => himp x sh (by simp [hm])))

theorem eachJoin_tailText (body : Nat → Res) (sep : String) (prio : Nat) (l : List Nat)
    (shs : List Shape)
    (hf : List.Forall₂ (fun x sh => body x = .wrote (Shape.text sh prio)) l shs) :
    eachJoin body sep false l = .wrote (Shape.tailText sep prio shs) := by
  induction hf with
  | nil => rfl
  | cons hx _ ih =>
    simp only [eachJoin, hx, ih, Shape.tailText]
    simp

theorem eachJoin_joinText (body : Nat → Res) (sep : String) (prio : Nat) (l : List Nat)
    (shs : List Shape)
    (hf : List.Forall₂ (fun x sh => body x = .wrote (Shape.text sh prio)) l shs) :
    eachJoin body sep true l = .wrote (Shape.joinText sep prio shs) := by
  cases hf with
  | nil => rfl
  | cons hx hrest =>
    simp only [eachJoin, hx, eachJoin_tailText body sep prio _ _ hrest, Shape.joinText]
    simp

theorem applyTable_union (lib : Lib) (h : Heap) (build : Build) (op : Op)
    (operands : List Nat) (seen : List Nat) (prio : Nat) :
    applyTable lib h build (op.type operands).TypeIdentifier seen (op.type operands) prio
      = (if prio ≥ orPrio then .wrote "(" else .wrote "")
          ++ eachJoin (fun x => build seen x op.prio) op.text true operands
          ++ (if prio ≥ orPrio then .wrote ")" else .wrote "") := by
  cases op <;> rfl

/-- The printer writes the text of the structure of an object that has one: with fuel for
the size of the structure, and a list `seen` of objects with larger structures. -/
theorem buildTypeString_of_HasShape (lib : Lib) (h : Heap) (sh : Shape) :
    ∀ (t fuel : Nat) (seen : List Nat) (prio : Nat), HasShape h t sh → sh.size ≤ fuel →
      (∀ s ∈ seen, ∃ shs, HasShape h s shs ∧ sh.size < shs.size) →
      buildTypeString lib h fuel seen t prio = .wrote (sh.text prio) := by
  induction sh using Shape.induct with
  | stringSized min max =>
    intro t fuel seen prio hs hf hseen
    have hnot := HasShape.not_mem_seen h t _ hs seen hseen
    cases hs with
    | stringSized _ _ _ hd =>
    cases fuel with
    | zero => simp [Shape.size] at hf
    | succ fuel =>
      rw [buildTypeString_complex lib h fuel seen t prio _ hd rfl hnot]
      simp only [applyTable, complexTypes, DgoType.TypeIdentifier, Shape.text]
      exact sizedText "string" min max
  | binary min max =>
    intro t fuel seen prio hs hf hseen
    have hnot := HasShape.not_mem_seen h t _ hs seen hseen
    cases hs with
    | binary _ _ _ hd =>
    cases fuel with
    | zero => simp [Shape.size] at hf
    | succ fuel =>
      rw [buildTypeString_complex lib h fuel seen t prio _ hd rfl hnot]
      simp only [applyTable, complexTypes, DgoType.TypeIdentifier, Shape.text]
      exact sizedText "binary" min max
  | integerRange min max inclusive =>
    intro t fuel seen prio hs hf hseen
    have hnot := HasShape.not_mem_seen h t _ hs seen hseen
    cases hs with
    | integerRange _ _ _ _ hd =>
    cases fuel with
    | zero => simp [Shape.size] at hf
    | succ fuel =>
      rw [buildTypeString_complex lib h fuel seen t prio _ hd rfl hnot]
      simp only [applyTable, complexTypes, DgoType.TypeIdentifier, Shape.text]
      exact writeIntRange_text min max inclusive
  | not operand ih =>
    intro t fuel seen prio hs hf hseen
    have hnot := HasShape.not_mem_seen h t _ hs seen hseen
    have hstep := HasShape.seen_step h t _ hs seen hseen
    cases hs with
    | not _ op _ hd hop =>
    cases fuel with
    | zero => simp [Shape.size] at hf
    | succ fuel =>
      simp only [Shape.size] at hf
      rw [buildTypeString_complex lib h fuel seen t prio _ hd rfl hnot]
      simp only [applyTable, complexTypes, DgoType.TypeIdentifier, Shape.text]
      rw [ih op fuel (seen ++ [t]) typePrio hop (by omega)
        (hstep operand (by simp [Shape.size]))]
      simp
  | array min max element ih =>
    intro t fuel seen prio hs hf hseen
    have hnot := HasShape.not_mem_seen h t _ hs seen hseen
    have hstep := HasShape.seen_step h t _ hs seen hseen
    cases hs with
    | array _ _ _ el _ hd hel =>
    cases fuel with
    | zero => simp [Shape.size] at hf
    | succ fuel =>
      simp only [Shape.size] at hf
      rw [buildTypeString_complex lib h fuel seen t prio _ hd rfl hnot]
      simp only [applyTable, complexTypes, DgoType.TypeIdentifier, Shape.text]
      rw [ih el fuel (seen ++ [t]) typePrio hel (by omega)
        (hstep element (by simp [Shape.size])), writeSizeBoundaries_eq]
      cases hu : Unbounded min max <;> simp [boundsText]
  | map key min max value ihk ihv =>
    intro t fuel seen prio hs hf hseen
    have hnot := HasShape.not_mem_seen h t _ hs seen hseen
    have hstep := HasShape.seen_step h t _ hs seen hseen
    cases hs with
    | map _ k _ _ v _ _ hd hk hv =>
    cases fuel with
    | zero => simp [Shape.size] at hf
    | succ fuel =>
      simp only [Shape.size] at hf
      rw [buildTypeString_complex lib h fuel seen t prio _ hd rfl hnot]
      simp only [applyTable, complexTypes, DgoType.TypeIdentifier, Shape.text]
      rw [ihk k fuel (seen ++ [t]) commaPrio hk (by omega)
        (hstep key (by simp only [Shape.size]; omega)),
        ihv v fuel (seen ++ [t]) typePrio hv (by omega)
        (hstep value (by simp only [Shape.size]; omega)), writeSizeBoundaries_eq]
      cases hu : Unbounded min max <;> simp [boundsText]
  | meta operand ih =>
    intro t fuel seen prio hs hf hseen
    have hnot := HasShape.not_mem_seen h t _ hs seen hseen
    have hstep := HasShape.seen_step h t _ hs seen hseen
    cases hs with
    | meta _ op _ hd hop =>
    obtain ⟨obj, hobj, hany, _⟩ := HasShape.deref h op operand hop
    cases fuel with
    | zero => simp [Shape.size] at hf
    | succ fuel =>
      simp only [Shape.size] at hf
      rw [buildTypeString_complex lib h fuel seen t prio _ hd rfl hnot]
      simp only [applyTable, complexTypes, DgoType.TypeIdentifier, Shape.text]
      rw [ih op fuel (seen ++ [t]) prio hop (by omega)
        (hstep operand (by simp [Shape.size]))]
      simp [hobj, hany, typeBracket_text]
  | union op first second rest iha ihb ihr =>
    intro t fuel seen prio hs hf hseen
    have hnot := HasShape.not_mem_seen h t _ hs seen hseen
    have hstep := HasShape.seen_step h t _ hs seen hseen
    cases hs with
    | union _ _ a b l _ _ _ hd ha hb hl =>
    cases fuel with
    | zero => simp [Shape.size] at hf
    | succ fuel =>
      simp only [Shape.size] at hf
      rw [buildTypeString_complex lib h fuel seen t prio _ hd (Op.type_complex op _).1 hnot,
        applyTable_union]
      have hrest := Forall₂_of_mem hl (S := fun x sh =>
          buildTypeString lib h fuel (seen ++ [t]) x op.prio = .wrote (Shape.text sh op.prio))
        (fun x sh hm hx => ihr sh hm x fuel (seen ++ [t]) op.prio hx
          (by have := Shape.size_le_sizeList rest sh hm; omega)
          (hstep sh (by
            have := Shape.size_le_sizeList rest sh hm
            simp only [Shape.size]; omega)))
      simp only [eachJoin, Shape.text,
        iha a fuel (seen ++ [t]) op.prio ha (by omega)
          (hstep first (by simp only [Shape.size]; omega)),
        ihb b fuel (seen ++ [t]) op.prio hb (by omega)
          (hstep second (by simp only [Shape.size]; omega)),
        eachJoin_tailText _ op.text op.prio l rest hrest]
      by_cases hp : prio ≥ orPrio
      · simp [hp, String.append_assoc]
      · simp [hp, String.append_assoc]
  | tuple elements ih =>
    intro t fuel seen prio hs hf hseen
    have hnot := HasShape.not_mem_seen h t _ hs seen hseen
    have hstep := HasShape.seen_step h t _ hs seen hseen
    cases hs with
    | tuple _ l _ hd hl =>
    cases fuel with
    | zero => simp [Shape.size] at hf
    | succ fuel =>
      simp only [Shape.size] at hf
      rw [buildTypeString_complex lib h fuel seen t prio _ hd rfl hnot]
      have hrest := Forall₂_of_mem hl (S := fun x sh =>
          buildTypeString lib h fuel (seen ++ [t]) (typeAsType x) commaPrio
            = .wrote (Shape.text sh commaPrio))
        (fun x sh hm hx => ih sh hm x fuel (seen ++ [t]) commaPrio hx
          (by have := Shape.size_le_sizeList elements sh hm; omega)
          (hstep sh (by
            have := Shape.size_le_sizeList elements sh hm
            simp only [Shape.size]; omega)))
      simp only [applyTable, complexTypes, DgoType.TypeIdentifier, Shape.text, joinTypes,
        joinX, eachJoin_joinText _ "," commaPrio l elements hrest]
      simp

/-- The function `TypeString` writes the text of the structure of an object that has one. -/
theorem TypeString_of_HasShape (lib : Lib) (h : Heap) (t : Nat) (sh : Shape)
    (hs : HasShape h t sh) : TypeString lib h t = .wrote (sh.text 0) := by
  have hfuel := (buildTypeString_fuel lib h (h.types.length + 1) [] t 0 List.nodup_nil
    (by simp) (by simp)).2 sh.size
  unfold TypeString
  rw [← hfuel]
  exact buildTypeString_of_HasShape lib h sh t _ [] 0 hs (by omega) (by simp)

/-- An object of a kind other than those of the structures has no structure. -/
theorem HasShape.none_of_kind (h : Heap) (t : Nat) (obj : DgoType)
    (hd : h.deref t = some obj)
    (hk : obj.TypeIdentifier ∉ [TypeIdentifier.TiStringSized, .TiBinary, .TiIntegerRange,
      .TiNot, .TiArray, .TiMap, .TiMeta, .TiAnyOf, .TiOneOf, .TiAllOf, .TiTuple]) :
    ¬ ∃ sh, HasShape h t sh := by
  rintro ⟨sh, hs⟩
  cases hs with
  | stringSized _ _ _ hd2 =>
    rw [hd] at hd2; cases hd2; simp [DgoType.TypeIdentifier] at hk
  | binary _ _ _ hd2 =>
    rw [hd] at hd2; cases hd2; simp [DgoType.TypeIdentifier] at hk
  | integerRange _ _ _ _ hd2 =>
    rw [hd] at hd2; cases hd2; simp [DgoType.TypeIdentifier] at hk
  | not _ _ _ hd2 _ =>
    rw [hd] at hd2; cases hd2; simp [DgoType.TypeIdentifier] at hk
  | array _ _ _ _ _ hd2 _ =>
    rw [hd] at hd2; cases hd2; simp [DgoType.TypeIdentifier] at hk
  | map _ _ _ _ _ _ _ hd2 _ _ =>
    rw [hd] at hd2; cases hd2; simp [DgoType.TypeIdentifier] at hk
  | meta _ _ _ hd2 _ =>
    rw [hd] at hd2; cases hd2; simp [DgoType.TypeIdentifier] at hk
  | union _ op _ _ _ _ _ _ hd2 _ _ _ =>
    rw [hd] at hd2; cases (Option.some.inj hd2)
    cases op <;> simp [Op.type, DgoType.TypeIdentifier] at hk
  | tuple _ _ _ hd2 _ =>
    rw [hd] at hd2; cases hd2; simp [DgoType.TypeIdentifier] at hk

/-- A union of fewer than two operands has no structure. -/
theorem HasShape.none_of_short (h : Heap) (t : Nat) (operands : List Nat)
    (hd : h.deref t = some (.anyOf operands)) (hl : operands.length < 2) :
    ¬ ∃ sh, HasShape h t sh := by
  rintro ⟨sh, hs⟩
  cases hs with
  | stringSized _ _ _ hd2 => rw [hd] at hd2; cases hd2
  | binary _ _ _ hd2 => rw [hd] at hd2; cases hd2
  | integerRange _ _ _ _ hd2 => rw [hd] at hd2; cases hd2
  | not _ _ _ hd2 _ => rw [hd] at hd2; cases hd2
  | array _ _ _ _ _ hd2 _ => rw [hd] at hd2; cases hd2
  | map _ _ _ _ _ _ _ hd2 _ _ => rw [hd] at hd2; cases hd2
  | meta _ _ _ hd2 _ => rw [hd] at hd2; cases hd2
  | union _ op _ _ _ _ _ _ hd2 _ _ _ =>
    rw [hd] at hd2
    cases op
    · cases hd2
      simp only [List.length_cons] at hl
      omega
    · cases hd2
    · cases hd2
  | tuple _ _ _ hd2 _ => rw [hd] at hd2; cases hd2

theorem nestedTypes_shape : HasShape nestedTypes 9 nestedShape :=
  .tuple 9 [7, 5] _ rfl
    (.cons
      (.union 7 .or 1 8 [6] _ _ _ rfl (.stringSized 1 1 10 rfl)
        (.union 8 .and 4 6 [] _ _ _ rfl (.integerRange 4 0 5 true rfl)
          (.binary 6 2 MaxInt64 rfl) .nil)
        (.cons (.binary 6 2 MaxInt64 rfl) .nil))
      (.cons
        (.meta 5 0 _ rfl
          (.map 0 1 0 MaxInt64 2 _ _ rfl (.stringSized 1 1 10 rfl)
            (.array 2 0 3 3 _ rfl (.not 3 4 _ rfl (.integerRange 4 0 5 true rfl)))))
        .nil))

/-! ## C10: the round trip -/

/-- C10, as stated, fails: different types render to the same text.  The empty tuple and
the empty record both render as `{}`; the record that only allows additional entries and
the tuple of the integer range without bounds both render as `{...}`; the tuple of an exact
type renders like the exact array of a value of this type; a union of one operand, a
native type and a type of a kind outside the table render like the sized string type
without bounds; an intersection of types renders like the intersection of values of these
types; the meta type of nil renders like the meta type of the meta type of any; two
recursive types that are not structurally equal (the element of the element of the one is a
tuple of one element, that of the other a tuple of two) render alike, because the
placeholder does not tell which type is referred to.  So no parser returns for each text
the type it was rendered from, and a type with a structure shares its text with types that
have none. -/
theorem roundtrip_counterexample :
    (TypeString sampleLib printAlike 0 = .wrote "\x7b\x7d" ∧
      TypeString sampleLib printAlike 1 = .wrote "\x7b\x7d" ∧
      printAlike.deref 0 = some (.tuple []) ∧
      printAlike.deref 1 = some (.struct [] false)) ∧
    (TypeString sampleLib printAlike 2 = .wrote "\x7b...\x7d" ∧
      TypeString sampleLib printAlike 3 = .wrote "\x7b...\x7d" ∧
      printAlike.deref 2 ≠ printAlike.deref 3) ∧
    (TypeString sampleLib printAlike 15 = .wrote "\x7b\"a\"\x7d" ∧
      TypeString sampleLib printAlike 16 = .wrote "\x7b\"a\"\x7d" ∧
      printAlike.deref 15 ≠ printAlike.deref 16) ∧
    (TypeString sampleLib printAlike 5 = .wrote "string" ∧
      TypeString sampleLib printAlike 6 = .wrote "string" ∧
      TypeString sampleLib printAlike 7 = .wrote "string" ∧
      TypeString sampleLib printAlike 8 = .wrote "string" ∧
      printAlike.deref 5 ≠ printAlike.deref 6 ∧ printAlike.deref 7 ≠ printAlike.deref 6 ∧
      printAlike.deref 8 ≠ printAlike.deref 6) ∧
    (TypeString sampleLib printAlike 9 = .wrote "\"a\"&3" ∧
      TypeString sampleLib printAlike 10 = .wrote "\"a\"&3" ∧
      printAlike.deref 9 ≠ printAlike.deref 10) ∧
    (TypeString sampleLib printAlike 11 = .wrote "type[type]" ∧
      TypeString sampleLib printAlike 12 = .wrote "type[type]" ∧
      printAlike.deref 11 ≠ printAlike.deref 12) ∧
    (TypeString sampleLib loops 0 = .wrote ("\x7b\x7b<recursive self reference to tuple type>"
        ++ ",<recursive self reference to tuple type>\x7d\x7d") ∧
      TypeString sampleLib loops 2 = TypeString sampleLib loops 0 ∧
      loops.deref 0 = some (.tuple [1]) ∧ loops.deref 1 = some (.tuple [0, 0]) ∧
      loops.deref 2 = some (.tuple [3]) ∧ loops.deref 3 = some (.tuple [3, 3])) ∧
    (¬ ∃ parse : Res → DgoType,
        parse (TypeString sampleLib printAlike 0) = .tuple [] ∧
        parse (TypeString sampleLib printAlike 1) = .struct [] false) ∧
    (HasShape printAlike 0 (.tuple []) ∧ (¬ ∃ sh, HasShape printAlike 1 sh) ∧
      HasShape printAlike 3 (.tuple [.integerRange MinInt64 MaxInt64 false]) ∧
      (¬ ∃ sh, HasShape printAlike 2 sh) ∧
      HasShape printAlike 6 (.stringSized 0 MaxInt64) ∧
      (¬ ∃ sh, HasShape printAlike 5 sh) ∧ (¬ ∃ sh, HasShape printAlike 7 sh) ∧
      (¬ ∃ sh, HasShape printAlike 8 sh)) := by
  have h0 : TypeString sampleLib printAlike 0 = .wrote "\x7b\x7d" := by decide
  have h1 : TypeString sampleLib printAlike 1 = .wrote "\x7b\x7d" := by decide
  refine ⟨⟨h0, h1, rfl, rfl⟩, ⟨by decide, by decide, by decide⟩,
    ⟨by decide, by decide, by decide⟩,
    ⟨by decide, by decide, by decide, by decide, by decide, by decide, by decide⟩,
    ⟨by decide, by decide, by decide⟩, ⟨by decide, by decide, by decide⟩,
    ⟨by decide, by decide, rfl, rfl, rfl, rfl⟩, ?_,
    ⟨.tuple 0 [] [] rfl .nil, ?_,
      .tuple 3 [4] _ rfl (.cons (.integerRange 4 MinInt64 MaxInt64 false rfl) .nil), ?_,
      .stringSized 6 0 MaxInt64 rfl, ?_, ?_, ?_⟩⟩
  · rintro ⟨parse, p0, p1⟩
    rw [h0] at p0
    rw [h1, p0] at p1
    exact absurd p1 (by decide)
  · exact HasShape.none_of_kind printAlike 1 _ rfl (by decide)
  · exact HasShape.none_of_kind printAlike 2 _ rfl (by decide)
  · exact HasShape.none_of_short printAlike 5 [6] rfl (by decide)
  · exact HasShape.none_of_kind printAlike 7 _ rfl (by decide)
  · exact HasShape.none_of_kind printAlike 8 _ rfl (by decide)

/-- C10, amended. The round trip cannot hold for every type, but it holds for the types
that have a `Shape`: the types built from sized string, sized binary and integer range
types by any nesting of negation, array, map, meta type and tuple and of unions, exclusive
unions and intersections of two or more types.  Such a type has one structure; `TypeString`
returns for it the text of its structure; two such types, in one heap or in two, render to
the same text exactly when they are structurally equal; and one parser returns, for the
text of every such type, its structure. -/
theorem TypeString_roundtrip_nested (lib : Lib) (h1 h2 : Heap) (t1 t2 : Nat)
    (sh1 sh2 : Shape) (hs1 : HasShape h1 t1 sh1) (hs2 : HasShape h2 t2 sh2) :
    (∀ sh, HasShape h1 t1 sh → sh = sh1) ∧
    TypeString lib h1 t1 = .wrote (sh1.text 0) ∧
    (TypeString lib h1 t1 = TypeString lib h2 t2 ↔ sh1 = sh2) ∧
    ∃ parse : String → Option Shape, ∀ (h : Heap) (t : Nat) (sh : Shape), HasShape h t sh →
      ∃ text, TypeString lib h t = .wrote text ∧ parse text = some sh := by
  have e1 := TypeString_of_HasShape lib h1 t1 sh1 hs1
  have e2 := TypeString_of_HasShape lib h2 t2 sh2 hs2
  refine ⟨fun sh hs => HasShape.unique h1 sh t1 sh1 hs hs1, e1, ⟨?_, ?_⟩, ?_⟩
  · intro heq
    rw [e1, e2] at heq
    exact Shape.text_injective sh1 sh2 0 (Res.wrote.inj heq)
  · intro heq
    rw [e1, e2, heq]
  · classical
    refine ⟨fun text => if hx : ∃ sh : Shape, sh.text 0 = text then some (Classical.choose hx)
      else none, ?_⟩
    intro h t sh hs
    refine ⟨sh.text 0, TypeString_of_HasShape lib h t sh hs, ?_⟩
    have hx : ∃ s : Shape, s.text 0 = sh.text 0 := ⟨sh, rfl⟩
    beta_reduce
    rw [dif_pos hx]
    exact congrArg some (Shape.text_injective _ _ 0 (Classical.choose_spec hx))

/-- Witness for the amended C10: the tuple of a union and of the meta type of a map from
sized strings to arrays of negated integer ranges. -/
theorem TypeString_roundtrip_nested_witness :
    HasShape nestedTypes 9 nestedShape ∧
      TypeString sampleLib nestedTypes 9 = .wrote
        "\x7bstring[1,10]|(0..5&binary[2])|binary[2],type[map[string[1,10]][0,3]!0..5]\x7d" ∧
      TypeString sampleLib nestedTypes 9 = .wrote (nestedShape.text 0) :=
  ⟨nestedTypes_shape, by decide,
   (TypeString_roundtrip_nested sampleLib nestedTypes nestedTypes 9 9 nestedShape nestedShape
    nestedTypes_shape nestedTypes_shape).2.1⟩

end Dgo
